import Mathlib

/-!
BTP relay pipeline (`chain/bsc/chain.go`) and the fragmenting Sender
(`chain/icon/sender.go`): shallow embedding.

The relay keeps a queue of pending relay messages (`SimpleChain.rms`), packs
each of them into size-bounded segments (`SimpleChain.Segment`), prunes the
queue when the destination acknowledges progress
(`SimpleChain.updateRelayMessage`) and feeds a Merkle tree accumulator with the
source chain's block hashes (`SimpleChain.updateMTA`).  The Sender of the
`icon` package cuts a payload that exceeds its transport limit into indexed
fragments (`sender.Relay`).

Conventions of the embedding.

* A Go slice is a `List`; a pointer that may be nil is an `Option`; the
  elements of the slices of pointers (`[]*BlockUpdate`, `[]*ReceiptProof`,
  `[]*Event`, `[]*EventProof`, `[]*RelayMessage`) are taken to be non-nil,
  except `RelayMessage.Segments`, whose nil elements the code tests for.
* `int64` values are integers; every `int64` addition and subtraction of the
  code goes through `wrap64` (two's complement), and `big.Int.Int64()` is
  `wrap64` as well.  Lengths and sums of lengths of in-memory slices (`int`)
  are integers built from `List.length`; they cannot reach `2^63`.
* In-place mutation through pointers becomes a functional update of the
  queue; a function that can return an error after it has already written to
  the queue returns the queue together with the outcome.
* An uncaught Go panic (a runtime fault or `log.Panicf`) is an explicit
  outcome (`Fault.crash`, `Outcome.crash`).
* Logging is dropped, but the arguments of a logging call are still
  evaluated, as Go does before the call: an index expression in an argument
  list faults exactly as it does in the source.
* What lives outside the two source files (the codec, the accumulator's
  witness generation and persistence, the Sender) is the record `Deps`.
* The callbacks `OnBlockOfSrc` and `OnBlockOfDst` and the dispatch pass
  `_relay` run under the queue lock or on the single dispatch goroutine; each
  is one atomic step (`Step`), and a run of the relay is a list of steps.
-/

/-- A byte string (`[]byte`). -/
abbrev Bytes := List UInt8

/-- Two's complement reduction of an integer to the `int64` range. -/
def wrap64 (x : Int) : Int := (x + 2 ^ 63) % 2 ^ 64 - 2 ^ 63

/-- The value is representable as an `int64`. -/
def isInt64 (x : Int) : Prop := -(2 ^ 63) ≤ x ∧ x < 2 ^ 63

instance (x : Int) : Decidable (isInt64 x) := by
  unfold isInt64; infer_instance

/-- Total length of a list of byte strings. -/
def totalLen (bs : List Bytes) : Int := ((bs.map List.length).sum : Nat)

/-- Go error values: the five `fmt.Errorf` values of `Segment`, in source
order, and the errors handed back by a collaborator. -/
inductive Err where
  | invalidBlockUpdateSize
  | invalidBlockProofSize
  | invalidReceiptProofSize
  | invalidEventProofSize
  | blockProofReceiptEventOverLimit
  | external (code : Nat)
deriving DecidableEq

/-- Uncaught panics: the runtime faults and the `log.Panicf` calls. -/
inductive Crash where
  | nilDereference
  | indexOutOfRange
  | sliceOutOfRange
  | invalidBu
  | missingBlock
  | flushFailed
  | segmentFailed
  | relayFailed
  | getResultFailed
  | interfaceConversion
  | divideByZero
deriving DecidableEq

/-- What stops a function that yields a value: an error value or a panic. -/
inductive Fault where
  | error (e : Err)
  | crash (c : Crash)
deriving DecidableEq

deriving instance DecidableEq for Except

namespace chain

/-- Go type `chain.BlockUpdate` (fields used by the sources). -/
structure BlockUpdate where
  Height : Int
  BlockHash : Bytes
  Header : Bytes
  Proof : Bytes
deriving DecidableEq

/-- Go type `chain.Event`; `Sequence` is a `*big.Int`. -/
structure Event where
  Sequence : Int
deriving DecidableEq

/-- Go type `chain.EventProof`. -/
structure EventProof where
  Proof : Bytes
deriving DecidableEq

/-- Go type `chain.ReceiptProof`. -/
structure ReceiptProof where
  Index : Int
  Proof : Bytes
  EventProofs : List EventProof
  Events : List Event
deriving DecidableEq

/-- Go type `chain.BlockWitness`. -/
structure BlockWitness where
  Height : Int
  Witness : List Bytes
deriving DecidableEq

/-- Go type `chain.BlockProof`; `BlockWitness` is a pointer. -/
structure BlockProof where
  Header : Bytes
  BlockWitness : Option BlockWitness
deriving DecidableEq

/-- Go type `chain.Segment`.  `GetResultParam` and `TransactionResult` are
interface values (nil or a handle); `EventSequence` is a `*big.Int`. -/
structure Segment where
  TransactionParam : Bytes
  GetResultParam : Option Nat
  TransactionResult : Option Nat
  Height : Int
  NumberOfBlockUpdate : Int
  EventSequence : Option Int
  NumberOfEvent : Int
deriving DecidableEq

/-- Go type `chain.RelayMessage`: one entry of the queue. -/
structure RelayMessage where
  From : String
  BlockUpdates : List BlockUpdate
  BlockProof : Option BlockProof
  ReceiptProofs : List ReceiptProof
  Seq : Nat
  HeightOfDst : Int
  Segments : List (Option Segment)
deriving DecidableEq

/-- Verifier part of `chain.BMCLinkStatus`. -/
structure VerifierStatus where
  Height : Int
  Extra : Bytes
deriving DecidableEq

/-- Go type `chain.BMCLinkStatus`; `RxSeq` and `TxSeq` are `*big.Int`. -/
structure BMCLinkStatus where
  TxSeq : Int
  RxSeq : Int
  Verifier : VerifierStatus
  CurrentHeight : Int
deriving DecidableEq

end chain

namespace mta

/-- Modelled from the spec: the accumulator library `common/mta` is not among
the sources.  The spec describes an append-only accumulator whose next
expected height is `height + 1`; it is a starting offset and the hashes
appended since. -/
structure ExtAccumulator where
  offset : Int
  hashes : List Bytes
deriving DecidableEq

/-- Modelled from the spec: `acc.Height()`, the offset plus the number of
appended hashes. -/
def ExtAccumulator.Height (a : ExtAccumulator) : Int := a.offset + a.hashes.length

/-- Modelled from the spec: `acc.AddHash(hash)` appends one block hash. -/
def ExtAccumulator.AddHash (a : ExtAccumulator) (hash : Bytes) : ExtAccumulator :=
  { a with hashes := a.hashes ++ [hash] }

/-- Go type `mta.Witness`, opaque to the relay: it only passes witnesses to
`mta.WitnessesToHashes`. -/
structure Witness where
  HashValue : Bytes
  Direction : Int
deriving DecidableEq

end mta

namespace bsc

/-- Go type `bsc.RelayMessage`, the message packed into one segment: three
exported fields and the four counters behind `GetHeight`/`SetHeight`,
`GetNumberOfBlockUpdate`/..., `GetEventSequence`/..., `GetNumberOfEvent`/... -/
structure RelayMessage where
  BlockUpdates : List Bytes
  BlockProof : Bytes
  ReceiptProofs : List Bytes
  height : Int
  numberOfBlockUpdate : Int
  eventSequence : Int
  numberOfEvent : Int
deriving DecidableEq

/-- Go type `bsc.ReceiptProof`, the packed form of a receipt proof. -/
structure ReceiptProof where
  Index : Int
  Proof : Bytes
  EventProofs : List chain.EventProof
deriving DecidableEq

/-- Go type `bsc.VerifierStatus_v1`, decoded from `Verifier.Extra`. -/
structure VerifierStatus_v1 where
  Offset : Int
  LastHeight : Int
deriving DecidableEq

/-- The collaborators of `SimpleChain` that are not in the sources: the
Sender (`TxSizeLimit`, `Relay`), the codec (`codec.RLP`), and the witness
generation and persistence of the accumulator. -/
structure Deps where
  TxSizeLimit : Int
  marshalRelayMessage : RelayMessage → Except Err Bytes
  marshalBlockProof : Option chain.BlockProof → Except Err Bytes
  marshalReceiptProof : ReceiptProof → Except Err Bytes
  unmarshalVerifierStatus : Bytes → Except Err VerifierStatus_v1
  WitnessForAt : mta.ExtAccumulator → Int → Int → Int → Except Err (Int × List mta.Witness)
  WitnessesToHashes : List mta.Witness → List Bytes
  Flush : mta.ExtAccumulator → Option Err
  Relay : chain.Segment → Except Err (Option Nat)

/-- Go type `bsc.SimpleChain` (fields that carry state). -/
structure SimpleChain where
  src : String
  dst : String
  acc : Option mta.ExtAccumulator
  bs : Option chain.BMCLinkStatus
  rms : List chain.RelayMessage
  rmSeq : Nat
  heightOfDst : Int
  lastBlockUpdate : Option chain.BlockUpdate
deriving DecidableEq

/-- Source `SimpleChain.isOverLimit`: `s.s.TxSizeLimit() < size`. -/
def isOverLimit (d : Deps) (size : Int) : Bool := decide (d.TxSizeLimit < size)

/-- The literal `&RelayMessage{BlockUpdates: make(..), ReceiptProofs: make(..)}`. -/
def emptyMsg : RelayMessage :=
  { BlockUpdates := [], BlockProof := [], ReceiptProofs := [],
    height := 0, numberOfBlockUpdate := 0, eventSequence := 0, numberOfEvent := 0 }

/-- The locals `segments`, `msg` and `size` of `Segment`. -/
structure SegmentState where
  segments : List chain.Segment
  msg : RelayMessage
  size : Int
deriving DecidableEq

/-- The segment literal of the block-update loop (lines 156-164): no event
fields are set. -/
def buSegment (msg : RelayMessage) (b : Bytes) : chain.Segment :=
  { TransactionParam := b, GetResultParam := none, TransactionResult := none,
    Height := msg.height, NumberOfBlockUpdate := msg.numberOfBlockUpdate,
    EventSequence := none, NumberOfEvent := 0 }

/-- The segment literal of the event loop and of the last segment
(lines 212-223 and 252-263). -/
def evSegment (msg : RelayMessage) (b : Bytes) : chain.Segment :=
  { TransactionParam := b, GetResultParam := none, TransactionResult := none,
    Height := msg.height, NumberOfBlockUpdate := msg.numberOfBlockUpdate,
    EventSequence := some msg.eventSequence, NumberOfEvent := msg.numberOfEvent }

/-- Lines 173-175: append the proof to `msg` and set its counters. -/
def packBlockUpdate (msg : RelayMessage) (bu : chain.BlockUpdate) : RelayMessage :=
  { msg with BlockUpdates := msg.BlockUpdates ++ [bu.Proof], height := bu.Height,
             numberOfBlockUpdate := msg.numberOfBlockUpdate + 1 }

/-- The block-update loop of `Segment` (lines 146-176). -/
def blockUpdateLoop (d : Deps) (height : Int) :
    List chain.BlockUpdate → SegmentState → Except Fault SegmentState
  | [], st => .ok st
  | bu :: rest, st =>
    if bu.Height ≤ height then blockUpdateLoop d height rest st
    else
      let buSize : Int := bu.Proof.length
      if isOverLimit d buSize then .error (.error .invalidBlockUpdateSize)
      else
        let size := st.size + buSize
        if isOverLimit d size then
          match d.marshalRelayMessage st.msg with
          | .error e => .error (.error e)
          | .ok b =>
            blockUpdateLoop d height rest
              { segments := st.segments ++ [buSegment st.msg b],
                msg := packBlockUpdate emptyMsg bu, size := buSize }
        else
          blockUpdateLoop d height rest
            { st with msg := packBlockUpdate st.msg bu, size := size }

/-- The literal `&ReceiptProof{Index: rp.Index, Proof: rp.Proof, EventProofs: make(..)}`. -/
def newTrp (rp : chain.ReceiptProof) : ReceiptProof :=
  { Index := rp.Index, Proof := rp.Proof, EventProofs := [] }

/-- Lines 241-243: append the event proof to `trp`, read `rp.Events[j]` and
set the event counters of `msg`. -/
def packEvent (rp : chain.ReceiptProof) (j : Nat) (ep : chain.EventProof)
    (st : SegmentState) (trp : ReceiptProof) : Except Fault (SegmentState × ReceiptProof) :=
  match rp.Events.get? j with
  | none => .error (.crash .indexOutOfRange)
  | some ev =>
    .ok ({ st with msg := { st.msg with eventSequence := wrap64 ev.Sequence,
                                        numberOfEvent := st.msg.numberOfEvent + 1 } },
         { trp with EventProofs := trp.EventProofs ++ [ep] })

/-- The event-proof loop of `Segment` (lines 202-244) from index `j` on. -/
def eventLoop (d : Deps) (bp : Bytes) (rp : chain.ReceiptProof) :
    List chain.EventProof → Nat → SegmentState → ReceiptProof →
      Except Fault (SegmentState × ReceiptProof)
  | [], _, st, trp => .ok (st, trp)
  | ep :: rest, j, st, trp =>
    if isOverLimit d (ep.Proof.length : Int) then .error (.error .invalidEventProofSize)
    else
      let size := st.size + (ep.Proof.length : Int)
      if isOverLimit d size then
        if j = 0 ∧ st.msg.BlockUpdates.length = 0 then
          .error (.error .blockProofReceiptEventOverLimit)
        else
          match d.marshalRelayMessage st.msg with
          | .error e => .error (.error e)
          | .ok b =>
            let st1 : SegmentState :=
              { segments := st.segments ++ [evSegment st.msg b],
                msg := { emptyMsg with BlockProof := bp },
                size := (ep.Proof.length : Int) + (rp.Proof.length : Int) + (bp.length : Int) }
            match packEvent rp j ep st1 (newTrp rp) with
            | .error f => .error f
            | .ok (st2, trp2) => eventLoop d bp rp rest (j + 1) st2 trp2
      else
        match packEvent rp j ep { st with size := size } trp with
        | .error f => .error f
        | .ok (st2, trp2) => eventLoop d bp rp rest (j + 1) st2 trp2

/-- Lines 191-195: when `msg` carries no block update, count and attach the
block proof and read `rm.BlockProof.BlockWitness.Height`. -/
def attachBlockProof (rm : chain.RelayMessage) (bp : Bytes) (st : SegmentState) :
    Except Fault SegmentState :=
  if st.msg.BlockUpdates.length = 0 then
    match rm.BlockProof with
    | none => .error (.crash .nilDereference)
    | some p =>
      match p.BlockWitness with
      | none => .error (.crash .nilDereference)
      | some w =>
        .ok { st with size := st.size + (bp.length : Int),
                      msg := { st.msg with BlockProof := bp, height := w.Height } }
  else .ok st

/-- The receipt-proof loop of `Segment` (lines 187-250). -/
def receiptLoop (d : Deps) (rm : chain.RelayMessage) (bp : Bytes) :
    List chain.ReceiptProof → SegmentState → Except Fault SegmentState
  | [], st => .ok st
  | rp :: rest, st =>
    if isOverLimit d (rp.Proof.length : Int) then .error (.error .invalidReceiptProofSize)
    else
      match attachBlockProof rm bp st with
      | .error f => .error f
      | .ok st1 =>
        match eventLoop d bp rp rp.EventProofs 0
            { st1 with size := st1.size + (rp.Proof.length : Int) } (newTrp rp) with
        | .error f => .error f
        | .ok (st2, trp) =>
          match d.marshalReceiptProof trp with
          | .error e => .error (.error e)
          | .ok b =>
            receiptLoop d rm bp rest
              { st2 with msg := { st2.msg with ReceiptProofs := st2.msg.ReceiptProofs ++ [b] } }

/-- Source `SimpleChain.Segment(rm, height)` (lines 136-266). -/
def Segment (d : Deps) (rm : chain.RelayMessage) (height : Int) :
    Except Fault (List chain.Segment) :=
  match blockUpdateLoop d height rm.BlockUpdates
      { segments := [], msg := emptyMsg, size := 0 } with
  | .error f => .error f
  | .ok st =>
    match d.marshalBlockProof rm.BlockProof with
    | .error e => .error (.error e)
    | .ok bp =>
      if isOverLimit d (bp.length : Int) then .error (.error .invalidBlockProofSize)
      else
        match receiptLoop d rm bp rm.ReceiptProofs st with
        | .error f => .error f
        | .ok st1 =>
          match d.marshalRelayMessage st1.msg with
          | .error e => .error (.error e)
          | .ok b => .ok (st1.segments ++ [evSegment st1.msg b])

/-- How a call that works on the chain state ends: it returned, it returned
an error, or it panicked.  Each case carries the state at that moment. -/
inductive Outcome where
  | done (s : SimpleChain)
  | failed (s : SimpleChain) (e : Err)
  | crash (s : SimpleChain) (c : Crash)
deriving DecidableEq

/-- The chain state an outcome carries. -/
def Outcome.state : Outcome → SimpleChain
  | .done s => s
  | .failed s _ => s
  | .crash s _ => s

/-- The call returned to its caller (with or without an error). -/
def Outcome.returned : Outcome → Bool
  | .crash _ _ => false
  | _ => true

/-- The entry literal of `_rm` (lines 318-322). -/
def freshEntry (s : SimpleChain) : chain.RelayMessage :=
  { From := s.src, BlockUpdates := [], BlockProof := none, ReceiptProofs := [],
    Seq := s.rmSeq, HeightOfDst := 0, Segments := [] }

/-- Source `SimpleChain._rm` (lines 317-326): push a fresh entry; `rmSeq` is a
`uint64`. -/
def _rm (s : SimpleChain) : SimpleChain :=
  { s with rms := s.rms ++ [freshEntry s], rmSeq := (s.rmSeq + 1) % 2 ^ 64 }

/-- Source `NewChain` (lines 672-684): an empty queue, then `s._rm()`. -/
def NewChain (src dst : String) : SimpleChain :=
  _rm { src := src, dst := dst, acc := none, bs := none, rms := [], rmSeq := 0,
        heightOfDst := 0, lastBlockUpdate := none }

/-- Write through the pointer `rm` that designates the last entry of the queue. -/
def modifyLast (f : chain.RelayMessage → chain.RelayMessage) :
    List chain.RelayMessage → List chain.RelayMessage
  | [] => []
  | [rm] => [f rm]
  | rm :: rm2 :: rest => rm :: modifyLast f (rm2 :: rest)

/-- The gap test of `addRelayMessage` (lines 332-337). -/
def invalidBu (s : SimpleChain) (bu : chain.BlockUpdate) : Bool :=
  match s.lastBlockUpdate with
  | none => false
  | some last => decide (wrap64 (last.Height + 1) ≠ bu.Height)

/-- Source `SimpleChain.addRelayMessage` (lines 328-356). -/
def addRelayMessage (s : SimpleChain) (bu : chain.BlockUpdate)
    (rps : List chain.ReceiptProof) : Outcome :=
  if invalidBu s bu then .crash s .invalidBu
  else
    let s1 := { s with lastBlockUpdate := some bu }
    match s1.rms.getLast? with
    | none => .crash s1 .indexOutOfRange
    | some rm =>
      let s2 := if rm.Segments.length > 0 then _rm s1 else s1
      if rps.length > 0 then
        .done (_rm { s2 with rms := modifyLast (fun e =>
          { e with BlockUpdates := e.BlockUpdates ++ [bu], ReceiptProofs := rps,
                   HeightOfDst := s2.heightOfDst }) s2.rms })
      else
        match s2.bs with
        | none => .crash s2 .nilDereference
        | some bs =>
          if bu.Height ≤ bs.Verifier.Height then .done s2
          else .done { s2 with rms := modifyLast (fun e =>
            { e with BlockUpdates := e.BlockUpdates ++ [bu] }) s2.rms }

/-- Source `SimpleChain.newBlockProof` (lines 484-509).  `dumpBlockProof` only
prints. -/
def newBlockProof (d : Deps) (s : SimpleChain) (height : Int) (header : Bytes) :
    Except Fault chain.BlockProof :=
  match s.bs with
  | none => .error (.crash .nilDereference)
  | some bs =>
    match d.unmarshalVerifierStatus bs.Verifier.Extra with
    | .error e => .error (.error e)
    | .ok vs =>
      match s.acc with
      | none => .error (.crash .nilDereference)
      | some acc =>
        match d.WitnessForAt acc height bs.Verifier.Height vs.Offset with
        | .error e => .error (.error e)
        | .ok (atHeight, w) =>
          .ok { Header := header,
                BlockWitness := some { Height := atHeight, Witness := d.WitnessesToHashes w } }

/-- What one round of `rpLoop` does with a receipt proof. -/
inductive RpStep where
  | stop
  | remove
  | slice (rp : chain.ReceiptProof)
  | crash (rp : chain.ReceiptProof) (c : Crash)
deriving DecidableEq

/-- The body of `rpLoop` (lines 371-388) for the receipt proof `rp` of entry
`rm`.  The `Debugf` call of the else branch indexes
`rm.BlockUpdates[len(rm.BlockUpdates)-1]`. -/
def rpStep (seq : Int) (rm : chain.RelayMessage) (rp : chain.ReceiptProof) : RpStep :=
  match rp.Events with
  | [] => .crash rp .indexOutOfRange
  | ev :: _ =>
    let revt := wrap64 (wrap64 (seq - wrap64 ev.Sequence) + 1)
    if revt < 1 then .stop
    else if revt ≥ (rp.Events.length : Int) then .remove
    else if rm.BlockUpdates.length = 0 then .crash rp .indexOutOfRange
    else
      let rp1 := { rp with Events := rp.Events.drop revt.toNat }
      if rp.EventProofs.length > 0 then
        if revt > (rp.EventProofs.length : Int) then .crash rp1 .sliceOutOfRange
        else .slice { rp1 with EventProofs := rp.EventProofs.drop revt.toNat }
      else .slice rp1

/-- The loop `rpLoop` (lines 369-389) from index `j` on, with the current
`rrp`: the receipt proofs as the loop leaves them, the final `rrp`, and the
panic that ended the loop, if any. -/
def rpLoop (seq : Int) (rm : chain.RelayMessage) :
    List chain.ReceiptProof → Nat → Nat → List chain.ReceiptProof × Nat × Option Crash
  | [], _, rrp => ([], rrp, none)
  | rp :: rest, j, rrp =>
    match rpStep seq rm rp with
    | .stop => (rp :: rest, rrp, none)
    | .remove =>
      let r := rpLoop seq rm rest (j + 1) (j + 1)
      (rp :: r.1, r.2.1, r.2.2)
    | .slice rp1 =>
      let r := rpLoop seq rm rest (j + 1) rrp
      (rp1 :: r.1, r.2.1, r.2.2)
    | .crash rp1 c => (rp1 :: rest, rrp, some c)

/-- Receipt-proof pruning of one entry (lines 367-398).  The `Debugf` call
before the removal indexes `rm.BlockUpdates[len(rm.BlockUpdates)-1]`. -/
def pruneReceipts (seq : Int) (rm : chain.RelayMessage) : chain.RelayMessage × Option Crash :=
  if rm.ReceiptProofs.length > 0 then
    let r := rpLoop seq rm rm.ReceiptProofs 0 0
    let rm1 := { rm with ReceiptProofs := r.1 }
    match r.2.2 with
    | some c => (rm1, some c)
    | none =>
      if r.2.1 > 0 then
        if rm1.BlockUpdates.length = 0 then (rm1, some .indexOutOfRange)
        else ({ rm1 with ReceiptProofs := r.1.drop r.2.1 }, none)
      else (rm1, none)
  else (rm, none)

/-- How the body of `rmLoop` leaves the loop. -/
inductive Ctl where
  | next
  | stop
  | fail (e : Err)
  | crash (c : Crash)
deriving DecidableEq

/-- Result of the body of `rmLoop` for entry `i`: the entry as written, whether
`rrm = i + 1` was executed, and how the body ended. -/
structure EntryStep where
  rm : chain.RelayMessage
  marked : Bool
  ctl : Ctl
deriving DecidableEq

/-- Block-proof refresh (lines 399-407).  On an error the assignment
`rm.BlockProof, err = s.newBlockProof(..)` has stored nil. -/
def refreshBlockProof (d : Deps) (s : SimpleChain) (rm : chain.RelayMessage) : EntryStep :=
  match rm.BlockProof with
  | none => { rm := rm, marked := false, ctl := .next }
  | some bp =>
    if rm.ReceiptProofs.length > 0 then
      match bp.BlockWitness with
      | none => { rm := rm, marked := false, ctl := .crash .nilDereference }
      | some w =>
        match newBlockProof d s w.Height bp.Header with
        | .ok bp1 => { rm := { rm with BlockProof := some bp1 }, marked := false, ctl := .next }
        | .error (.error e) =>
          { rm := { rm with BlockProof := none }, marked := false, ctl := .fail e }
        | .error (.crash c) => { rm := rm, marked := false, ctl := .crash c }
    else { rm := rm, marked := true, ctl := .next }

/-- Block-update pruning (lines 408-430); `marked` is what the refresh left. -/
def pruneBlockUpdates (d : Deps) (s : SimpleChain) (h : Int) (rm : chain.RelayMessage)
    (marked : Bool) : EntryStep :=
  match rm.BlockUpdates with
  | [] => { rm := rm, marked := marked, ctl := .next }
  | bu0 :: tl =>
    let rbu := wrap64 (wrap64 (h - bu0.Height) + 1)
    if rbu < 1 then { rm := rm, marked := marked, ctl := .stop }
    else if rbu ≥ (rm.BlockUpdates.length : Int) then
      if rm.ReceiptProofs.length > 0 then
        let lbu := (bu0 :: tl).getLastD bu0
        match newBlockProof d s lbu.Height lbu.Header with
        | .ok bp =>
          { rm := { rm with BlockProof := some bp, BlockUpdates := [] },
            marked := marked, ctl := .next }
        | .error (.error e) =>
          { rm := { rm with BlockProof := none }, marked := marked, ctl := .fail e }
        | .error (.crash c) => { rm := rm, marked := marked, ctl := .crash c }
      else { rm := rm, marked := true, ctl := .next }
    else
      { rm := { rm with BlockUpdates := rm.BlockUpdates.drop rbu.toNat },
        marked := marked, ctl := .next }

/-- The body of `rmLoop` (lines 367-430) for one entry. -/
def updateEntry (d : Deps) (s : SimpleChain) (h seq : Int) (rm : chain.RelayMessage) :
    EntryStep :=
  match pruneReceipts seq rm with
  | (rm1, some c) => { rm := rm1, marked := false, ctl := .crash c }
  | (rm1, none) =>
    let r := refreshBlockProof d s rm1
    match r.ctl with
    | .next => pruneBlockUpdates d s h r.rm r.marked
    | _ => r

/-- The loop `rmLoop` (lines 366-431) from entry `i` on, with the current
`rrm`: the entries as the loop leaves them, the final `rrm`, and how the loop
ended (`next`: ran to the end; `stop`: `break rmLoop`). -/
def rmLoop (d : Deps) (s : SimpleChain) (h seq : Int) :
    List chain.RelayMessage → Nat → Nat → List chain.RelayMessage × Nat × Ctl
  | [], _, rrm => ([], rrm, .next)
  | rm :: rest, i, rrm =>
    let r := updateEntry d s h seq rm
    let rrm1 := if r.marked then i + 1 else rrm
    match r.ctl with
    | .next =>
      let t := rmLoop d s h seq rest (i + 1) rrm1
      (r.rm :: t.1, t.2.1, t.2.2)
    | c => (r.rm :: rest, rrm1, c)

/-- Lines 432-441: drop the first `rrm` entries; a queue left empty gets a
fresh entry. -/
def dropRemoved (s : SimpleChain) (rrm : Nat) : SimpleChain :=
  if rrm > 0 then
    if (s.rms.drop rrm).length = 0 then _rm { s with rms := s.rms.drop rrm }
    else { s with rms := s.rms.drop rrm }
  else s

/-- Source `SimpleChain.updateRelayMessage(h, seq)` (lines 358-443). -/
def updateRelayMessage (d : Deps) (s : SimpleChain) (h seq : Int) : Outcome :=
  let r := rmLoop d s h seq s.rms 0 0
  match r.2.2 with
  | .crash c => .crash { s with rms := r.1 } c
  | .fail e => .failed { s with rms := r.1 } e
  | _ => .done (dropRemoved { s with rms := r.1 } r.2.1)

/-- Source `SimpleChain.updateMTA` (lines 445-458). -/
def updateMTA (d : Deps) (s : SimpleChain) (bu : chain.BlockUpdate) : Outcome :=
  match s.acc with
  | none => .crash s .nilDereference
  | some acc =>
    let next := wrap64 (acc.Height + 1)
    if next < bu.Height then .crash s .missingBlock
    else if next = bu.Height then
      let s1 := { s with acc := some (acc.AddHash bu.BlockHash) }
      match d.Flush (acc.AddHash bu.BlockHash) with
      | some _ => .crash s1 .flushFailed
      | none => .done s1
    else .done s

/-- Source `SimpleChain.OnBlockOfSrc` (lines 477-482); the wake-up send on
`relayCh` is not part of the state. -/
def OnBlockOfSrc (d : Deps) (s : SimpleChain) (bu : chain.BlockUpdate)
    (rps : List chain.ReceiptProof) : Outcome :=
  match updateMTA d s bu with
  | .done s1 => addRelayMessage s1 bu rps
  | o => o

/-- Feed a sequence of source blocks, one `OnBlockOfSrc` call each; a call that
does not return ends the run. -/
def feedBlocks (d : Deps) :
    SimpleChain → List (chain.BlockUpdate × List chain.ReceiptProof) → Outcome
  | s, [] => .done s
  | s, (bu, rps) :: rest =>
    match OnBlockOfSrc d s bu rps with
    | .done s1 => feedBlocks d s1 rest
    | o => o

/-- Source `SimpleChain._hasWait` (lines 65-72): some segment has a result
handle and no result yet. -/
def _hasWait (rm : chain.RelayMessage) : Bool :=
  rm.Segments.any (fun seg =>
    match seg with
    | none => false
    | some sg => sg.GetResultParam.isSome && sg.TransactionResult.isNone)

/-- One call of `Sender.Relay` made by `_relay`: the position of the entry in
the queue, the position of the segment in the entry, and the segment passed. -/
structure RelayCall where
  entry : Nat
  index : Nat
  segment : chain.Segment
deriving DecidableEq

/-- The segment loop of `_relay` (lines 110-124) for entry `i`, from segment
`j` on, with the current `reSegment`: the segments as the loop leaves them, the
final `reSegment`, the `Sender.Relay` calls in order, and the panic that ended
the loop, if any.  The result task started by `go s.result(rm, segment)` runs
concurrently and is not part of the pass. -/
def relaySegments (d : Deps) (i : Nat) :
    List (Option chain.Segment) → Nat → Bool →
      List (Option chain.Segment) × Bool × List RelayCall × Option Crash
  | [], _, re => ([], re, [], none)
  | none :: rest, j, re =>
    let r := relaySegments d i rest (j + 1) re
    (none :: r.1, r.2.1, r.2.2.1, r.2.2.2)
  | some sg :: rest, j, _ =>
    match sg.GetResultParam with
    | none =>
      let sg1 := { sg with TransactionResult := none }
      match d.Relay sg1 with
      | .error _ =>
        (some sg1 :: rest, false, [{ entry := i, index := j, segment := sg1 }], some .relayFailed)
      | .ok p =>
        let r := relaySegments d i rest (j + 1) false
        (some { sg1 with GetResultParam := p } :: r.1, r.2.1,
          { entry := i, index := j, segment := sg1 } :: r.2.2.1, r.2.2.2)
    | some _ =>
      let r := relaySegments d i rest (j + 1) false
      (some sg :: r.1, r.2.1, r.2.2.1, r.2.2.2)

/-- Lines 103-107 of `_relay`: an entry without segments is segmented at the
verifier height `s.bs.Verifier.Height`; an error of `Segment` is fatal. -/
def segmentIfEmpty (d : Deps) (height : Option Int) (rm : chain.RelayMessage) :
    chain.RelayMessage × Option Crash :=
  if rm.Segments.length = 0 then
    match height with
    | none => (rm, some .nilDereference)
    | some h =>
      match Segment d rm h with
      | .ok segs => ({ rm with Segments := segs.map some }, none)
      | .error (.error _) => ({ rm with Segments := [] }, some .segmentFailed)
      | .error (.crash c) => (rm, some c)
  else (rm, none)

/-- The test that ends a dispatch pass at an entry (line 100). -/
def stopsRelay (rm : chain.RelayMessage) : Bool :=
  (decide (rm.BlockUpdates.length = 0) && decide (rm.ReceiptProofs.length = 0)) || _hasWait rm

/-- The entry loop of `_relay` (lines 99-129) from entry `i` on: the entries
as the loop leaves them, the `Sender.Relay` calls in order, and the panic that
ended the pass, if any. -/
def relayLoop (d : Deps) (height : Option Int) :
    List chain.RelayMessage → Nat → List chain.RelayMessage × List RelayCall × Option Crash
  | [], _ => ([], [], none)
  | rm :: rest, i =>
    if stopsRelay rm then (rm :: rest, [], none)
    else
      match segmentIfEmpty d height rm with
      | (rm1, some c) => (rm1 :: rest, [], some c)
      | (rm1, none) =>
        let r := relaySegments d i rm1.Segments 0 true
        match r.2.2.2 with
        | some c => ({ rm1 with Segments := r.1 } :: rest, r.2.2.1, some c)
        | none =>
          let t := relayLoop d height rest (i + 1)
          ({ rm1 with Segments := if r.2.1 then [] else r.1 } :: t.1, r.2.2.1 ++ t.2.1, t.2.2)

/-- Source `SimpleChain._relay` (lines 95-130), one dispatch pass: the chain
state after the pass, the `Sender.Relay` calls it made, in order, and the
panic that ended it, if any. -/
def _relay (d : Deps) (s : SimpleChain) : SimpleChain × List RelayCall × Option Crash :=
  let r := relayLoop d (s.bs.map (fun bs => bs.Verifier.Height)) s.rms 0
  ({ s with rms := r.1 }, r.2.1, r.2.2)

/-! Specification predicates and concrete inputs. -/

/-- A segment whose `TransactionParam` encodes a packed message with at most
`TxSizeLimit()` bytes of block-update proofs and at most `TxSizeLimit()`
block-proof bytes. -/
def SegmentWithin (d : Deps) (seg : chain.Segment) : Prop :=
  ∃ msg : RelayMessage, d.marshalRelayMessage msg = .ok seg.TransactionParam ∧
    totalLen msg.BlockUpdates ≤ d.TxSizeLimit ∧ (msg.BlockProof.length : Int) ≤ d.TxSizeLimit

/-- The segment carries the encoding of the packed message `msg`. -/
def PackedAs (d : Deps) (seg : chain.Segment) (msg : RelayMessage) : Prop :=
  d.marshalRelayMessage msg = .ok seg.TransactionParam

/-- The block-update proofs packed so far, in the closed segments and then in
the message under construction, are `proofs`. -/
def PacksBlockUpdates (d : Deps) (st : SegmentState) (proofs : List Bytes) : Prop :=
  ∃ msgs : List RelayMessage, List.Forall₂ (PackedAs d) st.segments msgs ∧
    (msgs.map (fun m => m.BlockUpdates)).flatten ++ st.msg.BlockUpdates = proofs

/-- A codec whose output is at least as long as the byte strings it carries. -/
def CodecCarries (d : Deps) : Prop :=
  (∀ m b, d.marshalRelayMessage m = .ok b →
    totalLen m.BlockUpdates + (m.BlockProof.length : Int) + totalLen m.ReceiptProofs
      ≤ (b.length : Int)) ∧
  (∀ t b, d.marshalReceiptProof t = .ok b →
    (t.Proof.length : Int) + totalLen (t.EventProofs.map (fun ep => ep.Proof))
      ≤ (b.length : Int)) ∧
  (∀ p b, d.marshalBlockProof (some p) = .ok b →
    (p.Header.length : Int) +
        totalLen (match p.BlockWitness with | none => [] | some w => w.Witness)
      ≤ (b.length : Int))

/-- Stand-ins for the collaborators, to run the model on concrete inputs.  The
codec writes the fixed bytes `frame` and then the byte strings it is given, in
order; the accumulator answers a witness request for block `height` as seen
from `atHeight` with the height `atHeight` and the one hash `[height]`; a
flush never fails; the Sender accepts every segment and returns the handle 1. -/
def stubDeps (limit : Int) (frame : Bytes) : Deps :=
  { TxSizeLimit := limit
    marshalRelayMessage := fun m =>
      .ok (frame ++ m.BlockUpdates.flatten ++ m.BlockProof ++ m.ReceiptProofs.flatten)
    marshalBlockProof := fun p =>
      match p with
      | none => .ok []
      | some p =>
        .ok (p.Header ++ (match p.BlockWitness with | none => [] | some w => w.Witness).flatten)
    marshalReceiptProof := fun t =>
      .ok (t.Proof ++ (t.EventProofs.map (fun ep => ep.Proof)).flatten)
    unmarshalVerifierStatus := fun _ => .ok { Offset := 0, LastHeight := 0 }
    WitnessForAt := fun _ height atHeight _ =>
      .ok (atHeight, [{ HashValue := [UInt8.ofNat height.toNat], Direction := 0 }])
    WitnessesToHashes := fun ws => ws.map (fun w => w.HashValue)
    Flush := fun _ => none
    Relay := fun _ => .ok (some 1) }

/-- A byte string of `n` bytes, each equal to `b`. -/
def fill (n : Nat) (b : UInt8) : Bytes := List.replicate n b

/-- A queue entry with the given block updates, block proof and receipt
proofs, and no segments. -/
def entryOf (seq : Nat) (bus : List chain.BlockUpdate) (bp : Option chain.BlockProof)
    (rps : List chain.ReceiptProof) : chain.RelayMessage :=
  { From := "src", BlockUpdates := bus, BlockProof := bp, ReceiptProofs := rps,
    Seq := seq, HeightOfDst := 0, Segments := [] }

/-- The block update of height `h` whose header is the byte `h` and whose proof
has `n` bytes. -/
def blockAt (h : Nat) (n : Nat) : chain.BlockUpdate :=
  { Height := h, BlockHash := [UInt8.ofNat h], Header := [UInt8.ofNat h], Proof := fill n 1 }

/-- A receipt proof with a proof of `n` bytes whose events carry the
sequences `s0, s0 + 1, ...`, one per event proof; event proof `k` is
filled with the byte `0xA0 + k`. -/
def receiptAt (n : Nat) (s0 : Nat) (sizes : List Nat) : chain.ReceiptProof :=
  { Index := 0, Proof := fill n 2,
    EventProofs := sizes.enum.map (fun p => { Proof := fill p.2 (UInt8.ofNat (160 + p.1)) }),
    Events := sizes.enum.map (fun p => { Sequence := ((s0 + p.1 : Nat) : Int) }) }

/-- A running chain: accumulator at height `accHeight`, destination verifier
at height `vh`, the given queue. -/
def chainOf (accHeight : Nat) (vh : Int) (rms : List chain.RelayMessage) : SimpleChain :=
  { src := "src", dst := "dst",
    acc := some { offset := 0, hashes := List.replicate accHeight [] },
    bs := some { TxSeq := 0, RxSeq := 0, Verifier := { Height := vh, Extra := [] },
                 CurrentHeight := 0 },
    rms := rms, rmSeq := 9, heightOfDst := 0, lastBlockUpdate := none }

/-- The heights of the blocks are `h + 1`, `h + 2`, ... in this order. -/
def contiguousFrom : Int → List (chain.BlockUpdate × List chain.ReceiptProof) → Bool
  | _, [] => true
  | h, (bu, _) :: rest => decide (bu.Height = h + 1) && contiguousFrom (h + 1) rest

/-- Each block's height is one more than the height of the block before it. -/
def stepsByOne : List (chain.BlockUpdate × List chain.ReceiptProof) → Bool
  | [] => true
  | (bu, _) :: rest => contiguousFrom bu.Height rest

/-- Source blocks of heights `h + 1, ..., h + n` without receipt proofs. -/
def blocksFrom (h : Nat) (n : Nat) : List (chain.BlockUpdate × List chain.ReceiptProof) :=
  (List.range n).map (fun k => (blockAt (h + 1 + k) 0, []))

/-- An entry whose only segment has been submitted and has no result yet. -/
def waitingEntry (seq : Nat) (h : Nat) : chain.RelayMessage :=
  { entryOf seq [blockAt h 1] none [] with
    Segments := [some { TransactionParam := [1], GetResultParam := some 7,
                        TransactionResult := none, Height := h, NumberOfBlockUpdate := 1,
                        EventSequence := some 0, NumberOfEvent := 0 }] }

/-! Result reconciliation and segment update. -/

/-- The error value of `Sender.GetResult` as `errors.CoderOf` sees it: an
error that carries a code, or one that carries none. -/
inductive ResultError where
  | coded (code : Int)
  | uncoded
deriving DecidableEq

/-- The error codes `result` switches on (lines 296-303); they are declared
outside the sources. -/
structure ErrorCodes where
  BMVUnknown : Int
  BMVNotVerifiable : Int
  BMVAlreadyVerified : Int
  BMCRevertUnauthorized : Int
deriving DecidableEq

/-- Source `SimpleChain.result` (lines 288-315) on one segment; `GetResult` is
the Sender's method, giving the transaction result and the error.  The `switch`
takes the first case that matches. -/
def result (codes : ErrorCodes) (GetResult : Option Nat → Option Nat × Option ResultError)
    (segment : chain.Segment) : chain.Segment × Option Crash :=
  let seg1 := { segment with TransactionResult := (GetResult segment.GetResultParam).1 }
  match (GetResult segment.GetResultParam).2 with
  | none => (seg1, none)
  | some .uncoded => (seg1, none)
  | some (.coded code) =>
    if code = codes.BMVUnknown then (seg1, none)
    else if code = codes.BMVNotVerifiable then ({ seg1 with GetResultParam := none }, none)
    else if code = codes.BMVAlreadyVerified then ({ seg1 with GetResultParam := none }, none)
    else if code = codes.BMCRevertUnauthorized then ({ seg1 with GetResultParam := none }, none)
    else (seg1, some .getResultFailed)

/-- Go type `bsc.BMCRelayMethodParams`. -/
structure BMCRelayMethodParams where
  Prev : String
  Messages : String
deriving DecidableEq

/-- Go type `bsc.CallData`; `Params` is an interface value, nil in the zero
value `CallData{}`. -/
structure CallData where
  Method : String
  Params : Option BMCRelayMethodParams
deriving DecidableEq

/-- The decoders `UpdateSegment` calls: `base64.URLEncoding.DecodeString` (its
error is overwritten before it is read) and `codec.RLP.UnmarshalFromBytes` into
a `RelayMessage`. -/
structure DecodeDeps where
  base64Decode : String → Bytes
  unmarshalRelayMessage : Bytes → Except Err RelayMessage

/-- Source `SimpleChain.UpdateSegment` (lines 268-286): the segment as the call
leaves it and the error or panic, if any.  The type assertion
`cd.Params.(BMCRelayMethodParams)` is made on the `Params` of the literal
`CallData{}`. -/
def UpdateSegment (d : Deps) (u : DecodeDeps) (bp : Option chain.BlockProof)
    (segment : chain.Segment) : chain.Segment × Option Fault :=
  let cd : CallData := { Method := "", Params := none }
  match cd.Params with
  | none => (segment, some (.crash .interfaceConversion))
  | some rmp =>
    match u.unmarshalRelayMessage (u.base64Decode rmp.Messages) with
    | .error e => (segment, some (.error e))
    | .ok msg =>
      match d.marshalBlockProof bp with
      | .error e => (segment, some (.error e))
      | .ok b1 =>
        match d.marshalRelayMessage { msg with BlockProof := b1 } with
        | .error e => (segment, some (.error e))
        | .ok b => ({ segment with TransactionParam := b }, none)

/-- Number of event proofs of a relay message. -/
def eventProofCount (rm : chain.RelayMessage) : Int :=
  ((rm.ReceiptProofs.map (fun rp => rp.EventProofs.length)).sum : Nat)

/-- Sum of `NumberOfEvent` over a list of segments. -/
def numberOfEventSum (segs : List chain.Segment) : Int :=
  (segs.map (fun seg => seg.NumberOfEvent)).sum

/-- An entry with one completed segment: a result handle and a result. -/
def completedEntry (seq : Nat) (h : Nat) : chain.RelayMessage :=
  { entryOf seq [blockAt h 1] none [] with
    Segments := [some { TransactionParam := [1], GetResultParam := some 7,
                        TransactionResult := some 8, Height := h, NumberOfBlockUpdate := 1,
                        EventSequence := some 0, NumberOfEvent := 0 }] }

/-! Concrete inputs for result reconciliation and event counting. -/

/-- Concrete error codes for the verifier and the message centre. -/
def sampleCodes : ErrorCodes :=
  { BMVUnknown := 25, BMVNotVerifiable := 26, BMVAlreadyVerified := 27,
    BMCRevertUnauthorized := 11 }

/-- A submitted segment: it has the result handle 7 and no result. -/
def sampleSegment : chain.Segment :=
  { TransactionParam := [1], GetResultParam := some 7, TransactionResult := none,
    Height := 1, NumberOfBlockUpdate := 1, EventSequence := some 0, NumberOfEvent := 0 }

/-- The relay message of the events scenario: a block proof of 3 bytes and one
receipt proof of 3 bytes with 20 event proofs of 100 bytes each. -/
def eventsEntry : chain.RelayMessage :=
  entryOf 0 []
    (some { Header := fill 3 7, BlockWitness := some { Height := 7, Witness := [] } })
    [receiptAt 3 5 (List.replicate 20 100)]

/-! Block-update packing. -/

/-- The segment carries the encoding of a packed message whose block-update
proofs are those of the block updates `g`, in order; its
`NumberOfBlockUpdate` is their number, their proofs total at most
`TxSizeLimit()` bytes, and its `Height` is the height of the last of them. -/
def PacksGroup (d : Deps) (seg : chain.Segment) (g : List chain.BlockUpdate) : Prop :=
  ∃ msg : RelayMessage, d.marshalRelayMessage msg = .ok seg.TransactionParam ∧
    msg.BlockUpdates = g.map (fun bu => bu.Proof) ∧
    seg.NumberOfBlockUpdate = (g.length : Int) ∧
    totalLen (g.map (fun bu => bu.Proof)) ≤ d.TxSizeLimit ∧
    ∀ last, g.getLast? = some last → seg.Height = last.Height

/-- The state of `Segment` after the segments `base`: the segments closed since
then pack the groups `gs`, and the message under construction holds the block
updates `cur` with the counters that go with them. -/
def Packing (d : Deps) (base : List chain.Segment) (st : SegmentState)
    (gs : List (List chain.BlockUpdate)) (cur : List chain.BlockUpdate) : Prop :=
  ∃ extra, st.segments = base ++ extra ∧ List.Forall₂ (PacksGroup d) extra gs ∧
    st.msg.BlockUpdates = cur.map (fun bu => bu.Proof) ∧
    st.msg.numberOfBlockUpdate = (cur.length : Int) ∧
    ∀ last, cur.getLast? = some last → st.msg.height = last.Height

/-! Consecutive dispatch passes. -/

/-- Up to `n` dispatch passes one after the other, with no result task and no
other step between them: the `Sender.Relay` calls of each pass.  A pass that
panics ends the run. -/
def relayPasses (d : Deps) : Nat → SimpleChain → List (List RelayCall)
  | 0, _ => []
  | n + 1, s =>
    match (_relay d s).2.2 with
    | none => (_relay d s).2.1 :: relayPasses d n (_relay d s).1
    | some _ => [(_relay d s).2.1]

/-- The test of `_hasWait` on one element of `rm.Segments`. -/
def awaitsResult (seg : Option chain.Segment) : Bool :=
  match seg with
  | none => false
  | some sg => sg.GetResultParam.isSome && sg.TransactionResult.isNone

/-- An entry with two submitted segments, the second of which carries the
given result handle. -/
def twoSegmentEntry (handle : Option Nat) : chain.RelayMessage :=
  { entryOf 0 [blockAt 1 1] none [] with
    Segments := [some sampleSegment, some { sampleSegment with GetResultParam := handle }] }

/-- A `GetResult` that fails with the code of `BMVNotVerifiable` in
`sampleCodes`. -/
def notVerifiable : Option Nat → Option Nat × Option ResultError :=
  fun _ => (none, some (.coded 26))

/-! Steps of the relay and the contiguity invariant. -/

/-- Source `SimpleChain.OnBlockOfDst` (lines 460-475).  `GetStatus` is the
answer of the Sender to `RefreshStatus`; `sameSeq` tells whether the refreshed
status holds the very `*big.Int` the old one held (the test `seq != s.bs.RxSeq`
compares pointers).  The wake-up send on `relayCh` is not part of the state. -/
def OnBlockOfDst (d : Deps) (s : SimpleChain) (height : Int)
    (GetStatus : Except Err chain.BMCLinkStatus) (sameSeq : Bool) : Outcome :=
  let s1 := { s with heightOfDst := height }
  match s1.bs with
  | none => .crash s1 .nilDereference
  | some old =>
    match GetStatus with
    | .error e => .failed s1 e
    | .ok bs =>
      let s2 := { s1 with bs := some bs }
      if old.Verifier.Height ≠ bs.Verifier.Height ∨ sameSeq = false then
        updateRelayMessage d s2 bs.Verifier.Height (wrap64 bs.RxSeq)
      else .done s2

/-- One atomic step of the relay: a source block, a destination block with
the status the Sender reports, or a dispatch pass. -/
inductive Step where
  | src (bu : chain.BlockUpdate) (rps : List chain.ReceiptProof)
  | dst (height : Int) (status : chain.BMCLinkStatus) (sameSeq : Bool)
  | relay
deriving DecidableEq

/-- The state a step leaves when it completes: the callback returns nil, the
pass does not panic. -/
def runStep (d : Deps) (s : SimpleChain) : Step → Option SimpleChain
  | .src bu rps =>
    match OnBlockOfSrc d s bu rps with
    | .done s1 => some s1
    | _ => none
  | .dst height status sameSeq =>
    match OnBlockOfDst d s height (.ok status) sameSeq with
    | .done s1 => some s1
    | _ => none
  | .relay =>
    match (_relay d s).2.2 with
    | none => some (_relay d s).1
    | some _ => none

/-- The state after a sequence of steps, each of which completes. -/
def runSteps (d : Deps) : SimpleChain → List Step → Option SimpleChain
  | s, [] => some s
  | s, st :: rest =>
    match runStep d s st with
    | some s1 => runSteps d s1 rest
    | none => none

/-- The chain `NewChain` builds, with the accumulator and the destination
status that `prepareDatabase` and `init` store before the first callback. -/
def startChain (src dst : String) (acc : Option mta.ExtAccumulator)
    (bs : Option chain.BMCLinkStatus) : SimpleChain :=
  { NewChain src dst with acc := acc, bs := bs }

/-- The heights a step brings are non-negative and below the largest `int64`. -/
def Step.inRange : Step → Bool
  | .src bu _ => decide (0 ≤ bu.Height ∧ bu.Height < 2 ^ 63 - 1)
  | .dst _ status _ =>
    decide (0 ≤ status.Verifier.Height ∧ status.Verifier.Height < 2 ^ 63 - 1)
  | .relay => true

/-- Heights ascend by exactly one from each block update to the next. -/
def Contiguous (bus : List chain.BlockUpdate) : Prop :=
  List.Chain' (fun a b => b.Height = a.Height + 1) bus

/-- The receipt proof `rp1` is `rp` after pruning: the same receipt, with
events and event proofs removed from the front. -/
def PrunedFrom (rp1 rp : chain.ReceiptProof) : Prop :=
  rp1.Index = rp.Index ∧ rp1.Proof = rp.Proof ∧ rp1.Events <:+ rp.Events ∧
    rp1.EventProofs <:+ rp.EventProofs

/-- Every receipt proof of `rps1` is a receipt proof of `rps` after pruning. -/
def PrunedOf (rps1 rps : List chain.ReceiptProof) : Prop :=
  ∀ rp1 ∈ rps1, ∃ rp ∈ rps, PrunedFrom rp1 rp

/-- What one round of pruning or dispatch may do to an entry: block updates
are removed from the front, receipt proofs are pruned. -/
def Shrinks (a b : chain.RelayMessage) : Prop :=
  (∃ k, b.BlockUpdates = a.BlockUpdates.drop k) ∧ PrunedOf b.ReceiptProofs a.ReceiptProofs

/-- The part of the queue invariant that the queue and the last ingested block
update decide, after the steps `hist`: entries are contiguous and ordered, no
block update is above the last ingested one, the tail holds no receipt proof
and ends with the last ingested block update, and an entry with receipt proofs
goes back to the step that ingested them. -/
structure QueueCore (hist : List Step) (s : SimpleChain) : Prop where
  ne : s.rms ≠ []
  contig : ∀ rm ∈ s.rms, Contiguous rm.BlockUpdates
  ordered : s.rms.Pairwise
    (fun e1 e2 => ∀ a ∈ e1.BlockUpdates, ∀ b ∈ e2.BlockUpdates, a.Height < b.Height)
  bounded : ∀ rm ∈ s.rms, ∀ bu ∈ rm.BlockUpdates,
    0 ≤ bu.Height ∧ ∃ L, s.lastBlockUpdate = some L ∧ bu.Height ≤ L.Height
  lastOk : ∀ L, s.lastBlockUpdate = some L → 0 ≤ L.Height ∧ L.Height < 2 ^ 63 - 1
  tailRps : ∀ t, s.rms.getLast? = some t → t.ReceiptProofs = []
  tailLast : ∀ t b, s.rms.getLast? = some t → t.BlockUpdates.getLast? = some b →
    ∃ L, s.lastBlockUpdate = some L ∧ b.Height = L.Height
  ghost : ∀ rm ∈ s.rms, rm.ReceiptProofs ≠ [] →
    ∃ bu rps, Step.src bu rps ∈ hist ∧ rps ≠ [] ∧
      (∀ b, rm.BlockUpdates.getLast? = some b → b = bu) ∧ PrunedOf rm.ReceiptProofs rps

/-- Every block update of the tail entry is above the verifier height of the
status held. -/
def TailAbove (s : SimpleChain) : Prop :=
  ∀ t st, s.rms.getLast? = some t → s.bs = some st →
    ∀ bu ∈ t.BlockUpdates, st.Verifier.Height < bu.Height

/-- The invariant of the queue after the steps `hist`. -/
def QueueInv (hist : List Step) (s : SimpleChain) : Prop :=
  QueueCore hist s ∧ TailAbove s

/-- Lines 341-355 of `addRelayMessage`: what is done with `bu` and `rps` once
the entry to extend is the last entry of `s2`. -/
def ingestTail (s2 : SimpleChain) (bu : chain.BlockUpdate)
    (rps : List chain.ReceiptProof) : Outcome :=
  if rps.length > 0 then
    .done (_rm { s2 with rms := modifyLast (fun e =>
      { e with BlockUpdates := e.BlockUpdates ++ [bu], ReceiptProofs := rps,
               HeightOfDst := s2.heightOfDst }) s2.rms })
  else
    match s2.bs with
    | none => .crash s2 .nilDereference
    | some bs =>
      if bu.Height ≤ bs.Verifier.Height then .done s2
      else .done { s2 with rms := modifyLast (fun e =>
        { e with BlockUpdates := e.BlockUpdates ++ [bu] }) s2.rms }

/-- A destination status with verifier height `vh` and `rx_seq = 0`. -/
def statusAt (vh : Int) : chain.BMCLinkStatus :=
  { TxSeq := 0, RxSeq := 0, Verifier := { Height := vh, Extra := [] }, CurrentHeight := 0 }

/-- A run: source blocks 1 and 2, source block 3 with a receipt proof (event
sequence 5), a dispatch pass, a destination block reporting verifier height 1,
source block 4. -/
def sampleRun : List Step :=
  [.src (blockAt 1 0) [], .src (blockAt 2 0) [], .src (blockAt 3 0) [receiptAt 0 5 [1]],
   .relay, .dst 9 (statusAt 1) false, .src (blockAt 4 0) []]

end bsc

namespace icon

/-- The method names of the two transaction kinds `Relay` builds. -/
inductive Method where
  | BMCRelayMethod
  | BMCFragmentMethod
deriving DecidableEq

/-- One transaction handed to `sendTransaction`: the method, the bytes whose
base64 text is the `Messages` parameter, and the `Index` parameter of a
fragment. -/
structure SendCall where
  method : Method
  messages : Bytes
  index : Option Int
deriving DecidableEq

/-- Source `sender.sendFragment` (lines 81-89), as the call it hands to
`sendTransaction`. -/
def sendFragment (msg : Bytes) (idx : Int) : SendCall :=
  { method := .BMCFragmentMethod, messages := msg, index := some idx }

/-- The loop `for idx--; idx > 0; idx--` of `Relay` (lines 106-111) followed by
the last fragment (lines 112-115), for the current `idx` and the rest of the
message: the calls made, in order, and what `Relay` returns.  `send` stands for
`sendTransaction`; a slice `msg[:txSizeLimit]` is taken within the length of
`msg`. -/
def fragmentLoop (txSizeLimit : Nat) (send : SendCall → Except Err Nat) :
    Nat → Bytes → List SendCall × Except Fault Nat
  | 0, msg =>
    match send (sendFragment msg 0) with
    | .error e => ([sendFragment msg 0], .error (.error e))
    | .ok r => ([sendFragment msg 0], .ok r)
  | idx + 1, msg =>
    if msg.length < txSizeLimit then ([], .error (.crash .sliceOutOfRange))
    else
      match send (sendFragment (msg.take txSizeLimit) ((idx + 1 : Nat) : Int)) with
      | .error e =>
        ([sendFragment (msg.take txSizeLimit) ((idx + 1 : Nat) : Int)], .error (.error e))
      | .ok _ =>
        let t := fragmentLoop txSizeLimit send idx (msg.drop txSizeLimit)
        (sendFragment (msg.take txSizeLimit) ((idx + 1 : Nat) : Int) :: t.1, t.2)

/-- Source `sender.Relay` (lines 91-117) for the payload `msg` of the segment
and the value `txSizeLimit` of the package variable: the transactions handed
to `sendTransaction`, in order, and the handle or failure returned. -/
def Relay (txSizeLimit : Int) (send : SendCall → Except Err Nat) (msg : Bytes) :
    List SendCall × Except Fault Nat :=
  if txSizeLimit = 0 then ([], .error (.crash .divideByZero))
  else
    let idx := Int.tdiv (msg.length : Int) txSizeLimit
    if idx = 0 then
      match send { method := .BMCRelayMethod, messages := msg, index := none } with
      | .error e =>
        ([{ method := .BMCRelayMethod, messages := msg, index := none }], .error (.error e))
      | .ok r => ([{ method := .BMCRelayMethod, messages := msg, index := none }], .ok r)
    else if txSizeLimit < 0 ∨ (msg.length : Int) < txSizeLimit then
      ([], .error (.crash .sliceOutOfRange))
    else
      match send (sendFragment (msg.take txSizeLimit.toNat) (idx * -1)) with
      | .error e => ([sendFragment (msg.take txSizeLimit.toNat) (idx * -1)], .error (.error e))
      | .ok _ =>
        let t := fragmentLoop txSizeLimit.toNat send (idx - 1).toNat (msg.drop txSizeLimit.toNat)
        (sendFragment (msg.take txSizeLimit.toNat) (idx * -1) :: t.1, t.2)

/-- The indices a payload of `n + 1` fragments is sent with: `-n, n-1, ..., 1, 0`. -/
def fragmentIndices (n : Nat) : List (Option Int) :=
  some (-(n : Int)) :: (List.range n).reverse.map (fun (k : Nat) => some (Int.ofNat k))

/-- A Sender transport that accepts every transaction; the handle is the
length of the bytes sent. -/
def acceptAll : SendCall → Except Err Nat := fun c => .ok c.messages.length

end icon

/-! Theorems. -/

namespace bsc

set_option maxRecDepth 100000

theorem totalLen_nil : totalLen [] = 0 := by simp [totalLen]

theorem totalLen_append (a b : List Bytes) : totalLen (a ++ b) = totalLen a + totalLen b := by
  simp [totalLen]

theorem totalLen_singleton (b : Bytes) : totalLen [b] = (b.length : Int) := by
  simp [totalLen]

theorem totalLen_nonneg (a : List Bytes) : 0 ≤ totalLen a := by
  unfold totalLen; exact Int.ofNat_nonneg _

theorem isOverLimit_false (d : Deps) (x : Int) (h : isOverLimit d x = false) : x ≤ d.TxSizeLimit := by
  simpa [isOverLimit] using h

theorem isOverLimit_true (d : Deps) (x : Int) (h : isOverLimit d x = true) : d.TxSizeLimit < x := by
  simpa [isOverLimit] using h

theorem blockUpdateLoop_within (d : Deps) (height : Int) (bus : List chain.BlockUpdate) :
    ∀ st st1 : SegmentState, blockUpdateLoop d height bus st = .ok st1 →
      (∀ seg ∈ st.segments, SegmentWithin d seg) →
      st.size = totalLen st.msg.BlockUpdates → st.msg.BlockProof = [] →
      (st.msg.BlockUpdates = [] ∨ st.size ≤ d.TxSizeLimit) →
      ((∀ seg ∈ st1.segments, SegmentWithin d seg) ∧
        st1.size = totalLen st1.msg.BlockUpdates ∧ st1.msg.BlockProof = [] ∧
        (st1.msg.BlockUpdates = [] ∨ st1.size ≤ d.TxSizeLimit)) ∧
      ∀ bu ∈ bus, height < bu.Height → (bu.Proof.length : Int) ≤ d.TxSizeLimit := by
  induction bus with
  | nil =>
    intro st st1 h hs hsz hbp hlim
    simp only [blockUpdateLoop, Except.ok.injEq] at h
    subst h
    exact ⟨⟨hs, hsz, hbp, hlim⟩, by simp⟩
  | cons bu rest ih =>
    intro st st1 h hs hsz hbp hlim
    rw [blockUpdateLoop] at h
    by_cases hh : bu.Height ≤ height
    · rw [if_pos hh] at h
      obtain ⟨h1, h2⟩ := ih st st1 h hs hsz hbp hlim
      refine ⟨h1, ?_⟩
      intro b hb hlt
      rcases List.mem_cons.1 hb with rfl | hb
      · omega
      · exact h2 b hb hlt
    · rw [if_neg hh] at h
      cases ho : isOverLimit d (bu.Proof.length : Int) with
      | true => simp [ho] at h
      | false =>
        have hbu := isOverLimit_false d _ ho
        simp only [ho] at h
        cases ho2 : isOverLimit d (st.size + (bu.Proof.length : Int)) with
        | true =>
          have hov := isOverLimit_true d _ ho2
          simp only [ho2, if_true] at h
          cases hm : d.marshalRelayMessage st.msg with
          | error e => simp [hm] at h
          | ok b =>
            simp only [hm] at h
            have hne : st.msg.BlockUpdates ≠ [] := by
              intro hnil
              rw [hsz, hnil, totalLen_nil] at hov
              omega
            have hle : st.size ≤ d.TxSizeLimit := by
              rcases hlim with h0 | h0
              · exact absurd h0 hne
              · exact h0
            have hlen0 : (0 : Int) ≤ (bu.Proof.length : Int) := Int.ofNat_nonneg _
            obtain ⟨h1, h2⟩ := ih _ st1 h
              (by
                intro seg hseg
                rcases List.mem_append.1 hseg with hseg | hseg
                · exact hs seg hseg
                · rw [List.mem_singleton] at hseg
                  subst hseg
                  refine ⟨st.msg, hm, ?_, ?_⟩
                  · rw [← hsz]; exact hle
                  · rw [hbp]; simp; omega)
              (by simp [packBlockUpdate, emptyMsg, totalLen])
              (by simp [packBlockUpdate, emptyMsg])
              (Or.inr hbu)
            refine ⟨h1, ?_⟩
            intro b1 hb hlt
            rcases List.mem_cons.1 hb with rfl | hb
            · exact hbu
            · exact h2 b1 hb hlt
        | false =>
          have hnov := isOverLimit_false d _ ho2
          simp only [ho2] at h
          obtain ⟨h1, h2⟩ := ih _ st1 h hs
            (by simp [packBlockUpdate, totalLen_append, totalLen_singleton, hsz])
            (by simpa [packBlockUpdate] using hbp)
            (Or.inr hnov)
          refine ⟨h1, ?_⟩
          intro b1 hb hlt
          rcases List.mem_cons.1 hb with rfl | hb
          · exact hbu
          · exact h2 b1 hb hlt

theorem packEvent_msg (rp : chain.ReceiptProof) (j : Nat) (ep : chain.EventProof)
    (st st1 : SegmentState) (trp trp1 : ReceiptProof)
    (h : packEvent rp j ep st trp = .ok (st1, trp1)) :
    st1.segments = st.segments ∧ st1.msg.BlockUpdates = st.msg.BlockUpdates ∧
      st1.msg.BlockProof = st.msg.BlockProof ∧ st1.size = st.size := by
  unfold packEvent at h
  split at h
  · simp at h
  · simp only [Except.ok.injEq, Prod.mk.injEq] at h
    obtain ⟨h1, _⟩ := h
    subst h1
    simp

theorem eventLoop_within (d : Deps) (bp : Bytes) (rp : chain.ReceiptProof)
    (hbp : (bp.length : Int) ≤ d.TxSizeLimit) (eps : List chain.EventProof) :
    ∀ (j : Nat) (st st1 : SegmentState) (trp trp1 : ReceiptProof),
      eventLoop d bp rp eps j st trp = .ok (st1, trp1) →
      (∀ seg ∈ st.segments, SegmentWithin d seg) →
      totalLen st.msg.BlockUpdates ≤ d.TxSizeLimit →
      (st.msg.BlockProof.length : Int) ≤ d.TxSizeLimit →
      ((∀ seg ∈ st1.segments, SegmentWithin d seg) ∧
        totalLen st1.msg.BlockUpdates ≤ d.TxSizeLimit ∧
        (st1.msg.BlockProof.length : Int) ≤ d.TxSizeLimit) ∧
      ∀ ep ∈ eps, (ep.Proof.length : Int) ≤ d.TxSizeLimit := by
  induction eps with
  | nil =>
    intro j st st1 trp trp1 h hs hbu hb
    simp only [eventLoop, Except.ok.injEq, Prod.mk.injEq] at h
    obtain ⟨h1, _⟩ := h
    subst h1
    exact ⟨⟨hs, hbu, hb⟩, by simp⟩
  | cons ep rest ih =>
    intro j st st1 trp trp1 h hs hbu hb
    rw [eventLoop] at h
    cases ho : isOverLimit d (ep.Proof.length : Int) with
    | true => simp [ho] at h
    | false =>
      have hep := isOverLimit_false d _ ho
      rw [ho] at h
      simp only [Bool.false_eq_true, if_false] at h
      have key : ∀ (st2 : SegmentState) (trp2 : ReceiptProof),
          eventLoop d bp rp rest (j + 1) st2 trp2 = .ok (st1, trp1) →
          (∀ seg ∈ st2.segments, SegmentWithin d seg) →
          totalLen st2.msg.BlockUpdates ≤ d.TxSizeLimit →
          (st2.msg.BlockProof.length : Int) ≤ d.TxSizeLimit →
          ((∀ seg ∈ st1.segments, SegmentWithin d seg) ∧
            totalLen st1.msg.BlockUpdates ≤ d.TxSizeLimit ∧
            (st1.msg.BlockProof.length : Int) ≤ d.TxSizeLimit) ∧
          ∀ e ∈ ep :: rest, (e.Proof.length : Int) ≤ d.TxSizeLimit := by
        intro st2 trp2 h2 hs2 hbu2 hb2
        obtain ⟨h3, h4⟩ := ih (j + 1) st2 st1 trp2 trp1 h2 hs2 hbu2 hb2
        refine ⟨h3, ?_⟩
        intro e he
        rcases List.mem_cons.1 he with rfl | he
        · exact hep
        · exact h4 e he
      cases ho2 : isOverLimit d (st.size + (ep.Proof.length : Int)) with
      | true =>
        rw [ho2] at h
        simp only [if_true] at h
        by_cases hj : j = 0 ∧ st.msg.BlockUpdates.length = 0
        · rw [if_pos hj] at h
          simp at h
        · rw [if_neg hj] at h
          cases hm : d.marshalRelayMessage st.msg with
          | error e => simp [hm] at h
          | ok b =>
            simp only [hm] at h
            cases hp : packEvent rp j ep
                { segments := st.segments ++ [evSegment st.msg b],
                  msg := { emptyMsg with BlockProof := bp },
                  size := (ep.Proof.length : Int) + (rp.Proof.length : Int) + (bp.length : Int) }
                (newTrp rp) with
            | error f => simp [hp] at h
            | ok p =>
              obtain ⟨st2, trp2⟩ := p
              simp only [hp] at h
              obtain ⟨q1, q2, q3, _⟩ := packEvent_msg _ _ _ _ _ _ _ hp
              have h0 : (0 : Int) ≤ d.TxSizeLimit := le_trans (Int.ofNat_nonneg _) hbp
              refine key st2 trp2 h ?_ ?_ ?_
              · rw [q1]
                intro seg hseg
                rcases List.mem_append.1 hseg with hseg | hseg
                · exact hs seg hseg
                · rw [List.mem_singleton] at hseg
                  subst hseg
                  exact ⟨st.msg, hm, hbu, hb⟩
              · rw [q2]; simpa [emptyMsg, totalLen] using h0
              · rw [q3]; simpa [emptyMsg] using hbp
      | false =>
        rw [ho2] at h
        simp only [Bool.false_eq_true, if_false] at h
        cases hp : packEvent rp j ep { st with size := st.size + (ep.Proof.length : Int) } trp with
        | error f => simp [hp] at h
        | ok p =>
          obtain ⟨st2, trp2⟩ := p
          simp only [hp] at h
          obtain ⟨q1, q2, q3, _⟩ := packEvent_msg _ _ _ _ _ _ _ hp
          refine key st2 trp2 h ?_ ?_ ?_
          · rw [q1]; exact hs
          · rw [q2]; exact hbu
          · rw [q3]; exact hb

theorem attachBlockProof_within (rm : chain.RelayMessage) (bp : Bytes) (st st1 : SegmentState)
    (h : attachBlockProof rm bp st = .ok st1) :
    st1.segments = st.segments ∧ st1.msg.BlockUpdates = st.msg.BlockUpdates ∧
      (st1.msg.BlockProof = st.msg.BlockProof ∨ st1.msg.BlockProof = bp) := by
  unfold attachBlockProof at h
  split at h
  · split at h
    · simp at h
    · split at h
      · simp at h
      · simp only [Except.ok.injEq] at h
        subst h
        simp
  · simp only [Except.ok.injEq] at h
    subst h
    simp

theorem receiptLoop_within (d : Deps) (rm : chain.RelayMessage) (bp : Bytes)
    (hbp : (bp.length : Int) ≤ d.TxSizeLimit) (rps : List chain.ReceiptProof) :
    ∀ (st st1 : SegmentState), receiptLoop d rm bp rps st = .ok st1 →
      (∀ seg ∈ st.segments, SegmentWithin d seg) →
      totalLen st.msg.BlockUpdates ≤ d.TxSizeLimit →
      (st.msg.BlockProof.length : Int) ≤ d.TxSizeLimit →
      ((∀ seg ∈ st1.segments, SegmentWithin d seg) ∧
        totalLen st1.msg.BlockUpdates ≤ d.TxSizeLimit ∧
        (st1.msg.BlockProof.length : Int) ≤ d.TxSizeLimit) ∧
      ∀ rp ∈ rps, (rp.Proof.length : Int) ≤ d.TxSizeLimit ∧
        ∀ ep ∈ rp.EventProofs, (ep.Proof.length : Int) ≤ d.TxSizeLimit := by
  induction rps with
  | nil =>
    intro st st1 h hs hbu hb
    simp only [receiptLoop, Except.ok.injEq] at h
    subst h
    exact ⟨⟨hs, hbu, hb⟩, by simp⟩
  | cons rp rest ih =>
    intro st st1 h hs hbu hb
    rw [receiptLoop] at h
    cases ho : isOverLimit d (rp.Proof.length : Int) with
    | true => simp [ho] at h
    | false =>
      have hrp := isOverLimit_false d _ ho
      rw [ho] at h
      simp only [Bool.false_eq_true, if_false] at h
      cases ha : attachBlockProof rm bp st with
      | error f => simp [ha] at h
      | ok sta =>
        simp only [ha] at h
        obtain ⟨a1, a2, a3⟩ := attachBlockProof_within _ _ _ _ ha
        cases he : eventLoop d bp rp rp.EventProofs 0
            { sta with size := sta.size + (rp.Proof.length : Int) } (newTrp rp) with
        | error f => simp [he] at h
        | ok p =>
          obtain ⟨stb, trp⟩ := p
          simp only [he] at h
          cases hm : d.marshalReceiptProof trp with
          | error e => simp [hm] at h
          | ok b =>
            simp only [hm] at h
            have hsta : (sta.msg.BlockProof.length : Int) ≤ d.TxSizeLimit := by
              rcases a3 with a3 | a3
              · rw [a3]; exact hb
              · rw [a3]; exact hbp
            obtain ⟨⟨e1, e2, e3⟩, e4⟩ := eventLoop_within d bp rp hbp rp.EventProofs 0 _ stb _ trp he
              (by rw [a1]; exact hs) (by rw [a2]; exact hbu) hsta
            obtain ⟨h3, h4⟩ := ih _ st1 h e1 e2 e3
            refine ⟨h3, ?_⟩
            intro r hr
            rcases List.mem_cons.1 hr with rfl | hr
            · exact ⟨hrp, e4⟩
            · exact h4 r hr

/-- What the size checks of `Segment` do enforce: whenever `Segment` succeeds,
every returned segment's `TransactionParam` is the encoding of a packed message
whose block-update proofs total at most `TxSizeLimit()` bytes and whose
block-proof bytes are at most `TxSizeLimit()`; and every block update above the
verifier height, the encoded block proof, every receipt proof's proof and every
event proof of the relay message is, on its own, at most `TxSizeLimit()` bytes.
Nothing is said of the receipt part's total. -/
theorem Segment_raw_lengths_within_limit (d : Deps) (rm : chain.RelayMessage) (height : Int)
    (segs : List chain.Segment) (h : Segment d rm height = .ok segs) :
    (∀ seg ∈ segs, SegmentWithin d seg) ∧
    (∀ bu ∈ rm.BlockUpdates, height < bu.Height → (bu.Proof.length : Int) ≤ d.TxSizeLimit) ∧
    (∀ bp, d.marshalBlockProof rm.BlockProof = .ok bp → (bp.length : Int) ≤ d.TxSizeLimit) ∧
    (∀ rp ∈ rm.ReceiptProofs, (rp.Proof.length : Int) ≤ d.TxSizeLimit ∧
      ∀ ep ∈ rp.EventProofs, (ep.Proof.length : Int) ≤ d.TxSizeLimit) := by
  unfold Segment at h
  cases hbl : blockUpdateLoop d height rm.BlockUpdates
      { segments := [], msg := emptyMsg, size := 0 } with
  | error f => simp [hbl] at h
  | ok st =>
    simp only [hbl] at h
    cases hmb : d.marshalBlockProof rm.BlockProof with
    | error e => simp [hmb] at h
    | ok bp =>
      simp only [hmb] at h
      cases ho : isOverLimit d (bp.length : Int) with
      | true => simp [ho] at h
      | false =>
        have hbp := isOverLimit_false d _ ho
        have h0 : (0 : Int) ≤ d.TxSizeLimit := le_trans (Int.ofNat_nonneg _) hbp
        rw [ho] at h
        simp only [Bool.false_eq_true, if_false] at h
        cases hrl : receiptLoop d rm bp rm.ReceiptProofs st with
        | error f => simp [hrl] at h
        | ok st1 =>
          simp only [hrl] at h
          cases hm : d.marshalRelayMessage st1.msg with
          | error e => simp [hm] at h
          | ok b =>
            simp only [hm, Except.ok.injEq] at h
            subst h
            obtain ⟨⟨b1, b2, b3, b4⟩, b5⟩ := blockUpdateLoop_within d height rm.BlockUpdates _ st hbl
              (by simp) (by simp [emptyMsg, totalLen]) (by simp [emptyMsg]) (Or.inl (by simp [emptyMsg]))
            have hbus : totalLen st.msg.BlockUpdates ≤ d.TxSizeLimit := by
              rcases b4 with b4 | b4
              · rw [b4, totalLen_nil]; exact h0
              · rw [← b2]; exact b4
            obtain ⟨⟨r1, r2, r3⟩, r4⟩ := receiptLoop_within d rm bp hbp rm.ReceiptProofs st st1 hrl b1 hbus
              (by rw [b3]; simpa using h0)
            refine ⟨?_, b5, ?_, r4⟩
            · intro seg hseg
              rcases List.mem_append.1 hseg with hseg | hseg
              · exact r1 seg hseg
              · rw [List.mem_singleton] at hseg
                subst hseg
                exact ⟨st1.msg, hm, r2, r3⟩
            · intro bp1 hbp1
              simp only [Except.ok.injEq] at hbp1
              subst hbp1
              exact hbp

theorem length_flatten_eq (l : List Bytes) : ((l.flatten.length : Nat) : Int) = totalLen l := by
  simp [totalLen, List.length_flatten]

theorem stubDeps_carries (limit : Int) (frame : Bytes) : CodecCarries (stubDeps limit frame) := by
  refine ⟨?_, ?_, ?_⟩
  · intro m b h
    simp only [stubDeps, Except.ok.injEq] at h
    subst h
    simp only [List.length_append, Nat.cast_add, length_flatten_eq]
    have := Int.ofNat_nonneg frame.length
    omega
  · intro t b h
    simp only [stubDeps, Except.ok.injEq] at h
    subst h
    simp only [List.length_append, Nat.cast_add, length_flatten_eq]
    omega
  · intro p b h
    simp only [stubDeps, Except.ok.injEq] at h
    subst h
    simp only [List.length_append, Nat.cast_add, length_flatten_eq]
    omega

/-- The relay message with block updates 1, 2, 3 of 6, 6 and 4 proof bytes is
segmented under the limit 10 into two segments, and the bound on the
block-update part holds for them. -/
theorem Segment_raw_lengths_within_limit_witness :
    ∃ segs, Segment (stubDeps 10 [0])
        (entryOf 0 [blockAt 1 6, blockAt 2 6, blockAt 3 4] none []) 0 = .ok segs ∧
      segs.map (fun seg => seg.NumberOfBlockUpdate) = [1, 2] ∧
      ∀ seg ∈ segs, SegmentWithin (stubDeps 10 [0]) seg := by
  have h : Segment (stubDeps 10 [0])
        (entryOf 0 [blockAt 1 6, blockAt 2 6, blockAt 3 4] none []) 0
      = .ok [{ TransactionParam := 0 :: fill 6 1, GetResultParam := none,
               TransactionResult := none, Height := 1, NumberOfBlockUpdate := 1,
               EventSequence := none, NumberOfEvent := 0 },
             { TransactionParam := 0 :: fill 10 1, GetResultParam := none,
               TransactionResult := none, Height := 3, NumberOfBlockUpdate := 2,
               EventSequence := some 0, NumberOfEvent := 0 }] := by decide
  exact ⟨_, h, rfl, (Segment_raw_lengths_within_limit _ _ _ _ h).1⟩

/-- The limit is compared with raw proof lengths, not with the codec output:
with one byte of framing, a single block update whose proof has exactly the
limit of 10 bytes yields a segment of 11 bytes. -/
theorem Segment_framing_not_counted :
    CodecCarries (stubDeps 10 [0]) ∧
    (Segment (stubDeps 10 [0]) (entryOf 0 [blockAt 1 10] none []) 0).map
      (List.map (fun seg => seg.TransactionParam.length)) = .ok [11] :=
  ⟨stubDeps_carries 10 [0], by decide⟩

/-- C1 (code at the failing input): `Segment` succeeds and returns a
`TransactionParam` longer than `TxSizeLimit()`, under the limit 10 and a codec
that adds no byte of its own (its output is exactly the byte strings it
carries), on relay messages whose every proof is within the limit.  The
running size is not compared with the limit after the block proof and the
receipt proof are added, nor after it is reset when a segment is closed inside
the event loop.  (a) A promoted entry with a block proof of 3 bytes, one
receipt proof of 3 bytes and event proofs of 1 and 9 bytes: the second event
proof closes a segment, the size restarts at 9 + 3 + 3 = 15 unchecked, and the
segments have 3 and 15 bytes.  (b) A promoted entry with a block proof of 6
bytes and one receipt proof of 6 bytes without event proofs: one segment of 12
bytes.  (c) One block update above the verifier height with a proof of 10 bytes
and one receipt proof of 10 bytes without event proofs: one segment of 20
bytes. -/
theorem Segment_unchecked_sum_exceeds_limit :
    CodecCarries (stubDeps 10 []) ∧
    (Segment (stubDeps 10 [])
        (entryOf 0 []
          (some { Header := fill 3 7, BlockWitness := some { Height := 7, Witness := [] } })
          [receiptAt 3 5 [1, 9]]) 0).map
      (List.map (fun seg => seg.TransactionParam.length)) = .ok [3, 15] ∧
    (Segment (stubDeps 10 [])
        (entryOf 0 []
          (some { Header := fill 6 7, BlockWitness := some { Height := 7, Witness := [] } })
          [receiptAt 6 5 []]) 0).map
      (List.map (fun seg => seg.TransactionParam.length)) = .ok [12] ∧
    (Segment (stubDeps 10 []) (entryOf 0 [blockAt 1 10] none [receiptAt 10 5 []]) 0).map
      (List.map (fun seg => seg.TransactionParam.length)) = .ok [20] :=
  ⟨stubDeps_carries 10 [], by decide, by decide, by decide⟩

theorem PacksBlockUpdates_close (d : Deps) (st : SegmentState) (proofs : List Bytes)
    (b : Bytes) (seg : chain.Segment) (msg1 : RelayMessage) (size1 : Int)
    (hseg : seg.TransactionParam = b)
    (hm : d.marshalRelayMessage st.msg = .ok b) (h : PacksBlockUpdates d st proofs) :
    PacksBlockUpdates d { segments := st.segments ++ [seg], msg := msg1, size := size1 }
      (proofs ++ msg1.BlockUpdates) := by
  obtain ⟨msgs, h1, h2⟩ := h
  refine ⟨msgs ++ [st.msg], List.rel_append h1 ?_, ?_⟩
  · exact List.Forall₂.cons (by unfold PackedAs; rw [hseg]; exact hm) List.Forall₂.nil
  · simp only [List.map_append, List.flatten_append, List.map_cons, List.map_nil,
      List.flatten_cons, List.flatten_nil, List.append_nil]
    rw [h2]

theorem blockUpdateLoop_packs (d : Deps) (height : Int) (bus : List chain.BlockUpdate) :
    ∀ (st st1 : SegmentState) (proofs : List Bytes),
      blockUpdateLoop d height bus st = .ok st1 → PacksBlockUpdates d st proofs →
      PacksBlockUpdates d st1
        (proofs ++ (bus.filter (fun bu => decide (height < bu.Height))).map (fun bu => bu.Proof)) := by
  induction bus with
  | nil =>
    intro st st1 proofs h hp
    simp only [blockUpdateLoop, Except.ok.injEq] at h
    subst h
    simpa using hp
  | cons bu rest ih =>
    intro st st1 proofs h hp
    rw [blockUpdateLoop] at h
    by_cases hh : bu.Height ≤ height
    · rw [if_pos hh] at h
      have hf : decide (height < bu.Height) = false := by simp; exact hh
      simp only [List.filter_cons, hf]
      exact ih st st1 proofs h hp
    · rw [if_neg hh] at h
      have hf : decide (height < bu.Height) = true := by simp; omega
      simp only [List.filter_cons, hf, if_true, List.map_cons]
      cases ho : isOverLimit d (bu.Proof.length : Int) with
      | true => simp [ho] at h
      | false =>
        simp only [ho] at h
        cases ho2 : isOverLimit d (st.size + (bu.Proof.length : Int)) with
        | true =>
          simp only [ho2, if_true] at h
          cases hm : d.marshalRelayMessage st.msg with
          | error e => simp [hm] at h
          | ok b =>
            simp only [hm] at h
            have h3 := ih _ st1 _ h
              (PacksBlockUpdates_close d st proofs b (buSegment st.msg b)
                (packBlockUpdate emptyMsg bu) (bu.Proof.length : Int) rfl hm hp)
            simpa [packBlockUpdate, emptyMsg] using h3
        | false =>
          simp only [ho2] at h
          obtain ⟨msgs, h1, h2⟩ := hp
          have h3 := ih _ st1 (proofs ++ [bu.Proof]) h
            ⟨msgs, h1, by simp [packBlockUpdate, ← h2]⟩
          simpa using h3

theorem eventLoop_packs (d : Deps) (bp : Bytes) (rp : chain.ReceiptProof)
    (eps : List chain.EventProof) :
    ∀ (j : Nat) (st st1 : SegmentState) (trp trp1 : ReceiptProof) (proofs : List Bytes),
      eventLoop d bp rp eps j st trp = .ok (st1, trp1) → PacksBlockUpdates d st proofs →
      PacksBlockUpdates d st1 proofs := by
  induction eps with
  | nil =>
    intro j st st1 trp trp1 proofs h hp
    simp only [eventLoop, Except.ok.injEq, Prod.mk.injEq] at h
    obtain ⟨h1, _⟩ := h
    subst h1
    exact hp
  | cons ep rest ih =>
    intro j st st1 trp trp1 proofs h hp
    rw [eventLoop] at h
    cases ho : isOverLimit d (ep.Proof.length : Int) with
    | true => simp [ho] at h
    | false =>
      rw [ho] at h
      simp only [Bool.false_eq_true, if_false] at h
      have keep : ∀ (sta stb : SegmentState) (ta tb : ReceiptProof),
          packEvent rp j ep sta ta = .ok (stb, tb) → PacksBlockUpdates d sta proofs →
          PacksBlockUpdates d stb proofs := by
        intro sta stb ta tb hpk hpa
        obtain ⟨q1, q2, _, _⟩ := packEvent_msg _ _ _ _ _ _ _ hpk
        obtain ⟨msgs, a1, a2⟩ := hpa
        exact ⟨msgs, by rw [q1]; exact a1, by rw [q2]; exact a2⟩
      cases ho2 : isOverLimit d (st.size + (ep.Proof.length : Int)) with
      | true =>
        rw [ho2] at h
        simp only [if_true] at h
        by_cases hj : j = 0 ∧ st.msg.BlockUpdates.length = 0
        · rw [if_pos hj] at h
          simp at h
        · rw [if_neg hj] at h
          cases hm : d.marshalRelayMessage st.msg with
          | error e => simp [hm] at h
          | ok b =>
            simp only [hm] at h
            cases hpk : packEvent rp j ep
                { segments := st.segments ++ [evSegment st.msg b],
                  msg := { emptyMsg with BlockProof := bp },
                  size := (ep.Proof.length : Int) + (rp.Proof.length : Int) + (bp.length : Int) }
                (newTrp rp) with
            | error f => simp [hpk] at h
            | ok p =>
              obtain ⟨st2, trp2⟩ := p
              simp only [hpk] at h
              have hc := PacksBlockUpdates_close d st proofs b (evSegment st.msg b)
                { emptyMsg with BlockProof := bp }
                ((ep.Proof.length : Int) + (rp.Proof.length : Int) + (bp.length : Int)) rfl hm hp
              have hc2 : PacksBlockUpdates d
                  { segments := st.segments ++ [evSegment st.msg b],
                    msg := { emptyMsg with BlockProof := bp },
                    size := (ep.Proof.length : Int) + (rp.Proof.length : Int) + (bp.length : Int) }
                  proofs := by
                simpa [emptyMsg] using hc
              exact ih _ st2 st1 trp2 trp1 proofs h (keep _ _ _ _ hpk hc2)
      | false =>
        rw [ho2] at h
        simp only [Bool.false_eq_true, if_false] at h
        cases hpk : packEvent rp j ep { st with size := st.size + (ep.Proof.length : Int) } trp with
        | error f => simp [hpk] at h
        | ok p =>
          obtain ⟨st2, trp2⟩ := p
          simp only [hpk] at h
          exact ih _ st2 st1 trp2 trp1 proofs h (keep _ _ _ _ hpk hp)

theorem receiptLoop_packs (d : Deps) (rm : chain.RelayMessage) (bp : Bytes)
    (rps : List chain.ReceiptProof) :
    ∀ (st st1 : SegmentState) (proofs : List Bytes),
      receiptLoop d rm bp rps st = .ok st1 → PacksBlockUpdates d st proofs →
      PacksBlockUpdates d st1 proofs := by
  induction rps with
  | nil =>
    intro st st1 proofs h hp
    simp only [receiptLoop, Except.ok.injEq] at h
    subst h
    exact hp
  | cons rp rest ih =>
    intro st st1 proofs h hp
    rw [receiptLoop] at h
    cases ho : isOverLimit d (rp.Proof.length : Int) with
    | true => simp [ho] at h
    | false =>
      rw [ho] at h
      simp only [Bool.false_eq_true, if_false] at h
      cases ha : attachBlockProof rm bp st with
      | error f => simp [ha] at h
      | ok sta =>
        simp only [ha] at h
        obtain ⟨a1, a2, _⟩ := attachBlockProof_within _ _ _ _ ha
        cases he : eventLoop d bp rp rp.EventProofs 0
            { sta with size := sta.size + (rp.Proof.length : Int) } (newTrp rp) with
        | error f => simp [he] at h
        | ok p =>
          obtain ⟨stb, trp⟩ := p
          simp only [he] at h
          cases hm : d.marshalReceiptProof trp with
          | error e => simp [hm] at h
          | ok b =>
            simp only [hm] at h
            obtain ⟨msgs, p1, p2⟩ := hp
            have hb := eventLoop_packs d bp rp rp.EventProofs 0 _ stb _ trp proofs he
              ⟨msgs, by rw [a1]; exact p1, by rw [a2]; exact p2⟩
            obtain ⟨msgs2, b1, b2⟩ := hb
            exact ih _ st1 proofs h ⟨msgs2, b1, b2⟩

/-- Round trip of the block updates through `Segment`: the returned segments
encode packed messages whose block-update proofs, concatenated in segment
order, are the proofs of the block updates above the verifier height, in
order. -/
theorem Segment_block_updates_roundtrip (d : Deps) (rm : chain.RelayMessage) (height : Int)
    (segs : List chain.Segment) (h : Segment d rm height = .ok segs) :
    ∃ msgs : List RelayMessage, List.Forall₂ (PackedAs d) segs msgs ∧
      (msgs.map (fun m => m.BlockUpdates)).flatten =
        (rm.BlockUpdates.filter (fun bu => decide (height < bu.Height))).map
          (fun bu => bu.Proof) := by
  unfold Segment at h
  cases hbl : blockUpdateLoop d height rm.BlockUpdates
      { segments := [], msg := emptyMsg, size := 0 } with
  | error f => simp [hbl] at h
  | ok st =>
    simp only [hbl] at h
    cases hmb : d.marshalBlockProof rm.BlockProof with
    | error e => simp [hmb] at h
    | ok bp =>
      simp only [hmb] at h
      cases ho : isOverLimit d (bp.length : Int) with
      | true => simp [ho] at h
      | false =>
        rw [ho] at h
        simp only [Bool.false_eq_true, if_false] at h
        cases hrl : receiptLoop d rm bp rm.ReceiptProofs st with
        | error f => simp [hrl] at h
        | ok st1 =>
          simp only [hrl] at h
          cases hm : d.marshalRelayMessage st1.msg with
          | error e => simp [hm] at h
          | ok b =>
            simp only [hm, Except.ok.injEq] at h
            subst h
            have h1 := blockUpdateLoop_packs d height rm.BlockUpdates _ st [] hbl
              ⟨[], List.Forall₂.nil, by simp [emptyMsg]⟩
            have h2 := receiptLoop_packs d rm bp rm.ReceiptProofs st st1 _ hrl h1
            obtain ⟨msgs, p1, p2⟩ := h2
            refine ⟨msgs ++ [st1.msg], List.rel_append p1
              (List.Forall₂.cons (by unfold PackedAs; exact hm) List.Forall₂.nil), ?_⟩
            simp only [List.map_append, List.flatten_append, List.map_cons, List.map_nil,
              List.flatten_cons, List.flatten_nil, List.append_nil]
            simpa using p2

/-- C2 (code at the failing input): a promoted entry with block proof `7 7 7`,
one receipt proof `2 2 2` and two event proofs, `A0` (1 byte) and `A1 .. A1`
(9 bytes), under the limit 10.  The split at the second event proof closes a
segment from a message that does not hold the receipt proof under
construction: the first segment carries the block proof only and still counts
one event, the second carries the receipt proof with the second event proof
only.  The first event proof (`A0` = 160) is in no segment. -/
theorem Segment_split_loses_event_proofs :
    Segment (stubDeps 10 [])
        (entryOf 0 []
          (some { Header := [7, 7, 7], BlockWitness := some { Height := 7, Witness := [] } })
          [receiptAt 3 5 [1, 9]]) 0
      = .ok [{ TransactionParam := [7, 7, 7], GetResultParam := none,
               TransactionResult := none, Height := 7, NumberOfBlockUpdate := 0,
               EventSequence := some 5, NumberOfEvent := 1 },
             { TransactionParam := [7, 7, 7, 2, 2, 2] ++ fill 9 161, GetResultParam := none,
               TransactionResult := none, Height := 0, NumberOfBlockUpdate := 0,
               EventSequence := some 6, NumberOfEvent := 1 }] ∧
    (receiptAt 3 5 [1, 9]).EventProofs = [{ Proof := [160] }, { Proof := fill 9 161 }] := by
  decide

theorem rmLoop_length (d : Deps) (s : SimpleChain) (h seq : Int) (rms : List chain.RelayMessage) :
    ∀ i rrm : Nat, (rmLoop d s h seq rms i rrm).1.length = rms.length := by
  induction rms with
  | nil => intro i rrm; simp [rmLoop]
  | cons rm rest ih =>
    intro i rrm
    rw [rmLoop]
    cases hc : (updateEntry d s h seq rm).ctl <;> simp [ih]

theorem modifyLast_length (f : chain.RelayMessage → chain.RelayMessage) :
    ∀ rms : List chain.RelayMessage, (modifyLast f rms).length = rms.length
  | [] => rfl
  | [_] => rfl
  | _ :: rm2 :: rest => by
    rw [modifyLast]
    simp [modifyLast_length f (rm2 :: rest)]

theorem rms_ne_nil_of_length {rms rms1 : List chain.RelayMessage}
    (h : rms1.length = rms.length) (hne : rms ≠ []) : rms1 ≠ [] := by
  intro h1
  rw [h1] at h
  exact hne (List.length_eq_zero.1 h.symm)

theorem _rm_rms_ne_nil (s : SimpleChain) : (_rm s).rms ≠ [] := by
  simp [_rm]

theorem dropRemoved_rms_ne_nil (s : SimpleChain) (rrm : Nat) (hne : s.rms ≠ []) :
    (dropRemoved s rrm).rms ≠ [] := by
  unfold dropRemoved
  by_cases h1 : rrm > 0
  · rw [if_pos h1]
    by_cases h2 : (s.rms.drop rrm).length = 0
    · rw [if_pos h2]
      exact _rm_rms_ne_nil _
    · rw [if_neg h2]
      intro h0
      apply h2
      show (s.rms.drop rrm).length = 0
      have : s.rms.drop rrm = [] := h0
      rw [this]
      rfl
  · rw [if_neg h1]
    exact hne

theorem updateRelayMessage_rms_ne_nil (d : Deps) (s : SimpleChain) (h seq : Int)
    (hne : s.rms ≠ []) : (updateRelayMessage d s h seq).state.rms ≠ [] := by
  have hlen := rmLoop_length d s h seq s.rms 0 0
  have hr : (rmLoop d s h seq s.rms 0 0).1 ≠ [] := rms_ne_nil_of_length hlen hne
  have hdone : (dropRemoved { s with rms := (rmLoop d s h seq s.rms 0 0).1 }
      (rmLoop d s h seq s.rms 0 0).2.1).rms ≠ [] := dropRemoved_rms_ne_nil _ _ hr
  unfold updateRelayMessage
  cases hc : (rmLoop d s h seq s.rms 0 0).2.2 with
  | crash c => simp only [hc]; exact hr
  | fail e => simp only [hc]; exact hr
  | next => simp only [hc]; exact hdone
  | stop => simp only [hc]; exact hdone

theorem addRelayMessage_rms_ne_nil (s : SimpleChain) (bu : chain.BlockUpdate)
    (rps : List chain.ReceiptProof) (hne : s.rms ≠ []) :
    (addRelayMessage s bu rps).state.rms ≠ [] := by
  unfold addRelayMessage
  by_cases hg : invalidBu s bu = true
  · rw [if_pos hg]; exact hne
  · rw [if_neg hg]
    cases hl : ({ s with lastBlockUpdate := some bu } : SimpleChain).rms.getLast? with
    | none => simp only [hl]; exact hne
    | some rm =>
      simp only [hl]
      have h2 : (if rm.Segments.length > 0 then _rm { s with lastBlockUpdate := some bu }
          else { s with lastBlockUpdate := some bu }).rms ≠ [] := by
        by_cases hs : rm.Segments.length > 0
        · rw [if_pos hs]; exact _rm_rms_ne_nil _
        · rw [if_neg hs]; exact hne
      by_cases hr : rps.length > 0
      · rw [if_pos hr]; exact _rm_rms_ne_nil _
      · rw [if_neg hr]
        cases hb : (if rm.Segments.length > 0 then _rm { s with lastBlockUpdate := some bu }
          else { s with lastBlockUpdate := some bu }).bs with
        | none => simp only [hb]; exact h2
        | some bs =>
          simp only [hb]
          by_cases hv : bu.Height ≤ bs.Verifier.Height
          · rw [if_pos hv]; exact h2
          · rw [if_neg hv]
            exact rms_ne_nil_of_length (modifyLast_length _ _) h2

/-- C5: the queue is never empty.  `NewChain` leaves one entry; from a
non-empty queue, the queue that `updateRelayMessage` leaves (whether it
returns nil or an error, and even at the moment of a panic) and the queue that
`addRelayMessage` leaves hold at least one entry. -/
theorem queue_never_empty (d : Deps) (s : SimpleChain) (h seq : Int) (bu : chain.BlockUpdate)
    (rps : List chain.ReceiptProof) (src dst : String) (hne : s.rms ≠ []) :
    (NewChain src dst).rms.length = 1 ∧
    (updateRelayMessage d s h seq).state.rms ≠ [] ∧
    (addRelayMessage s bu rps).state.rms ≠ [] :=
  ⟨by simp [NewChain, _rm], updateRelayMessage_rms_ne_nil d s h seq hne,
   addRelayMessage_rms_ne_nil s bu rps hne⟩


/-- C5 (witness): an acknowledgement that removes the only entry of the queue
leaves the fresh entry that `_rm` appends. -/
theorem queue_never_empty_witness :
    (chainOf 5 5 [entryOf 0 [blockAt 1 0] none []]).rms ≠ [] ∧
    updateRelayMessage (stubDeps 10 []) (chainOf 5 5 [entryOf 0 [blockAt 1 0] none []]) 5 5
      = .done (_rm (chainOf 5 5 [])) ∧
    ((NewChain "src" "dst").rms.length = 1 ∧
      (updateRelayMessage (stubDeps 10 [])
        (chainOf 5 5 [entryOf 0 [blockAt 1 0] none []]) 5 5).state.rms ≠ [] ∧
      (addRelayMessage (chainOf 5 5 [entryOf 0 [blockAt 1 0] none []])
        (blockAt 2 0) []).state.rms ≠ []) :=
  ⟨by decide, by decide,
   queue_never_empty (stubDeps 10 []) (chainOf 5 5 [entryOf 0 [blockAt 1 0] none []]) 5 5
     (blockAt 2 0) [] "src" "dst" (by decide)⟩

theorem wrap64_of_isInt64 (x : Int) (h : isInt64 x) : wrap64 x = x := by
  unfold isInt64 at h
  unfold wrap64
  omega

theorem wrap64_succ_le (x : Int) (h : isInt64 x) : wrap64 (x + 1) ≤ x + 1 := by
  unfold isInt64 at h
  unfold wrap64
  omega

theorem addRelayMessage_gap (s : SimpleChain) (bu : chain.BlockUpdate)
    (rps : List chain.ReceiptProof) (hg : invalidBu s bu = true) :
    addRelayMessage s bu rps = .crash s .invalidBu := by
  unfold addRelayMessage
  rw [if_pos hg]

theorem getLast?_ne_none {α : Type} (l : List α) (h : l ≠ []) : l.getLast? ≠ none := by
  cases l with
  | nil => exact absurd rfl h
  | cons a t => simp [List.getLast?_cons_cons]

theorem addRelayMessage_done (s : SimpleChain) (bu : chain.BlockUpdate)
    (rps : List chain.ReceiptProof) (hg : invalidBu s bu = false) (hne : s.rms ≠ [])
    (hbs : s.bs ≠ none) :
    ∃ s1, addRelayMessage s bu rps = .done s1 ∧ s1.acc = s.acc ∧ s1.bs = s.bs ∧
      s1.lastBlockUpdate = some bu := by
  unfold addRelayMessage
  rw [hg]
  simp only [Bool.false_eq_true, if_false]
  cases hl : ({ s with lastBlockUpdate := some bu } : SimpleChain).rms.getLast? with
  | none => exact absurd hl (getLast?_ne_none _ hne)
  | some rm =>
    simp only [hl]
    have h2 : (if rm.Segments.length > 0 then _rm { s with lastBlockUpdate := some bu }
          else { s with lastBlockUpdate := some bu }).acc = s.acc ∧
        (if rm.Segments.length > 0 then _rm { s with lastBlockUpdate := some bu }
          else { s with lastBlockUpdate := some bu }).bs = s.bs ∧
        (if rm.Segments.length > 0 then _rm { s with lastBlockUpdate := some bu }
          else { s with lastBlockUpdate := some bu }).lastBlockUpdate = some bu := by
      by_cases hs : rm.Segments.length > 0
      · rw [if_pos hs]; simp [_rm]
      · rw [if_neg hs]; simp
    obtain ⟨a1, a2, a3⟩ := h2
    by_cases hr : rps.length > 0
    · rw [if_pos hr]
      exact ⟨_, rfl, by simpa [_rm] using a1, by simpa [_rm] using a2, by simpa [_rm] using a3⟩
    · rw [if_neg hr]
      cases hb : (if rm.Segments.length > 0 then _rm { s with lastBlockUpdate := some bu }
          else { s with lastBlockUpdate := some bu }).bs with
      | none => rw [a2] at hb; exact absurd hb hbs
      | some bs =>
        simp only [hb]
        by_cases hv : bu.Height ≤ bs.Verifier.Height
        · rw [if_pos hv]; exact ⟨_, rfl, a1, a2, a3⟩
        · rw [if_neg hv]; exact ⟨_, rfl, a1, hb.symm.trans a2, a3⟩

theorem invalidBu_iff (s : SimpleChain) (bu : chain.BlockUpdate)
    (hlast : ∀ last, s.lastBlockUpdate = some last → isInt64 (last.Height + 1)) :
    invalidBu s bu = true ↔
      ∃ last, s.lastBlockUpdate = some last ∧ last.Height + 1 ≠ bu.Height := by
  unfold invalidBu
  cases hl : s.lastBlockUpdate with
  | none => simp
  | some last =>
    have := wrap64_of_isInt64 _ (hlast last hl)
    simp [this]

/-- C10: height gaps are fatal.  On an initialised chain (accumulator and
status present, queue non-empty, heights within `int64`): `OnBlockOfSrc`
panics with the queue and the rest of the state untouched whenever
`bu.Height > acc.Height() + 1`; `addRelayMessage` fails to return exactly when
a previously ingested block update exists and its height + 1 differs from
`bu.Height`, and then it has panicked on the gap test with the state
untouched. -/
theorem height_gap_is_fatal (d : Deps) (s : SimpleChain) (acc : mta.ExtAccumulator)
    (bu : chain.BlockUpdate) (rps : List chain.ReceiptProof)
    (hacc : s.acc = some acc) (hH : isInt64 acc.Height)
    (hrms : s.rms ≠ []) (hbs : s.bs ≠ none)
    (hlast : ∀ last, s.lastBlockUpdate = some last → isInt64 (last.Height + 1)) :
    (acc.Height + 1 < bu.Height → OnBlockOfSrc d s bu rps = .crash s .missingBlock) ∧
    ((addRelayMessage s bu rps).returned = false ↔
      ∃ last, s.lastBlockUpdate = some last ∧ last.Height + 1 ≠ bu.Height) ∧
    ((addRelayMessage s bu rps).returned = false →
      addRelayMessage s bu rps = .crash s .invalidBu) := by
  have hcases : (addRelayMessage s bu rps).returned = false ↔ invalidBu s bu = true := by
    cases hg : invalidBu s bu with
    | true => rw [addRelayMessage_gap s bu rps hg]; simp [Outcome.returned]
    | false =>
      obtain ⟨s1, h1, _⟩ := addRelayMessage_done s bu rps hg hrms hbs
      rw [h1]; simp [Outcome.returned]
  refine ⟨?_, ?_, ?_⟩
  · intro hlt
    have hw := wrap64_succ_le acc.Height hH
    unfold OnBlockOfSrc updateMTA
    simp only [hacc]
    rw [if_pos (by omega)]
  · rw [hcases]; exact invalidBu_iff s bu hlast
  · intro hr
    exact addRelayMessage_gap s bu rps (hcases.1 hr)

/-- C10 (witness): from an accumulator at height 0, blocks 1 and 2 are taken
in and block 4 makes the third call panic with "missing block"; the theorem
applied to the state reached after blocks 1 and 2. -/
theorem height_gap_is_fatal_witness :
    feedBlocks (stubDeps 10 []) (chainOf 0 0 [entryOf 9 [] none []])
        [(blockAt 1 0, []), (blockAt 2 0, []), (blockAt 4 0, [])]
      = .crash { chainOf 2 0 [entryOf 9 [blockAt 1 0, blockAt 2 0] none []] with
                 acc := some { offset := 0, hashes := [[1], [2]] },
                 lastBlockUpdate := some (blockAt 2 0) } .missingBlock ∧
    OnBlockOfSrc (stubDeps 10 [])
        { chainOf 2 0 [entryOf 9 [blockAt 1 0, blockAt 2 0] none []] with
          acc := some { offset := 0, hashes := [[1], [2]] },
          lastBlockUpdate := some (blockAt 2 0) } (blockAt 4 0) []
      = .crash { chainOf 2 0 [entryOf 9 [blockAt 1 0, blockAt 2 0] none []] with
                 acc := some { offset := 0, hashes := [[1], [2]] },
                 lastBlockUpdate := some (blockAt 2 0) } .missingBlock ∧
    addRelayMessage
        { chainOf 2 0 [entryOf 9 [blockAt 1 0, blockAt 2 0] none []] with
          acc := some { offset := 0, hashes := [[1], [2]] },
          lastBlockUpdate := some (blockAt 2 0) } (blockAt 4 0) []
      = .crash { chainOf 2 0 [entryOf 9 [blockAt 1 0, blockAt 2 0] none []] with
                 acc := some { offset := 0, hashes := [[1], [2]] },
                 lastBlockUpdate := some (blockAt 2 0) } .invalidBu := by
  have T := height_gap_is_fatal (stubDeps 10 [])
    { chainOf 2 0 [entryOf 9 [blockAt 1 0, blockAt 2 0] none []] with
      acc := some { offset := 0, hashes := [[1], [2]] },
      lastBlockUpdate := some (blockAt 2 0) }
    { offset := 0, hashes := [[1], [2]] } (blockAt 4 0) [] rfl (by decide) (by decide)
    (by decide)
    (by
      intro last hl
      simp only [Option.some.injEq] at hl
      subst hl
      decide)
  exact ⟨by decide, T.1 (by decide), T.2.2 (T.2.1.2 ⟨blockAt 2 0, rfl, by decide⟩)⟩

theorem AddHash_Height (acc : mta.ExtAccumulator) (hash : Bytes) :
    (acc.AddHash hash).Height = acc.Height + 1 := by
  simp [mta.ExtAccumulator.AddHash, mta.ExtAccumulator.Height]
  omega

theorem addRelayMessage_state_acc (s : SimpleChain) (bu : chain.BlockUpdate)
    (rps : List chain.ReceiptProof) : (addRelayMessage s bu rps).state.acc = s.acc := by
  unfold addRelayMessage
  by_cases hg : invalidBu s bu = true
  · rw [if_pos hg]; rfl
  · rw [if_neg hg]
    cases hl : ({ s with lastBlockUpdate := some bu } : SimpleChain).rms.getLast? with
    | none => simp only [hl]; rfl
    | some rm =>
      simp only [hl]
      have h2 : (if rm.Segments.length > 0 then _rm { s with lastBlockUpdate := some bu }
          else { s with lastBlockUpdate := some bu }).acc = s.acc := by
        by_cases hs : rm.Segments.length > 0
        · rw [if_pos hs]; rfl
        · rw [if_neg hs]
      by_cases hr : rps.length > 0
      · rw [if_pos hr]; exact h2
      · rw [if_neg hr]
        cases hb : (if rm.Segments.length > 0 then _rm { s with lastBlockUpdate := some bu }
          else { s with lastBlockUpdate := some bu }).bs with
        | none => simp only [hb]; exact h2
        | some bs =>
          simp only [hb]
          by_cases hv : bu.Height ≤ bs.Verifier.Height
          · rw [if_pos hv]; exact h2
          · rw [if_neg hv]; exact h2

theorem updateMTA_next (d : Deps) (s : SimpleChain) (acc : mta.ExtAccumulator)
    (bu : chain.BlockUpdate) (hacc : s.acc = some acc) (hH : isInt64 (acc.Height + 1))
    (hbu : bu.Height = acc.Height + 1) :
    (∀ s1, updateMTA d s bu = .done s1 →
      s1 = { s with acc := some (acc.AddHash bu.BlockHash) }) ∧
    (d.Flush (acc.AddHash bu.BlockHash) = none →
      updateMTA d s bu = .done { s with acc := some (acc.AddHash bu.BlockHash) }) := by
  have hw := wrap64_of_isInt64 _ hH
  unfold updateMTA
  simp only [hacc, hw]
  rw [if_neg (by omega), if_pos hbu.symm]
  cases hf : d.Flush (acc.AddHash bu.BlockHash) with
  | none => simp
  | some e => simp

theorem OnBlockOfSrc_next (d : Deps) (s : SimpleChain) (acc : mta.ExtAccumulator)
    (bu : chain.BlockUpdate) (rps : List chain.ReceiptProof)
    (hacc : s.acc = some acc) (hH : isInt64 (acc.Height + 1))
    (hbu : bu.Height = acc.Height + 1) :
    (∀ s1, OnBlockOfSrc d s bu rps = .done s1 →
      s1.acc = some (acc.AddHash bu.BlockHash)) ∧
    (d.Flush (acc.AddHash bu.BlockHash) = none → s.rms ≠ [] → s.bs ≠ none →
      (∀ last, s.lastBlockUpdate = some last → last.Height = acc.Height) →
      ∃ s1, OnBlockOfSrc d s bu rps = .done s1 ∧ s1.rms ≠ [] ∧ s1.bs ≠ none ∧
        s1.lastBlockUpdate = some bu) := by
  obtain ⟨u1, u2⟩ := updateMTA_next d s acc bu hacc hH hbu
  constructor
  · intro s1 h1
    unfold OnBlockOfSrc at h1
    cases hu : updateMTA d s bu with
    | done s2 =>
      simp only [hu] at h1
      have h2 := u1 s2 hu
      subst h2
      have h3 := addRelayMessage_state_acc { s with acc := some (acc.AddHash bu.BlockHash) } bu rps
      rw [h1] at h3
      exact h3
    | failed s2 e => simp [hu] at h1
    | crash s2 c => simp [hu] at h1
  · intro hf hrms hbs hlast
    have hu := u2 hf
    have hg : invalidBu { s with acc := some (acc.AddHash bu.BlockHash) } bu = false := by
      unfold invalidBu
      cases hl : s.lastBlockUpdate with
      | none => simp [hl]
      | some last =>
        have h4 := hlast last hl
        have hw : wrap64 (last.Height + 1) = last.Height + 1 := by
          rw [h4]; exact wrap64_of_isInt64 _ hH
        simp only [hl, hw, h4, hbu]
        simp [wrap64_of_isInt64 _ hH]
    obtain ⟨s1, a1, _, a3, a4⟩ := addRelayMessage_done
      { s with acc := some (acc.AddHash bu.BlockHash) } bu rps hg hrms hbs
    refine ⟨s1, ?_, ?_, ?_, a4⟩
    · unfold OnBlockOfSrc
      rw [hu]
      exact a1
    · have := addRelayMessage_rms_ne_nil { s with acc := some (acc.AddHash bu.BlockHash) } bu rps hrms
      rw [a1] at this
      exact this
    · rw [a3]; exact hbs

/-- C9 (amended): for every accumulator height `initial` and every sequence
of `N` source block updates whose heights are `initial + 1, ..., initial + N`
(no gap and no overlap with the accumulator), whenever the `N` `OnBlockOfSrc`
calls complete the accumulator height is `initial + N`; and they do complete
when no flush fails, the chain is initialised (queue non-empty, status
present) and the previously ingested block update, if any, is the one at
height `initial`. -/
theorem mta_height_after_feed (d : Deps)
    (blocks : List (chain.BlockUpdate × List chain.ReceiptProof)) :
    ∀ (s : SimpleChain) (acc : mta.ExtAccumulator), s.acc = some acc →
      isInt64 acc.Height → isInt64 (acc.Height + blocks.length) →
      contiguousFrom acc.Height blocks = true →
      (∀ s1, feedBlocks d s blocks = .done s1 →
        ∃ acc1, s1.acc = some acc1 ∧ acc1.Height = acc.Height + blocks.length) ∧
      ((∀ a, d.Flush a = none) → s.rms ≠ [] → s.bs ≠ none →
        (∀ last, s.lastBlockUpdate = some last → last.Height = acc.Height) →
        ∃ s1, feedBlocks d s blocks = .done s1) := by
  induction blocks with
  | nil =>
    intro s acc hacc _ _ _
    refine ⟨?_, fun _ _ _ _ => ⟨s, rfl⟩⟩
    intro s1 h1
    simp only [feedBlocks, Outcome.done.injEq] at h1
    subst h1
    exact ⟨acc, hacc, by simp⟩
  | cons b rest ih =>
    obtain ⟨bu, rps⟩ := b
    intro s acc hacc hH hN hc
    simp only [contiguousFrom, Bool.and_eq_true, decide_eq_true_eq] at hc
    obtain ⟨hbu, hrest⟩ := hc
    have hlen : ((bu, rps) :: rest).length = rest.length + 1 := rfl
    have hH1 : isInt64 (acc.Height + 1) := by
      unfold isInt64 at hH hN ⊢
      rw [hlen] at hN
      push_cast at hN
      have := Int.ofNat_nonneg rest.length
      constructor <;> omega
    obtain ⟨o1, o2⟩ := OnBlockOfSrc_next d s acc bu rps hacc hH1 hbu
    have hHa : (acc.AddHash bu.BlockHash).Height = acc.Height + 1 := AddHash_Height _ _
    have hH2 : isInt64 ((acc.AddHash bu.BlockHash).Height + rest.length) := by
      rw [hHa]
      rw [hlen] at hN
      push_cast at hN
      have e : acc.Height + 1 + (rest.length : Int) = acc.Height + ((rest.length : Int) + 1) := by
        omega
      rw [e]; exact hN
    constructor
    · intro s1 h1
      rw [feedBlocks] at h1
      cases ho : OnBlockOfSrc d s bu rps with
      | done s2 =>
        simp only [ho] at h1
        have hacc2 := o1 s2 ho
        obtain ⟨i1, _⟩ := ih s2 _ hacc2 (by rw [hHa]; exact hH1) hH2 (by rw [hHa]; exact hrest)
        obtain ⟨acc1, e1, e2⟩ := i1 s1 h1
        refine ⟨acc1, e1, ?_⟩
        rw [e2, hHa, hlen]
        push_cast
        omega
      | failed s2 e => simp [ho] at h1
      | crash s2 c => simp [ho] at h1
    · intro hf hrms hbs hlast
      obtain ⟨s2, ho, r1, r2, r3⟩ := o2 (hf _) hrms hbs hlast
      have hacc2 := o1 s2 ho
      obtain ⟨_, i2⟩ := ih s2 _ hacc2 (by rw [hHa]; exact hH1) hH2 (by rw [hHa]; exact hrest)
      obtain ⟨s1, h1⟩ := i2 hf r1 r2 (by
        intro last hl
        rw [r3] at hl
        simp only [Option.some.injEq] at hl
        subst hl
        rw [hHa]; exact hbu)
      refine ⟨s1, ?_⟩
      rw [feedBlocks, ho]
      exact h1

/-- C9 (witness): blocks 1, 2, 3 fed to an accumulator at height 0. -/
theorem mta_height_after_feed_witness :
    ∃ s1 acc1, feedBlocks (stubDeps 10 []) (chainOf 0 0 [entryOf 9 [] none []]) (blocksFrom 0 3)
        = .done s1 ∧ s1.acc = some acc1 ∧ acc1.Height = 3 := by
  have T := mta_height_after_feed (stubDeps 10 []) (blocksFrom 0 3)
    (chainOf 0 0 [entryOf 9 [] none []]) { offset := 0, hashes := [] } rfl
    (by decide) (by decide) (by decide)
  obtain ⟨s1, h1⟩ := T.2 (fun _ => rfl) (by decide) (by decide) (by intro last hl; cases hl)
  obtain ⟨acc1, e1, e2⟩ := T.1 s1 h1
  exact ⟨s1, acc1, h1, e1, by rw [e2]; decide⟩

/-- C9 (counterexample): blocks 5, 6, 7 follow one another without a gap, the
accumulator is at height 10, the three calls complete (late duplicates are
ignored by `updateMTA`) and the accumulator is still at height 10, not 13. -/
theorem feed_below_accumulator_keeps_height :
    stepsByOne (blocksFrom 4 3) = true ∧
    feedBlocks (stubDeps 10 []) (chainOf 10 0 [entryOf 9 [] none []]) (blocksFrom 4 3)
      = .done { chainOf 10 0 [entryOf 9 [blockAt 5 0, blockAt 6 0, blockAt 7 0] none []] with
                lastBlockUpdate := some (blockAt 7 0) } ∧
    (chainOf 10 0 [entryOf 9 [] none []]).acc.map mta.ExtAccumulator.Height = some 10 ∧
    ({ chainOf 10 0 [entryOf 9 [blockAt 5 0, blockAt 6 0, blockAt 7 0] none []] with
       lastBlockUpdate := some (blockAt 7 0) } : SimpleChain).acc.map mta.ExtAccumulator.Height
      = some 10 := by
  decide

theorem relaySegments_entry (d : Deps) (i : Nat) (segs : List (Option chain.Segment)) :
    ∀ (j : Nat) (re : Bool), ∀ call ∈ (relaySegments d i segs j re).2.2.1, call.entry = i := by
  induction segs with
  | nil => intro j re call h; simp [relaySegments] at h
  | cons sg rest ih =>
    intro j re call h
    cases sg with
    | none =>
      rw [relaySegments] at h
      exact ih _ _ call h
    | some sg =>
      obtain ⟨tp, grp, tr, hh, nb, es, ne⟩ := sg
      cases grp with
      | some p =>
        rw [relaySegments] at h
        exact ih _ _ call h
      | none =>
        rw [relaySegments] at h
        simp only at h
        cases hr : d.Relay { TransactionParam := tp, GetResultParam := none,
                             TransactionResult := none, Height := hh,
                             NumberOfBlockUpdate := nb, EventSequence := es,
                             NumberOfEvent := ne } with
        | error e =>
          simp only [hr, List.mem_singleton] at h
          rw [h]
        | ok p =>
          simp only [hr, List.mem_cons] at h
          rcases h with h | h
          · rw [h]
          · exact ih _ _ call h

theorem relayLoop_stops (d : Deps) (height : Option Int) (rms : List chain.RelayMessage) :
    ∀ (i k : Nat) (rm : chain.RelayMessage), rms[k]? = some rm → stopsRelay rm = true →
      ∀ call ∈ (relayLoop d height rms i).2.1, call.entry < i + k := by
  induction rms with
  | nil => intro i k rm h; simp at h
  | cons r rest ih =>
    intro i k rm hk hstop call hc
    rw [relayLoop] at hc
    cases k with
    | zero =>
      simp only [List.getElem?_cons_zero, Option.some.injEq] at hk
      subst hk
      rw [if_pos hstop] at hc
      simp at hc
    | succ k =>
      simp only [List.getElem?_cons_succ] at hk
      by_cases hs : stopsRelay r = true
      · rw [if_pos hs] at hc
        simp at hc
      · rw [if_neg hs] at hc
        cases hsi : segmentIfEmpty d height r with
        | mk rm1 oc =>
          cases oc with
          | some c =>
            simp only [hsi] at hc
            simp at hc
          | none =>
            simp only [hsi] at hc
            have hent := relaySegments_entry d i rm1.Segments 0 true
            cases hcr : (relaySegments d i rm1.Segments 0 true).2.2.2 with
            | some c =>
              simp only [hcr] at hc
              have := hent call hc
              omega
            | none =>
              simp only [hcr, List.mem_append] at hc
              rcases hc with hc | hc
              · have := hent call hc
                omega
              · have := ih (i + 1) k rm hk hstop call hc
                omega

/-- C6 (amended): a dispatch pass visits the entries head to tail and ends at
the first entry that is empty or has a segment awaiting a result when the
pass reaches it: `Sender.Relay` is called neither for that entry nor for any
later one.  (Segments submitted earlier in the same pass do not hold back
later entries.)  The pass is taken as one step: no result task completes
while it runs. -/
theorem relay_stops_at_waiting_entry (d : Deps) (s : SimpleChain) (k : Nat)
    (rm : chain.RelayMessage) (hk : s.rms[k]? = some rm)
    (hstop : (rm.BlockUpdates = [] ∧ rm.ReceiptProofs = []) ∨ _hasWait rm = true) :
    ∀ call ∈ (_relay d s).2.1, call.entry < k := by
  intro call hc
  have hs : stopsRelay rm = true := by
    unfold stopsRelay
    rcases hstop with ⟨h1, h2⟩ | h
    · simp [h1, h2]
    · simp [h]
  have := relayLoop_stops d _ s.rms 0 k rm hk hs call hc
  omega

/-- C6 (witness): the second of three entries awaits a result; the pass
submits the segment of the first entry and nothing else. -/
theorem relay_stops_at_waiting_entry_witness :
    (chainOf 3 0 [entryOf 0 [blockAt 1 1] none [], waitingEntry 1 2,
                  entryOf 2 [blockAt 3 1] none []]).rms[1]? = some (waitingEntry 1 2) ∧
    _hasWait (waitingEntry 1 2) = true ∧
    (_relay (stubDeps 10 [])
        (chainOf 3 0 [entryOf 0 [blockAt 1 1] none [], waitingEntry 1 2,
                      entryOf 2 [blockAt 3 1] none []])).2.1.map (fun c => (c.entry, c.index))
      = [(0, 0)] ∧
    ∀ call ∈ (_relay (stubDeps 10 [])
        (chainOf 3 0 [entryOf 0 [blockAt 1 1] none [], waitingEntry 1 2,
                      entryOf 2 [blockAt 3 1] none []])).2.1, call.entry < 1 :=
  ⟨by decide, by decide, by decide,
   relay_stops_at_waiting_entry (stubDeps 10 [])
     (chainOf 3 0 [entryOf 0 [blockAt 1 1] none [], waitingEntry 1 2,
                   entryOf 2 [blockAt 3 1] none []]) 1 (waitingEntry 1 2) (by decide)
     (Or.inr (by decide))⟩

/-- C6 (counterexample): a queue of two entries, neither submitted yet.  One
pass calls `Sender.Relay` for the segment of entry 0 and then for the segment
of entry 1, although the segment of entry 0 has just been given a result
handle and has no result: after the pass both segments await a result. -/
theorem relay_overtakes_within_pass :
    ((_relay (stubDeps 10 [])
        (chainOf 2 0 [entryOf 0 [blockAt 1 1] none [receiptAt 1 5 [1]],
                      entryOf 1 [blockAt 2 1] none []])).2.1.map (fun c => (c.entry, c.index))
      = [(0, 0), (1, 0)]) ∧
    ((_relay (stubDeps 10 [])
        (chainOf 2 0 [entryOf 0 [blockAt 1 1] none [receiptAt 1 5 [1]],
                      entryOf 1 [blockAt 2 1] none []])).1.rms.map
          (fun rm => rm.Segments.map (fun seg => seg.map
            (fun sg => (sg.GetResultParam, sg.TransactionResult))))
      = [[some (some 1, none)], [some (some 1, none)]]) := by
  decide

theorem refreshBlockProof_receipts (d : Deps) (s : SimpleChain) (rm : chain.RelayMessage) :
    (refreshBlockProof d s rm).rm.ReceiptProofs = rm.ReceiptProofs ∧
    ((refreshBlockProof d s rm).marked = true → rm.ReceiptProofs = []) := by
  unfold refreshBlockProof
  cases hb : rm.BlockProof with
  | none => simp
  | some bp =>
    simp only
    by_cases hr : rm.ReceiptProofs.length > 0
    · rw [if_pos hr]
      cases hw : bp.BlockWitness with
      | none => simp
      | some w =>
        simp only
        cases hn : newBlockProof d s w.Height bp.Header with
        | ok bp1 => simp
        | error f => cases f <;> simp
    · rw [if_neg hr]
      refine ⟨rfl, fun _ => ?_⟩
      exact List.length_eq_zero.1 (by omega)

theorem pruneBlockUpdates_receipts (d : Deps) (s : SimpleChain) (h : Int)
    (rm : chain.RelayMessage) (m : Bool) :
    (pruneBlockUpdates d s h rm m).rm.ReceiptProofs = rm.ReceiptProofs ∧
    ((pruneBlockUpdates d s h rm m).marked = true → m = true ∨ rm.ReceiptProofs = []) := by
  unfold pruneBlockUpdates
  cases hb : rm.BlockUpdates with
  | nil => exact ⟨rfl, fun hm => Or.inl hm⟩
  | cons bu0 tl =>
    simp only
    by_cases h1 : wrap64 (wrap64 (h - bu0.Height) + 1) < 1
    · rw [if_pos h1]; exact ⟨rfl, fun hm => Or.inl hm⟩
    · rw [if_neg h1]
      by_cases h2 : wrap64 (wrap64 (h - bu0.Height) + 1) ≥ ((bu0 :: tl).length : Int)
      · rw [if_pos h2]
        by_cases hr : rm.ReceiptProofs.length > 0
        · rw [if_pos hr]
          cases hn : newBlockProof d s ((bu0 :: tl).getLastD bu0).Height
              ((bu0 :: tl).getLastD bu0).Header with
          | ok bp1 => exact ⟨rfl, fun hm => Or.inl hm⟩
          | error f => cases f <;> exact ⟨rfl, fun hm => Or.inl hm⟩
        · rw [if_neg hr]
          refine ⟨rfl, fun _ => Or.inr ?_⟩
          exact List.length_eq_zero.1 (by omega)
      · rw [if_neg h2]; exact ⟨rfl, fun hm => Or.inl hm⟩

/-- An entry is marked for removal by its own round of `rmLoop` only when it
holds no receipt proof after pruning. -/
theorem updateEntry_marked_no_receipts (d : Deps) (s : SimpleChain) (h seq : Int)
    (rm : chain.RelayMessage) (hm : (updateEntry d s h seq rm).marked = true) :
    (updateEntry d s h seq rm).rm.ReceiptProofs = [] := by
  unfold updateEntry at hm ⊢
  cases hp : pruneReceipts seq rm with
  | mk rm1 oc =>
    cases oc with
    | some c => simp [hp] at hm
    | none =>
      simp only [hp] at hm ⊢
      obtain ⟨r1, r2⟩ := refreshBlockProof_receipts d s rm1
      cases hc : (refreshBlockProof d s rm1).ctl with
      | next =>
        simp only [hc] at hm ⊢
        obtain ⟨p1, p2⟩ := pruneBlockUpdates_receipts d s h (refreshBlockProof d s rm1).rm
          (refreshBlockProof d s rm1).marked
        rw [p1]
        rcases p2 hm with h3 | h3
        · rw [r1]; exact r2 h3
        · exact h3
      | stop => simp only [hc] at hm ⊢; rw [r1]; exact r2 hm
      | fail e => simp only [hc] at hm ⊢; rw [r1]; exact r2 hm
      | crash c => simp only [hc] at hm ⊢; rw [r1]; exact r2 hm

/-- Partial acknowledgement inside an entry that still has a block update: a
receipt proof whose first event has sequence `s0`, with `n` events and `n`
event proofs, is cut to the events and event proofs from position
`seq - s0 + 1` on, for `s0 ≤ seq < s0 + n - 1`. -/
theorem rpStep_partial_ack (seq s0 : Int) (rm : chain.RelayMessage) (rp : chain.ReceiptProof)
    (ev : chain.Event) (evs : List chain.Event) (hev : rp.Events = ev :: evs)
    (hs0 : ev.Sequence = s0) (hi1 : isInt64 s0)
    (hn : isInt64 (rp.Events.length : Int))
    (hlo : s0 ≤ seq) (hhi : seq < s0 + (rp.Events.length : Int) - 1)
    (hep : rp.EventProofs.length = rp.Events.length) (hbu : rm.BlockUpdates ≠ []) :
    rpStep seq rm rp =
      .slice { rp with Events := rp.Events.drop (seq - s0 + 1).toNat,
                       EventProofs := rp.EventProofs.drop (seq - s0 + 1).toNat } := by
  have hw : wrap64 (wrap64 (seq - wrap64 ev.Sequence) + 1) = seq - s0 + 1 := by
    rw [hs0, wrap64_of_isInt64 _ hi1]
    unfold isInt64 at hi1 hn
    unfold wrap64
    omega
  have hbl : ¬ rm.BlockUpdates.length = 0 := fun h0 => hbu (List.length_eq_zero.1 h0)
  have hpos : rp.EventProofs.length > 0 := by
    rw [hep, hev]; simp
  unfold rpStep
  rw [hev]
  simp only
  rw [hw, ← hev]
  rw [if_neg (by omega), if_neg (by omega), if_neg hbl, if_pos hpos, if_neg (by rw [hep]; omega)]

/-- Promotion inside one round of `rmLoop`: when `h` has reached the last of
the contiguous block updates of an entry that still holds receipt proofs, and
the proof synthesis succeeds, the block updates are emptied, the block proof is
the one synthesized for the last block update's height and header, the entry
is not marked by this step and the walk goes on. -/
theorem pruneBlockUpdates_promotes (d : Deps) (s : SimpleChain) (h : Int)
    (rm : chain.RelayMessage) (m : Bool) (bu0 : chain.BlockUpdate)
    (tl : List chain.BlockUpdate) (bp : chain.BlockProof)
    (hb : rm.BlockUpdates = bu0 :: tl)
    (hcont : ((bu0 :: tl).getLastD bu0).Height = bu0.Height + (tl.length : Int))
    (h0 : 0 ≤ bu0.Height) (hh : h < 2 ^ 63 - 1)
    (hge : ((bu0 :: tl).getLastD bu0).Height ≤ h) (hr : rm.ReceiptProofs ≠ [])
    (hn : newBlockProof d s ((bu0 :: tl).getLastD bu0).Height
      ((bu0 :: tl).getLastD bu0).Header = .ok bp) :
    pruneBlockUpdates d s h rm m =
      { rm := { rm with BlockProof := some bp, BlockUpdates := [] }, marked := m, ctl := .next } := by
  have hw : wrap64 (wrap64 (h - bu0.Height) + 1) = h - bu0.Height + 1 := by
    have := Int.ofNat_nonneg tl.length
    unfold wrap64
    omega
  have hrl : rm.ReceiptProofs.length > 0 := List.length_pos.2 hr
  have hlen : ((bu0 :: tl).length : Int) = (tl.length : Int) + 1 := by simp
  unfold pruneBlockUpdates
  rw [hb]
  simp only
  rw [hw, if_neg (by have := Int.ofNat_nonneg tl.length; omega), if_pos (by omega), if_pos hrl, hn]

/-- C3 (code at the failing input): the queue holds entry 0 with block update
1 and a receipt proof whose only event has sequence 10, and entry 1 with block
update 2 and no receipt proof; the destination reports `h = 5`, `seq = 5`.
Pruning leaves the receipt proof of entry 0 in place (sequence 10 is not
delivered), entry 1 is marked for removal, and `s.rms = s.rms[rrm:]` drops
both entries: the queue is the fresh entry alone. -/
theorem updateRelayMessage_drops_undelivered_receipts :
    (pruneReceipts 5 (entryOf 0 [blockAt 1 0] none [receiptAt 0 10 [1]])).1.ReceiptProofs
      = [receiptAt 0 10 [1]] ∧
    updateRelayMessage (stubDeps 10 [])
        (chainOf 5 5 [entryOf 0 [blockAt 1 0] none [receiptAt 0 10 [1]],
                      entryOf 1 [blockAt 2 0] none []]) 5 5
      = .done (_rm (chainOf 5 5 [])) := by
  decide

/-- C7 (code at the failing input): a receipt proof with sequences 5..9 and
`seq = 7`.  In an entry that has a block update the events and event proofs
shrink to those of sequences 8 and 9.  In a promoted entry (block proof set,
no block update) the call panics: the `Debugf` argument
`rm.BlockUpdates[len(rm.BlockUpdates)-1]` indexes an empty slice before
anything is sliced. -/
theorem updateRelayMessage_partial_ack_promoted_entry_panics :
    updateRelayMessage (stubDeps 10 [])
        (chainOf 5 5 [entryOf 0 [blockAt 1 0] none [receiptAt 0 5 [1, 1, 1, 1, 1]],
                      entryOf 1 [] none []]) 0 7
      = .done (chainOf 5 5 [entryOf 0 [blockAt 1 0] none
                              [{ receiptAt 0 5 [1, 1, 1, 1, 1] with
                                  Events := [{ Sequence := 8 }, { Sequence := 9 }],
                                  EventProofs := [{ Proof := [163] }, { Proof := [164] }] }],
                            entryOf 1 [] none []]) ∧
    updateRelayMessage (stubDeps 10 [])
        (chainOf 5 5 [entryOf 0 []
                        (some { Header := [1], BlockWitness := some { Height := 5, Witness := [[1]] } })
                        [receiptAt 0 5 [1, 1, 1, 1, 1]],
                      entryOf 1 [] none []]) 5 7
      = .crash (chainOf 5 5 [entryOf 0 []
                        (some { Header := [1], BlockWitness := some { Height := 5, Witness := [[1]] } })
                        [receiptAt 0 5 [1, 1, 1, 1, 1]],
                      entryOf 1 [] none []]) .indexOutOfRange := by
  decide

/-- C8 (code at the failing input): an entry with block updates 100..105 and an
undelivered receipt proof (sequence 43), `h = 110`, `seq = 42`.  Followed by
an empty entry it is promoted and kept.  Followed by an entry that holds block
update 106 and no receipt proof, it is promoted and then dropped together with
that entry, receipt proof included: the queue is the fresh entry alone. -/
theorem updateRelayMessage_promoted_entry_dropped :
    updateRelayMessage (stubDeps 10 [])
        (chainOf 110 110
          [entryOf 0 [blockAt 100 0, blockAt 101 0, blockAt 102 0, blockAt 103 0, blockAt 104 0,
                      blockAt 105 0] none [receiptAt 0 43 [1]],
           entryOf 1 [] none []]) 110 42
      = .done (chainOf 110 110
          [entryOf 0 []
             (some { Header := [105], BlockWitness := some { Height := 110, Witness := [[105]] } })
             [receiptAt 0 43 [1]],
           entryOf 1 [] none []]) ∧
    updateRelayMessage (stubDeps 10 [])
        (chainOf 110 110
          [entryOf 0 [blockAt 100 0, blockAt 101 0, blockAt 102 0, blockAt 103 0, blockAt 104 0,
                      blockAt 105 0] none [receiptAt 0 43 [1]],
           entryOf 1 [blockAt 106 0] none []]) 110 42
      = .done (_rm (chainOf 110 110 [])) := by
  decide

/-- C4 (code at the failing input): the entry with block updates 100..105 and
an undelivered receipt proof, `h = 110`, `seq = 42`, status and accumulator
fixed.  The first application promotes it with the proof synthesized for
block 105 (witness `[105]`, witness height 110).  The second application
refreshes the proof from `rm.BlockProof.BlockWitness.Height`, which is the
witness height 110 and not the block height 105: the block proof changes
(witness `[110]`). -/
theorem updateRelayMessage_second_application_differs :
    updateRelayMessage (stubDeps 10 [])
        (chainOf 110 110
          [entryOf 0 [blockAt 100 0, blockAt 101 0, blockAt 102 0, blockAt 103 0, blockAt 104 0,
                      blockAt 105 0] none [receiptAt 0 43 [1]],
           entryOf 1 [] none []]) 110 42
      = .done (chainOf 110 110
          [entryOf 0 []
             (some { Header := [105], BlockWitness := some { Height := 110, Witness := [[105]] } })
             [receiptAt 0 43 [1]],
           entryOf 1 [] none []]) ∧
    updateRelayMessage (stubDeps 10 [])
        (chainOf 110 110
          [entryOf 0 []
             (some { Header := [105], BlockWitness := some { Height := 110, Witness := [[105]] } })
             [receiptAt 0 43 [1]],
           entryOf 1 [] none []]) 110 42
      = .done (chainOf 110 110
          [entryOf 0 []
             (some { Header := [105], BlockWitness := some { Height := 110, Witness := [[110]] } })
             [receiptAt 0 43 [1]],
           entryOf 1 [] none []]) := by
  decide

/-- C11: result reconciliation.  For every segment and every answer of
`Sender.GetResult`, `result` stores the returned result in `TransactionResult`
and: on success and on an error that carries no code it leaves
`GetResultParam` as it was; on the code `BMVUnknown` it leaves it as it was; on
the codes `BMVNotVerifiable`, `BMVAlreadyVerified` and `BMCRevertUnauthorized`
it clears it; on every other code it panics without clearing it.  The code
constants are declared outside the sources; `BMVUnknown`, the first case of the
`switch`, is taken to differ from the three codes that clear. -/
theorem result_reconciliation (codes : ErrorCodes)
    (GetResult : Option Nat → Option Nat × Option ResultError) (segment : chain.Segment)
    (hu1 : codes.BMVUnknown ≠ codes.BMVNotVerifiable)
    (hu2 : codes.BMVUnknown ≠ codes.BMVAlreadyVerified)
    (hu3 : codes.BMVUnknown ≠ codes.BMCRevertUnauthorized) :
    ((GetResult segment.GetResultParam).2 = none →
      result codes GetResult segment =
        ({ segment with TransactionResult := (GetResult segment.GetResultParam).1 }, none)) ∧
    ((GetResult segment.GetResultParam).2 = some .uncoded →
      result codes GetResult segment =
        ({ segment with TransactionResult := (GetResult segment.GetResultParam).1 }, none)) ∧
    (∀ code, (GetResult segment.GetResultParam).2 = some (.coded code) →
      (code = codes.BMVUnknown →
        result codes GetResult segment =
          ({ segment with TransactionResult := (GetResult segment.GetResultParam).1 }, none)) ∧
      (code = codes.BMVNotVerifiable ∨ code = codes.BMVAlreadyVerified ∨
          code = codes.BMCRevertUnauthorized →
        result codes GetResult segment =
          ({ segment with TransactionResult := (GetResult segment.GetResultParam).1,
                          GetResultParam := none }, none)) ∧
      (code ≠ codes.BMVUnknown → code ≠ codes.BMVNotVerifiable →
          code ≠ codes.BMVAlreadyVerified → code ≠ codes.BMCRevertUnauthorized →
        result codes GetResult segment =
          ({ segment with TransactionResult := (GetResult segment.GetResultParam).1 },
           some .getResultFailed))) := by
  refine ⟨?_, ?_, ?_⟩
  · intro h
    unfold result
    simp only [h]
  · intro h
    unfold result
    simp only [h]
  · intro code h
    refine ⟨?_, ?_, ?_⟩
    · intro hc
      unfold result
      simp only [h]
      rw [if_pos hc]
    · intro hc
      have hne : code ≠ codes.BMVUnknown := by
        rcases hc with hc | hc | hc <;> rw [hc] <;> intro hx
        · exact hu1 hx.symm
        · exact hu2 hx.symm
        · exact hu3 hx.symm
      unfold result
      simp only [h]
      rw [if_neg hne]
      rcases hc with hc | hc | hc
      · rw [if_pos hc]
      · by_cases h1 : code = codes.BMVNotVerifiable
        · rw [if_pos h1]
        · rw [if_neg h1, if_pos hc]
      · by_cases h1 : code = codes.BMVNotVerifiable
        · rw [if_pos h1]
        · rw [if_neg h1]
          by_cases h2 : code = codes.BMVAlreadyVerified
          · rw [if_pos h2]
          · rw [if_neg h2, if_pos hc]
    · intro h0 h1 h2 h3
      unfold result
      simp only [h]
      rw [if_neg h0, if_neg h1, if_neg h2, if_neg h3]

/-- C12 (code on every input): for every segment and every block proof,
`UpdateSegment` panics on the type assertion `cd.Params.(BMCRelayMethodParams)`,
made on the nil `Params` of the literal `CallData{}`, before it reads the
segment or the block proof: `TransactionParam` is never re-encoded. -/
theorem UpdateSegment_always_panics (d : Deps) (u : DecodeDeps) (bp : Option chain.BlockProof)
    (segment : chain.Segment) :
    UpdateSegment d u bp segment = (segment, some (.crash .interfaceConversion)) := rfl

theorem modifyLast_append (f : chain.RelayMessage → chain.RelayMessage) :
    ∀ (init : List chain.RelayMessage) (tail : chain.RelayMessage),
      modifyLast f (init ++ [tail]) = init ++ [f tail]
  | [], _ => rfl
  | [a], t => rfl
  | a :: b :: rest, t => by
    have := modifyLast_append f (b :: rest) t
    simp only [List.cons_append] at this ⊢
    rw [modifyLast, this]

/-- C13: `addRelayMessage` with receipt proofs.  For a queue `init ++ [tail]`,
a block update `bu` that passes the gap test and a non-empty `rps`, the call
returns and the queue ends with two entries `E`, `T`: the block updates of `E`
end with `bu`, its receipt proofs are `rps`, its `HeightOfDst` is the monitor
height, and `T` is a fresh entry without block updates, receipt proofs or
segments.  When `tail` has no segments, `E` is `tail` so extended and `init` is
unchanged; when `tail` already has segments, `tail` is unchanged too and `E` is
a fresh entry holding `bu` and `rps`. -/
theorem addRelayMessage_with_receipts (s : SimpleChain) (bu : chain.BlockUpdate)
    (rps : List chain.ReceiptProof) (init : List chain.RelayMessage)
    (tail : chain.RelayMessage) (hq : s.rms = init ++ [tail])
    (hgap : invalidBu s bu = false) (hrps : rps ≠ []) :
    (tail.Segments = [] →
      addRelayMessage s bu rps = .done
        { s with lastBlockUpdate := some bu,
                 rmSeq := (s.rmSeq + 1) % 2 ^ 64,
                 rms := init ++
                   [{ tail with BlockUpdates := tail.BlockUpdates ++ [bu], ReceiptProofs := rps,
                                HeightOfDst := s.heightOfDst },
                    { From := s.src, BlockUpdates := [], BlockProof := none,
                      ReceiptProofs := [], Seq := s.rmSeq, HeightOfDst := 0,
                      Segments := [] }] }) ∧
    (tail.Segments ≠ [] →
      addRelayMessage s bu rps = .done
        { s with lastBlockUpdate := some bu,
                 rmSeq := ((s.rmSeq + 1) % 2 ^ 64 + 1) % 2 ^ 64,
                 rms := init ++
                   [tail,
                    { From := s.src, BlockUpdates := [bu], BlockProof := none,
                      ReceiptProofs := rps, Seq := s.rmSeq, HeightOfDst := s.heightOfDst,
                      Segments := [] },
                    { From := s.src, BlockUpdates := [], BlockProof := none,
                      ReceiptProofs := [], Seq := (s.rmSeq + 1) % 2 ^ 64, HeightOfDst := 0,
                      Segments := [] }] }) := by
  have hr : rps.length > 0 := List.length_pos.2 hrps
  have hl : ({ s with lastBlockUpdate := some bu } : SimpleChain).rms.getLast? = some tail := by
    show s.rms.getLast? = some tail
    rw [hq]; simp
  constructor
  · intro hs
    have hs0 : ¬ tail.Segments.length > 0 := by rw [hs]; simp
    unfold addRelayMessage
    rw [hgap]
    simp only [Bool.false_eq_true, if_false, hl]
    rw [if_neg hs0, if_pos hr]
    simp only [_rm, freshEntry, hq, modifyLast_append]
    simp
  · intro hs
    have hs0 : tail.Segments.length > 0 := List.length_pos.2 hs
    unfold addRelayMessage
    rw [hgap]
    simp only [Bool.false_eq_true, if_false, hl]
    rw [if_pos hs0, if_pos hr]
    simp only [_rm, freshEntry, hq]
    rw [modifyLast_append]
    simp

/-- C11 (witness): with the codes 25, 26, 27 and 11, a `GetResult` that fails
with the code of `BMVNotVerifiable` clears the result handle of the segment. -/
theorem result_reconciliation_witness :
    sampleCodes.BMVUnknown ≠ sampleCodes.BMVNotVerifiable ∧
    sampleCodes.BMVUnknown ≠ sampleCodes.BMVAlreadyVerified ∧
    sampleCodes.BMVUnknown ≠ sampleCodes.BMCRevertUnauthorized ∧
    result sampleCodes (fun _ => (none, some (.coded 26))) sampleSegment
      = ({ sampleSegment with GetResultParam := none }, none) ∧
    result sampleCodes (fun _ => (some 8, none)) sampleSegment
      = ({ sampleSegment with TransactionResult := some 8 }, none) :=
  ⟨by decide, by decide, by decide,
   ((result_reconciliation sampleCodes (fun _ => (none, some (.coded 26))) sampleSegment
      (by decide) (by decide) (by decide)).2.2 26 rfl).2.1 (Or.inl rfl),
   (result_reconciliation sampleCodes (fun _ => (some 8, none)) sampleSegment
      (by decide) (by decide) (by decide)).1 rfl⟩

/-- C13 (witness): block update 1 with one receipt proof is added to the queue
that holds one entry without segments. -/
theorem addRelayMessage_with_receipts_witness :
    (chainOf 0 0 [entryOf 9 [] none []]).rms = [] ++ [entryOf 9 [] none []] ∧
    invalidBu (chainOf 0 0 [entryOf 9 [] none []]) (blockAt 1 0) = false ∧
    [receiptAt 0 1 [1]] ≠ [] ∧
    addRelayMessage (chainOf 0 0 [entryOf 9 [] none []]) (blockAt 1 0) [receiptAt 0 1 [1]]
      = .done { chainOf 0 0 [entryOf 9 [blockAt 1 0] none [receiptAt 0 1 [1]],
                            entryOf 9 [] none []] with
                lastBlockUpdate := some (blockAt 1 0), rmSeq := 10 } :=
  ⟨by decide, by decide, by decide,
   ((addRelayMessage_with_receipts (chainOf 0 0 [entryOf 9 [] none []]) (blockAt 1 0)
      [receiptAt 0 1 [1]] [] (entryOf 9 [] none []) (by decide) (by decide) (by decide)).1
      (by decide)).trans (by decide)⟩

theorem blockUpdateLoop_no_crash (d : Deps) (height : Int) (bus : List chain.BlockUpdate) :
    ∀ (st : SegmentState) (c : Crash), blockUpdateLoop d height bus st ≠ .error (.crash c) := by
  induction bus with
  | nil => intro st c; simp [blockUpdateLoop]
  | cons bu rest ih =>
    intro st c
    rw [blockUpdateLoop]
    by_cases hh : bu.Height ≤ height
    · rw [if_pos hh]; exact ih st c
    · rw [if_neg hh]
      simp only
      cases ho : isOverLimit d (bu.Proof.length : Int) with
      | true => simp
      | false =>
        simp only [Bool.false_eq_true, if_false]
        cases ho2 : isOverLimit d (st.size + (bu.Proof.length : Int)) with
        | true =>
          simp only [if_true]
          cases hm : d.marshalRelayMessage st.msg with
          | error e => simp
          | ok b => exact ih _ c
        | false =>
          simp only [Bool.false_eq_true, if_false]
          exact ih _ c

theorem blockUpdateLoop_oversize (d : Deps) (height : Int) (bus : List chain.BlockUpdate)
    (bu : chain.BlockUpdate) (hmem : bu ∈ bus) (hh : height < bu.Height)
    (hbig : d.TxSizeLimit < (bu.Proof.length : Int)) :
    ∀ (st : SegmentState), ∃ e, blockUpdateLoop d height bus st = .error (.error e) := by
  induction bus with
  | nil => simp at hmem
  | cons b rest ih =>
    intro st
    rw [blockUpdateLoop]
    by_cases hb : b.Height ≤ height
    · rw [if_pos hb]
      rcases List.mem_cons.1 hmem with h1 | h1
      · subst h1; omega
      · exact ih h1 st
    · rw [if_neg hb]
      simp only
      cases ho : isOverLimit d (b.Proof.length : Int) with
      | true => exact ⟨.invalidBlockUpdateSize, by simp⟩
      | false =>
        have hle := isOverLimit_false d _ ho
        have hmem1 : bu ∈ rest := by
          rcases List.mem_cons.1 hmem with h1 | h1
          · subst h1; omega
          · exact h1
        simp only [Bool.false_eq_true, if_false]
        cases ho2 : isOverLimit d (st.size + (b.Proof.length : Int)) with
        | true =>
          simp only [if_true]
          cases hm : d.marshalRelayMessage st.msg with
          | error e => exact ⟨e, rfl⟩
          | ok bb => exact ih hmem1 _
        | false =>
          simp only [Bool.false_eq_true, if_false]
          exact ih hmem1 _

theorem blockUpdateLoop_filter (d : Deps) (height : Int) (bus : List chain.BlockUpdate) :
    ∀ (st : SegmentState),
      blockUpdateLoop d height (bus.filter (fun bu => decide (height < bu.Height))) st
        = blockUpdateLoop d height bus st := by
  induction bus with
  | nil => intro st; rfl
  | cons b rest ih =>
    intro st
    by_cases hb : b.Height ≤ height
    · have hf : ¬ height < b.Height := by omega
      have e : List.filter (fun bu => decide (height < bu.Height)) (b :: rest)
          = List.filter (fun bu => decide (height < bu.Height)) rest := by
        rw [List.filter_cons]; simp [hf]
      rw [e, ih st]
      conv => rhs; rw [blockUpdateLoop, if_pos hb]
    · have hf : height < b.Height := by omega
      have e : List.filter (fun bu => decide (height < bu.Height)) (b :: rest)
          = b :: List.filter (fun bu => decide (height < bu.Height)) rest := by
        rw [List.filter_cons]; simp [hf]
      rw [e, blockUpdateLoop, if_neg hb]
      conv => rhs; rw [blockUpdateLoop, if_neg hb]
      simp only [ih]

theorem eventLoop_sizes (d : Deps) (bp : Bytes) (rp : chain.ReceiptProof)
    (eps : List chain.EventProof) :
    ∀ (j : Nat) (st st1 : SegmentState) (trp trp1 : ReceiptProof),
      eventLoop d bp rp eps j st trp = .ok (st1, trp1) →
      ∀ ep ∈ eps, (ep.Proof.length : Int) ≤ d.TxSizeLimit := by
  induction eps with
  | nil => intro j st st1 trp trp1 _ ep hep; simp at hep
  | cons e rest ih =>
    intro j st st1 trp trp1 h
    rw [eventLoop] at h
    cases ho : isOverLimit d (e.Proof.length : Int) with
    | true => simp [ho] at h
    | false =>
      have hle := isOverLimit_false d _ ho
      rw [ho] at h
      simp only [Bool.false_eq_true, if_false] at h
      have hrest : ∀ ep ∈ rest, (ep.Proof.length : Int) ≤ d.TxSizeLimit := by
        cases ho2 : isOverLimit d (st.size + (e.Proof.length : Int)) with
        | true =>
          rw [ho2] at h
          simp only [if_true] at h
          by_cases hj : j = 0 ∧ st.msg.BlockUpdates.length = 0
          · rw [if_pos hj] at h; simp at h
          · rw [if_neg hj] at h
            cases hm : d.marshalRelayMessage st.msg with
            | error e1 => simp [hm] at h
            | ok b =>
              simp only [hm] at h
              cases hp : packEvent rp j e
                  { segments := st.segments ++ [evSegment st.msg b],
                    msg := { emptyMsg with BlockProof := bp },
                    size := (e.Proof.length : Int) + (rp.Proof.length : Int) + (bp.length : Int) }
                  (newTrp rp) with
              | error f => simp [hp] at h
              | ok p =>
                obtain ⟨st2, trp2⟩ := p
                simp only [hp] at h
                exact ih (j + 1) st2 st1 trp2 trp1 h
        | false =>
          rw [ho2] at h
          simp only [Bool.false_eq_true, if_false] at h
          cases hp : packEvent rp j e { st with size := st.size + (e.Proof.length : Int) } trp with
          | error f => simp [hp] at h
          | ok p =>
            obtain ⟨st2, trp2⟩ := p
            simp only [hp] at h
            exact ih (j + 1) st2 st1 trp2 trp1 h
      intro ep hep
      rcases List.mem_cons.1 hep with h1 | h1
      · subst h1; exact hle
      · exact hrest ep h1

theorem receiptLoop_sizes (d : Deps) (rm : chain.RelayMessage) (bp : Bytes)
    (rps : List chain.ReceiptProof) :
    ∀ (st st1 : SegmentState), receiptLoop d rm bp rps st = .ok st1 →
      ∀ rp ∈ rps, (rp.Proof.length : Int) ≤ d.TxSizeLimit ∧
        ∀ ep ∈ rp.EventProofs, (ep.Proof.length : Int) ≤ d.TxSizeLimit := by
  induction rps with
  | nil => intro st st1 _ rp hrp; simp at hrp
  | cons r rest ih =>
    intro st st1 h
    rw [receiptLoop] at h
    cases ho : isOverLimit d (r.Proof.length : Int) with
    | true => simp [ho] at h
    | false =>
      have hle := isOverLimit_false d _ ho
      rw [ho] at h
      simp only [Bool.false_eq_true, if_false] at h
      cases ha : attachBlockProof rm bp st with
      | error f => simp [ha] at h
      | ok sta =>
        simp only [ha] at h
        cases he : eventLoop d bp r r.EventProofs 0
            { sta with size := sta.size + (r.Proof.length : Int) } (newTrp r) with
        | error f => simp [he] at h
        | ok p =>
          obtain ⟨stb, trp⟩ := p
          simp only [he] at h
          cases hm : d.marshalReceiptProof trp with
          | error e => simp [hm] at h
          | ok b =>
            simp only [hm] at h
            have hev := eventLoop_sizes d bp r r.EventProofs 0 _ stb _ trp he
            intro rp hrp
            rcases List.mem_cons.1 hrp with h1 | h1
            · subst h1; exact ⟨hle, hev⟩
            · exact ih _ st1 h rp h1

theorem receiptLoop_block_updates_irrelevant (d : Deps) (rm : chain.RelayMessage)
    (bus : List chain.BlockUpdate) (bp : Bytes) (rps : List chain.ReceiptProof) :
    ∀ (st : SegmentState),
      receiptLoop d { rm with BlockUpdates := bus } bp rps st = receiptLoop d rm bp rps st := by
  induction rps with
  | nil => intro st; rfl
  | cons r rest ih =>
    intro st
    rw [receiptLoop]
    conv => rhs; rw [receiptLoop]
    have ha : attachBlockProof { rm with BlockUpdates := bus } bp st = attachBlockProof rm bp st :=
      rfl
    rw [ha]
    simp only [ih]

/-- What `Segment` does with an oversized element, on every input.  A block
update above the verifier height with an oversized proof, or an oversized
encoded block proof, makes it return an error; with an oversized receipt proof
or event proof it never returns segments (it returns an error unless it has
panicked on an earlier receipt proof); block updates at or below the verifier
height do not take part in the result, whatever their size. -/
theorem Segment_oversize (d : Deps) (rm : chain.RelayMessage) (height : Int) :
    (∀ bu ∈ rm.BlockUpdates, height < bu.Height → d.TxSizeLimit < (bu.Proof.length : Int) →
      ∃ e, Segment d rm height = .error (.error e)) ∧
    (∀ bp, d.marshalBlockProof rm.BlockProof = .ok bp → d.TxSizeLimit < (bp.length : Int) →
      ∃ e, Segment d rm height = .error (.error e)) ∧
    (∀ rp ∈ rm.ReceiptProofs,
      (d.TxSizeLimit < (rp.Proof.length : Int) ∨
        ∃ ep ∈ rp.EventProofs, d.TxSizeLimit < (ep.Proof.length : Int)) →
      ∀ segs, Segment d rm height ≠ .ok segs) ∧
    Segment d { rm with BlockUpdates :=
        rm.BlockUpdates.filter (fun bu => decide (height < bu.Height)) } height
      = Segment d rm height := by
  refine ⟨?_, ?_, ?_, ?_⟩
  · intro bu hmem hh hbig
    obtain ⟨e, he⟩ := blockUpdateLoop_oversize d height rm.BlockUpdates bu hmem hh hbig
      { segments := [], msg := emptyMsg, size := 0 }
    exact ⟨e, by unfold Segment; rw [he]⟩
  · intro bp hbp hbig
    unfold Segment
    cases hbl : blockUpdateLoop d height rm.BlockUpdates
        { segments := [], msg := emptyMsg, size := 0 } with
    | error f =>
      cases f with
      | error e => exact ⟨e, rfl⟩
      | crash c => exact absurd hbl (blockUpdateLoop_no_crash d height _ _ c)
    | ok st =>
      simp only [hbp]
      have ho : isOverLimit d (bp.length : Int) = true := by simp [isOverLimit, hbig]
      rw [ho]
      exact ⟨.invalidBlockProofSize, by simp⟩
  · intro rp hmem hbig segs h
    unfold Segment at h
    cases hbl : blockUpdateLoop d height rm.BlockUpdates
        { segments := [], msg := emptyMsg, size := 0 } with
    | error f => simp [hbl] at h
    | ok st =>
      simp only [hbl] at h
      cases hmb : d.marshalBlockProof rm.BlockProof with
      | error e => simp [hmb] at h
      | ok bp =>
        simp only [hmb] at h
        cases ho : isOverLimit d (bp.length : Int) with
        | true => simp [ho] at h
        | false =>
          rw [ho] at h
          simp only [Bool.false_eq_true, if_false] at h
          cases hrl : receiptLoop d rm bp rm.ReceiptProofs st with
          | error f => simp [hrl] at h
          | ok st1 =>
            obtain ⟨s1, s2⟩ := receiptLoop_sizes d rm bp rm.ReceiptProofs st st1 hrl rp hmem
            rcases hbig with hbig | ⟨ep, hep, hbig⟩
            · omega
            · have := s2 ep hep
              omega
  · unfold Segment
    simp only
    rw [blockUpdateLoop_filter]
    simp only [receiptLoop_block_updates_irrelevant]

/-- C14 (code at the failing input): limit 10; the entry holds block update 1,
no block proof, a receipt proof of 1 byte and a receipt proof of 11 bytes.
At verifier height 0 the block update is packed and `Segment` returns the
size error for the second receipt proof.  At verifier height 1 the block
update is skipped, the message under construction has no block update, and the
first receipt proof makes `Segment` read `rm.BlockProof.BlockWitness.Height`
of the nil block proof: it panics before it looks at the oversized proof. -/
theorem Segment_oversize_receipt_after_nil_block_proof :
    Segment (stubDeps 10 [])
        (entryOf 0 [blockAt 1 1] none [receiptAt 1 5 [1], receiptAt 11 6 [1]]) 0
      = .error (.error .invalidReceiptProofSize) ∧
    Segment (stubDeps 10 [])
        (entryOf 0 [blockAt 1 1] none [receiptAt 1 5 [1], receiptAt 11 6 [1]]) 1
      = .error (.crash .nilDereference) := by
  decide

theorem numberOfEventSum_append (a b : List chain.Segment) :
    numberOfEventSum (a ++ b) = numberOfEventSum a + numberOfEventSum b := by
  simp [numberOfEventSum]

theorem numberOfEventSum_singleton (seg : chain.Segment) :
    numberOfEventSum [seg] = seg.NumberOfEvent := by
  simp [numberOfEventSum]

theorem blockUpdateLoop_events (d : Deps) (height : Int) (bus : List chain.BlockUpdate) :
    ∀ st st1 : SegmentState, blockUpdateLoop d height bus st = .ok st1 →
      st.msg.numberOfEvent = 0 → numberOfEventSum st.segments = 0 →
      st1.msg.numberOfEvent = 0 ∧ numberOfEventSum st1.segments = 0 := by
  induction bus with
  | nil =>
    intro st st1 h h1 h2
    simp only [blockUpdateLoop, Except.ok.injEq] at h
    subst h
    exact ⟨h1, h2⟩
  | cons bu rest ih =>
    intro st st1 h h1 h2
    rw [blockUpdateLoop] at h
    by_cases hh : bu.Height ≤ height
    · rw [if_pos hh] at h
      exact ih st st1 h h1 h2
    · rw [if_neg hh] at h
      cases ho : isOverLimit d (bu.Proof.length : Int) with
      | true => simp [ho] at h
      | false =>
        simp only [ho] at h
        cases ho2 : isOverLimit d (st.size + (bu.Proof.length : Int)) with
        | true =>
          simp only [ho2, if_true] at h
          cases hm : d.marshalRelayMessage st.msg with
          | error e => simp [hm] at h
          | ok b =>
            simp only [hm] at h
            exact ih _ st1 h (by simp [packBlockUpdate, emptyMsg])
              (by
                show numberOfEventSum (st.segments ++ [buSegment st.msg b]) = 0
                rw [numberOfEventSum_append, numberOfEventSum_singleton, h2]
                simp [buSegment])
        | false =>
          simp only [ho2] at h
          exact ih _ st1 h (by simpa [packBlockUpdate] using h1) h2

theorem packEvent_events (rp : chain.ReceiptProof) (j : Nat) (ep : chain.EventProof)
    (st st1 : SegmentState) (trp trp1 : ReceiptProof)
    (h : packEvent rp j ep st trp = .ok (st1, trp1)) :
    st1.msg.numberOfEvent = st.msg.numberOfEvent + 1 := by
  unfold packEvent at h
  split at h
  · simp at h
  · simp only [Except.ok.injEq, Prod.mk.injEq] at h
    obtain ⟨h1, _⟩ := h
    subst h1
    simp

theorem eventLoop_events (d : Deps) (bp : Bytes) (rp : chain.ReceiptProof)
    (eps : List chain.EventProof) :
    ∀ (j : Nat) (st st1 : SegmentState) (trp trp1 : ReceiptProof),
      eventLoop d bp rp eps j st trp = .ok (st1, trp1) →
      (numberOfEventSum st1.segments + st1.msg.numberOfEvent =
          numberOfEventSum st.segments + st.msg.numberOfEvent + (eps.length : Int)) ∧
      st.segments.length ≤ st1.segments.length ∧
      (eps ≠ [] → d.TxSizeLimit < st.size + totalLen (eps.map (fun ep => ep.Proof)) →
        st.segments.length < st1.segments.length) := by
  induction eps with
  | nil =>
    intro j st st1 trp trp1 h
    simp only [eventLoop, Except.ok.injEq, Prod.mk.injEq] at h
    obtain ⟨h1, _⟩ := h
    subst h1
    exact ⟨by simp, le_refl _, fun hne => absurd rfl hne⟩
  | cons ep rest ih =>
    intro j st st1 trp trp1 h
    rw [eventLoop] at h
    cases ho : isOverLimit d (ep.Proof.length : Int) with
    | true => simp [ho] at h
    | false =>
      rw [ho] at h
      simp only [Bool.false_eq_true, if_false] at h
      have hlen : ((ep :: rest).length : Int) = (rest.length : Int) + 1 := by simp
      have htl : totalLen ((ep :: rest).map (fun ep => ep.Proof))
          = (ep.Proof.length : Int) + totalLen (rest.map (fun ep => ep.Proof)) := by
        simp [totalLen]
      cases ho2 : isOverLimit d (st.size + (ep.Proof.length : Int)) with
      | true =>
        rw [ho2] at h
        simp only [if_true] at h
        by_cases hj : j = 0 ∧ st.msg.BlockUpdates.length = 0
        · rw [if_pos hj] at h
          simp at h
        · rw [if_neg hj] at h
          cases hm : d.marshalRelayMessage st.msg with
          | error e => simp [hm] at h
          | ok b =>
            simp only [hm] at h
            cases hpk : packEvent rp j ep
                { segments := st.segments ++ [evSegment st.msg b],
                  msg := { emptyMsg with BlockProof := bp },
                  size := (ep.Proof.length : Int) + (rp.Proof.length : Int) + (bp.length : Int) }
                (newTrp rp) with
            | error f => simp [hpk] at h
            | ok p =>
              obtain ⟨st2, trp2⟩ := p
              simp only [hpk] at h
              obtain ⟨q1, _, _, _⟩ := packEvent_msg _ _ _ _ _ _ _ hpk
              have q5 := packEvent_events _ _ _ _ _ _ _ hpk
              obtain ⟨i1, i2, _⟩ := ih _ st2 st1 trp2 trp1 h
              have hs2 : st2.segments = st.segments ++ [evSegment st.msg b] := q1
              have hn2 : st2.msg.numberOfEvent = 1 := by
                rw [q5]; simp [emptyMsg]
              have hl2 : st2.segments.length = st.segments.length + 1 := by
                rw [hs2]; simp
              refine ⟨?_, by omega, fun _ _ => by omega⟩
              rw [i1, hs2, numberOfEventSum_append, numberOfEventSum_singleton, hn2, hlen]
              simp only [evSegment]
              omega
      | false =>
        have hnov := isOverLimit_false d _ ho2
        rw [ho2] at h
        simp only [Bool.false_eq_true, if_false] at h
        cases hpk : packEvent rp j ep { st with size := st.size + (ep.Proof.length : Int) } trp with
        | error f => simp [hpk] at h
        | ok p =>
          obtain ⟨st2, trp2⟩ := p
          simp only [hpk] at h
          obtain ⟨q1, _, _, q4⟩ := packEvent_msg _ _ _ _ _ _ _ hpk
          have q5 := packEvent_events _ _ _ _ _ _ _ hpk
          obtain ⟨i1, i2, i3⟩ := ih _ st2 st1 trp2 trp1 h
          have hs2 : st2.segments = st.segments := q1
          have hz2 : st2.size = st.size + (ep.Proof.length : Int) := q4
          have hn2 : st2.msg.numberOfEvent = st.msg.numberOfEvent + 1 := q5
          refine ⟨?_, by rw [← hs2]; exact i2, ?_⟩
          · rw [i1, hs2, hn2, hlen]; omega
          · intro _ hlt
            rw [← hs2]
            rw [htl] at hlt
            cases rest with
            | nil =>
              simp only [List.map_nil, totalLen_nil] at hlt
              omega
            | cons e2 r2 =>
              apply i3 (by simp)
              rw [hz2]
              omega

theorem receiptLoop_events (d : Deps) (rm : chain.RelayMessage) (bp : Bytes)
    (rps : List chain.ReceiptProof) :
    ∀ (st st1 : SegmentState), receiptLoop d rm bp rps st = .ok st1 →
      numberOfEventSum st1.segments + st1.msg.numberOfEvent =
        numberOfEventSum st.segments + st.msg.numberOfEvent +
          (((rps.map (fun rp => rp.EventProofs.length)).sum : Nat) : Int) := by
  induction rps with
  | nil =>
    intro st st1 h
    simp only [receiptLoop, Except.ok.injEq] at h
    subst h
    simp
  | cons rp rest ih =>
    intro st st1 h
    rw [receiptLoop] at h
    cases ho : isOverLimit d (rp.Proof.length : Int) with
    | true => simp [ho] at h
    | false =>
      rw [ho] at h
      simp only [Bool.false_eq_true, if_false] at h
      cases ha : attachBlockProof rm bp st with
      | error f => simp [ha] at h
      | ok sta =>
        simp only [ha] at h
        have hsta : sta.segments = st.segments ∧ sta.msg.numberOfEvent = st.msg.numberOfEvent := by
          unfold attachBlockProof at ha
          split at ha
          · split at ha
            · simp at ha
            · split at ha
              · simp at ha
              · simp only [Except.ok.injEq] at ha
                subst ha
                simp
          · simp only [Except.ok.injEq] at ha
            subst ha
            simp
        cases he : eventLoop d bp rp rp.EventProofs 0
            { sta with size := sta.size + (rp.Proof.length : Int) } (newTrp rp) with
        | error f => simp [he] at h
        | ok p =>
          obtain ⟨stb, trp⟩ := p
          simp only [he] at h
          cases hm : d.marshalReceiptProof trp with
          | error e => simp [hm] at h
          | ok b =>
            simp only [hm] at h
            obtain ⟨e1, _, _⟩ := eventLoop_events d bp rp rp.EventProofs 0 _ stb _ trp he
            have i1 := ih _ st1 h
            rw [i1]
            simp only [List.map_cons, List.sum_cons, Nat.cast_add]
            simp only at e1
            rw [hsta.1, hsta.2] at e1
            omega

theorem blockUpdateLoop_skipped (d : Deps) (height : Int) (bus : List chain.BlockUpdate)
    (hs : ∀ bu ∈ bus, bu.Height ≤ height) (st : SegmentState) :
    blockUpdateLoop d height bus st = .ok st := by
  induction bus with
  | nil => rfl
  | cons bu rest ih =>
    rw [blockUpdateLoop, if_pos (hs bu (List.mem_cons_self _ _))]
    exact ih (fun b hb => hs b (List.mem_cons_of_mem _ hb))

/-- C16: event counters of `Segment`.  Whenever `Segment` succeeds, the sum of
`NumberOfEvent` over the returned segments is the number of event proofs of the
relay message; and for a single receipt proof with at least one event proof and
no block update above the verifier height, when the encoded block proof, the
receipt proof and the event proofs together exceed the limit, at least two
segments are returned. -/
theorem Segment_event_counters (d : Deps) (rm : chain.RelayMessage) (height : Int)
    (segs : List chain.Segment) (h : Segment d rm height = .ok segs) :
    numberOfEventSum segs = eventProofCount rm ∧
    (∀ (rp : chain.ReceiptProof) (bp : Bytes), rm.ReceiptProofs = [rp] →
      (∀ bu ∈ rm.BlockUpdates, bu.Height ≤ height) →
      d.marshalBlockProof rm.BlockProof = .ok bp → rp.EventProofs ≠ [] →
      d.TxSizeLimit < (bp.length : Int) + (rp.Proof.length : Int) +
        totalLen (rp.EventProofs.map (fun ep => ep.Proof)) →
      2 ≤ segs.length) := by
  unfold Segment at h
  cases hbl : blockUpdateLoop d height rm.BlockUpdates
      { segments := [], msg := emptyMsg, size := 0 } with
  | error f => simp [hbl] at h
  | ok st =>
    simp only [hbl] at h
    cases hmb : d.marshalBlockProof rm.BlockProof with
    | error e => simp [hmb] at h
    | ok bp =>
      simp only [hmb] at h
      cases ho : isOverLimit d (bp.length : Int) with
      | true => simp [ho] at h
      | false =>
        rw [ho] at h
        simp only [Bool.false_eq_true, if_false] at h
        cases hrl : receiptLoop d rm bp rm.ReceiptProofs st with
        | error f => simp [hrl] at h
        | ok st1 =>
          simp only [hrl] at h
          cases hm : d.marshalRelayMessage st1.msg with
          | error e => simp [hm] at h
          | ok b =>
            simp only [hm, Except.ok.injEq] at h
            subst h
            obtain ⟨b1, b2⟩ := blockUpdateLoop_events d height rm.BlockUpdates _ st hbl
              (by simp [emptyMsg]) (by simp [numberOfEventSum])
            have r1 := receiptLoop_events d rm bp rm.ReceiptProofs st st1 hrl
            constructor
            · rw [numberOfEventSum_append, numberOfEventSum_singleton]
              simp only [evSegment]
              rw [r1, b1, b2]
              simp [eventProofCount]
            · intro rp bp1 hrp hskip hbp1 hne hlt
              simp only [Except.ok.injEq] at hbp1
              subst hbp1
              rw [blockUpdateLoop_skipped d height rm.BlockUpdates hskip] at hbl
              simp only [Except.ok.injEq] at hbl
              subst hbl
              rw [hrp] at hrl
              rw [receiptLoop] at hrl
              cases ho1 : isOverLimit d (rp.Proof.length : Int) with
              | true => simp [ho1] at hrl
              | false =>
                rw [ho1] at hrl
                simp only [Bool.false_eq_true, if_false] at hrl
                cases ha : attachBlockProof rm bp
                    { segments := [], msg := emptyMsg, size := 0 } with
                | error f => simp [ha] at hrl
                | ok sta =>
                  simp only [ha] at hrl
                  have hsta : sta.segments = [] ∧ sta.size = (bp.length : Int) := by
                    unfold attachBlockProof at ha
                    simp only [emptyMsg, List.length_nil, if_true] at ha
                    split at ha
                    · simp at ha
                    · split at ha
                      · simp at ha
                      · simp only [Except.ok.injEq] at ha
                        subst ha
                        simp
                  cases he : eventLoop d bp rp rp.EventProofs 0
                      { sta with size := sta.size + (rp.Proof.length : Int) } (newTrp rp) with
                  | error f => simp [he] at hrl
                  | ok p =>
                    obtain ⟨stb, trp⟩ := p
                    simp only [he] at hrl
                    cases hm2 : d.marshalReceiptProof trp with
                    | error e => simp [hm2] at hrl
                    | ok b2 =>
                      simp only [hm2, receiptLoop, Except.ok.injEq] at hrl
                      subst hrl
                      obtain ⟨_, _, e3⟩ := eventLoop_events d bp rp rp.EventProofs 0 _ stb _ trp he
                      have := e3 hne (by simp only; rw [hsta.2]; exact hlt)
                      simp only [List.length_append, List.length_singleton]
                      simp only [hsta.1, List.length_nil] at this
                      omega

/-- C16 (witness): limit 1024, a block proof of 3 bytes, one receipt proof of
3 bytes with 20 event proofs of 100 bytes: two segments, with 10 and 10
events. -/
theorem Segment_event_counters_witness :
    ∃ segs, Segment (stubDeps 1024 []) eventsEntry 0 = .ok segs ∧
      segs.map (fun seg => seg.NumberOfEvent) = [10, 10] ∧
      numberOfEventSum segs = 20 ∧ 2 ≤ segs.length := by
  have hN : (Segment (stubDeps 1024 []) eventsEntry 0).map
      (List.map (fun seg => seg.NumberOfEvent)) = .ok [10, 10] := by decide
  cases hS : Segment (stubDeps 1024 []) eventsEntry 0 with
  | error f => rw [hS] at hN; simp [Except.map] at hN
  | ok segs =>
    rw [hS] at hN
    simp only [Except.map, Except.ok.injEq] at hN
    have hc := Segment_event_counters (stubDeps 1024 []) eventsEntry 0 segs hS
    refine ⟨segs, rfl, hN, ?_, ?_⟩
    · rw [hc.1]; decide
    · exact hc.2 (receiptAt 3 5 (List.replicate 20 100)) (fill 3 7) rfl (by decide) (by decide)
        (by decide) (by decide)

theorem rpStep_stop (seq : Int) (rm : chain.RelayMessage) (rp : chain.ReceiptProof)
    (ev : chain.Event) (evs : List chain.Event) (hev : rp.Events = ev :: evs)
    (h0 : 0 ≤ seq) (hlt : seq < ev.Sequence) (hi : ev.Sequence < 2 ^ 63) :
    rpStep seq rm rp = .stop := by
  have hw : wrap64 (wrap64 (seq - wrap64 ev.Sequence) + 1) < 1 := by
    unfold wrap64
    omega
  unfold rpStep
  rw [hev]
  simp only
  rw [if_pos hw]

theorem rpLoop_keeps_from_stop (seq : Int) (rm : chain.RelayMessage) (rp : chain.ReceiptProof)
    (rest : List chain.ReceiptProof) (hs : rpStep seq rm rp = .stop) :
    ∀ (pre : List chain.ReceiptProof) (j rrp : Nat), rrp ≤ j →
      ∃ pre1, pre1.length = pre.length ∧
        (rpLoop seq rm (pre ++ rp :: rest) j rrp).1 = pre1 ++ rp :: rest ∧
        (rpLoop seq rm (pre ++ rp :: rest) j rrp).2.1 ≤ j + pre.length := by
  intro pre
  induction pre with
  | nil =>
    intro j rrp hle
    refine ⟨[], rfl, ?_, ?_⟩
    · simp only [List.nil_append]
      rw [rpLoop, hs]
    · simp only [List.nil_append]
      rw [rpLoop, hs]
      simpa using hle
  | cons p pre ih =>
    intro j rrp hle
    simp only [List.cons_append]
    rw [rpLoop]
    cases hp : rpStep seq rm p with
    | stop => exact ⟨p :: pre, rfl, by simp, by simp; omega⟩
    | remove =>
      obtain ⟨pre1, l1, l2, l3⟩ := ih (j + 1) (j + 1) (le_refl _)
      refine ⟨p :: pre1, by simp [l1], by simp [l2], ?_⟩
      simp only [List.length_cons]
      omega
    | slice p1 =>
      obtain ⟨pre1, l1, l2, l3⟩ := ih (j + 1) rrp (by omega)
      refine ⟨p1 :: pre1, by simp [l1], by simp [l2], ?_⟩
      simp only [List.length_cons]
      omega
    | crash p1 c => exact ⟨p1 :: pre, rfl, by simp, by simp; omega⟩

theorem pruneReceipts_keeps_from_stop (seq : Int) (rm : chain.RelayMessage)
    (pre : List chain.ReceiptProof) (rp : chain.ReceiptProof) (rest : List chain.ReceiptProof)
    (hrps : rm.ReceiptProofs = pre ++ rp :: rest) (hs : rpStep seq rm rp = .stop) :
    (∃ kept, (pruneReceipts seq rm).1.ReceiptProofs = kept ++ rp :: rest) ∧
    (pruneReceipts seq rm).1.BlockUpdates = rm.BlockUpdates ∧
    (pruneReceipts seq rm).1.BlockProof = rm.BlockProof := by
  obtain ⟨pre1, l1, l2, l3⟩ := rpLoop_keeps_from_stop seq rm rp rest hs pre 0 0 (le_refl _)
  have hpos : rm.ReceiptProofs.length > 0 := by rw [hrps]; simp
  unfold pruneReceipts
  rw [if_pos hpos]
  simp only
  rw [hrps]
  cases hc : (rpLoop seq rm (pre ++ rp :: rest) 0 0).2.2 with
  | some c => exact ⟨⟨pre1, l2⟩, rfl, rfl⟩
  | none =>
    simp only
    by_cases hr : (rpLoop seq rm (pre ++ rp :: rest) 0 0).2.1 > 0
    · rw [if_pos hr]
      by_cases hb : rm.BlockUpdates.length = 0
      · rw [if_pos hb]
        exact ⟨⟨pre1, l2⟩, rfl, rfl⟩
      · rw [if_neg hb]
        refine ⟨⟨pre1.drop (rpLoop seq rm (pre ++ rp :: rest) 0 0).2.1, ?_⟩, rfl, rfl⟩
        show List.drop _ (rpLoop seq rm (pre ++ rp :: rest) 0 0).1 = _
        rw [l2]
        exact List.drop_append_of_le_length (by omega)
    · rw [if_neg hr]
      exact ⟨⟨pre1, l2⟩, rfl, rfl⟩

/-- C17 (amended): a receipt proof whose first event has a sequence above `seq`
stops the walk over the receipt proofs of its entry.  That receipt proof and
every later receipt proof of the entry stay in the entry as they were, the walk
over the receipt proofs has not touched the block updates or the block proof,
and the round of this entry does not mark it for removal.  (The walk over the
entries goes on: the block-proof refresh and the block-update pruning of this
entry and the rounds of the later entries still run.) -/
theorem receipt_walk_stops_within_entry (d : Deps) (s : SimpleChain) (h seq : Int)
    (rm : chain.RelayMessage) (pre : List chain.ReceiptProof) (rp : chain.ReceiptProof)
    (rest : List chain.ReceiptProof) (ev : chain.Event) (evs : List chain.Event)
    (hrps : rm.ReceiptProofs = pre ++ rp :: rest) (hev : rp.Events = ev :: evs)
    (h0 : 0 ≤ seq) (hlt : seq < ev.Sequence) (hi : ev.Sequence < 2 ^ 63) :
    rpStep seq rm rp = .stop ∧
    (∃ kept, (updateEntry d s h seq rm).rm.ReceiptProofs = kept ++ rp :: rest) ∧
    (updateEntry d s h seq rm).marked = false ∧
    (pruneReceipts seq rm).1.BlockUpdates = rm.BlockUpdates ∧
    (pruneReceipts seq rm).1.BlockProof = rm.BlockProof := by
  have hs := rpStep_stop seq rm rp ev evs hev h0 hlt hi
  obtain ⟨⟨kept, hk⟩, hbu, hbp⟩ := pruneReceipts_keeps_from_stop seq rm pre rp rest hrps hs
  have hkeep : ∃ kept, (updateEntry d s h seq rm).rm.ReceiptProofs = kept ++ rp :: rest := by
    unfold updateEntry
    cases hp : pruneReceipts seq rm with
    | mk rm1 oc =>
      rw [hp] at hk
      cases oc with
      | some c => exact ⟨kept, hk⟩
      | none =>
        simp only
        obtain ⟨r1, _⟩ := refreshBlockProof_receipts d s rm1
        cases hc : (refreshBlockProof d s rm1).ctl with
        | next =>
          simp only
          obtain ⟨p1, _⟩ := pruneBlockUpdates_receipts d s h (refreshBlockProof d s rm1).rm
            (refreshBlockProof d s rm1).marked
          exact ⟨kept, by rw [p1, r1]; exact hk⟩
        | stop => exact ⟨kept, by simp only; rw [r1]; exact hk⟩
        | fail e => exact ⟨kept, by simp only; rw [r1]; exact hk⟩
        | crash c => exact ⟨kept, by simp only; rw [r1]; exact hk⟩
  refine ⟨hs, hkeep, ?_, hbu, hbp⟩
  cases hm : (updateEntry d s h seq rm).marked with
  | false => rfl
  | true =>
    obtain ⟨kept, hk2⟩ := hkeep
    have := updateEntry_marked_no_receipts d s h seq rm hm
    rw [hk2] at this
    simp at this

/-- C17 (witness): the entry with block update 1 and a receipt proof whose only
event has sequence 10, under `seq = 5`. -/
theorem receipt_walk_stops_within_entry_witness :
    (entryOf 0 [blockAt 1 0] none [receiptAt 0 10 [1]]).ReceiptProofs
        = [] ++ receiptAt 0 10 [1] :: [] ∧
    (receiptAt 0 10 [1]).Events = [{ Sequence := 10 }] ∧
    (rpStep 5 (entryOf 0 [blockAt 1 0] none [receiptAt 0 10 [1]]) (receiptAt 0 10 [1]) = .stop ∧
      (∃ kept, (updateEntry (stubDeps 10 []) (chainOf 5 5 []) 5 5
          (entryOf 0 [blockAt 1 0] none [receiptAt 0 10 [1]])).rm.ReceiptProofs
            = kept ++ receiptAt 0 10 [1] :: []) ∧
      (updateEntry (stubDeps 10 []) (chainOf 5 5 []) 5 5
          (entryOf 0 [blockAt 1 0] none [receiptAt 0 10 [1]])).marked = false ∧
      (pruneReceipts 5 (entryOf 0 [blockAt 1 0] none [receiptAt 0 10 [1]])).1.BlockUpdates
        = (entryOf 0 [blockAt 1 0] none [receiptAt 0 10 [1]]).BlockUpdates ∧
      (pruneReceipts 5 (entryOf 0 [blockAt 1 0] none [receiptAt 0 10 [1]])).1.BlockProof
        = (entryOf 0 [blockAt 1 0] none [receiptAt 0 10 [1]]).BlockProof) :=
  ⟨by decide, by decide,
   receipt_walk_stops_within_entry (stubDeps 10 []) (chainOf 5 5 []) 5 5
     (entryOf 0 [blockAt 1 0] none [receiptAt 0 10 [1]]) [] (receiptAt 0 10 [1]) []
     { Sequence := 10 } [] (by decide) (by decide) (by decide) (by decide) (by decide)⟩

/-- C17 (counterexample): entry 0 holds block update 1 and a receipt proof whose
only event has sequence 10; `seq = 5`, so the walk meets `revt < 1` there.
With `h = 2` and a second entry holding block updates 2 and 3, the call
promotes entry 0 (block updates emptied, block proof set) and cuts the block
updates of entry 1.  With `h = 5` and a second entry holding block update 2,
the walk marks entry 1 for removal (`rrm = 2`). -/
theorem receipt_walk_stop_leaves_inner_loop_only :
    rpStep 5 (entryOf 0 [blockAt 1 0] none [receiptAt 0 10 [1]]) (receiptAt 0 10 [1]) = .stop ∧
    updateRelayMessage (stubDeps 10 [])
        (chainOf 5 5 [entryOf 0 [blockAt 1 0] none [receiptAt 0 10 [1]],
                      entryOf 1 [blockAt 2 0, blockAt 3 0] none []]) 2 5
      = .done (chainOf 5 5
          [entryOf 0 []
             (some { Header := [1], BlockWitness := some { Height := 5, Witness := [[1]] } })
             [receiptAt 0 10 [1]],
           entryOf 1 [blockAt 3 0] none []]) ∧
    (rmLoop (stubDeps 10 [])
        (chainOf 5 5 [entryOf 0 [blockAt 1 0] none [receiptAt 0 10 [1]],
                      entryOf 1 [blockAt 2 0] none []]) 5 5
        [entryOf 0 [blockAt 1 0] none [receiptAt 0 10 [1]],
         entryOf 1 [blockAt 2 0] none []] 0 0).2.1 = 2 := by
  decide

/-- The block-proof refresh asks for the proof of the block whose height is the
witness height stored in the entry's block proof. -/
theorem refreshBlockProof_height_argument (d : Deps) (s : SimpleChain) (rm : chain.RelayMessage)
    (bp bp1 : chain.BlockProof) (w : chain.BlockWitness)
    (hb : rm.BlockProof = some bp) (hw : bp.BlockWitness = some w)
    (hr : rm.ReceiptProofs ≠ [])
    (hn : newBlockProof d s w.Height bp.Header = .ok bp1) :
    refreshBlockProof d s rm =
      { rm := { rm with BlockProof := some bp1 }, marked := false, ctl := .next } := by
  have hrl : rm.ReceiptProofs.length > 0 := List.length_pos.2 hr
  unfold refreshBlockProof
  rw [hb]
  simp only
  rw [if_pos hrl, hw]
  simp only
  rw [hn]

/-- C18 (code at the failing input): an entry with block update 105 and an
undelivered receipt proof.  Under verifier height 110 it is promoted with the
proof synthesized for block 105 (witness `[105]`), whose witness height is 110.
Under the later verifier height 120 the refresh synthesizes the proof for the
block of height 110, the stored witness height (witness `[110]`), while the
proof for the block of the stored header, height 105, under that status is the
one with witness `[105]`. -/
theorem updateRelayMessage_refresh_proves_other_block :
    updateRelayMessage (stubDeps 10 [])
        (chainOf 110 110 [entryOf 0 [blockAt 105 0] none [receiptAt 0 43 [1]],
                          entryOf 1 [] none []]) 110 42
      = .done (chainOf 110 110
          [entryOf 0 []
             (some { Header := [105], BlockWitness := some { Height := 110, Witness := [[105]] } })
             [receiptAt 0 43 [1]],
           entryOf 1 [] none []]) ∧
    updateRelayMessage (stubDeps 10 [])
        (chainOf 120 120
          [entryOf 0 []
             (some { Header := [105], BlockWitness := some { Height := 110, Witness := [[105]] } })
             [receiptAt 0 43 [1]],
           entryOf 1 [] none []]) 120 42
      = .done (chainOf 120 120
          [entryOf 0 []
             (some { Header := [105], BlockWitness := some { Height := 120, Witness := [[110]] } })
             [receiptAt 0 43 [1]],
           entryOf 1 [] none []]) ∧
    newBlockProof (stubDeps 10 []) (chainOf 120 120 []) 105 [105]
      = .ok { Header := [105], BlockWitness := some { Height := 120, Witness := [[105]] } } := by
  decide

theorem rpStep_promoted_no_slice (seq : Int) (rm : chain.RelayMessage) (rp rp1 : chain.ReceiptProof)
    (hb : rm.BlockUpdates = []) : rpStep seq rm rp ≠ .slice rp1 := by
  unfold rpStep
  cases hev : rp.Events with
  | nil => simp
  | cons ev evs =>
    simp only
    by_cases h1 : wrap64 (wrap64 (seq - wrap64 ev.Sequence) + 1) < 1
    · rw [if_pos h1]; simp
    · rw [if_neg h1]
      by_cases h2 : wrap64 (wrap64 (seq - wrap64 ev.Sequence) + 1) ≥ ((ev :: evs).length : Int)
      · rw [if_pos h2]; simp
      · rw [if_neg h2, if_pos (by rw [hb]; rfl)]
        simp

theorem rpLoop_promoted (seq : Int) (rm : chain.RelayMessage) (hb : rm.BlockUpdates = []) :
    ∀ (rps : List chain.ReceiptProof) (j rrp : Nat),
      (rpLoop seq rm rps j rrp).2.2 = none →
      ((rpLoop seq rm rps j rrp).1 = rps ∧ (rpLoop seq rm rps j rrp).2.1 = rrp) ∨
        0 < (rpLoop seq rm rps j rrp).2.1 := by
  intro rps
  induction rps with
  | nil => intro j rrp _; exact Or.inl ⟨rfl, rfl⟩
  | cons p rest ih =>
    intro j rrp hc
    rw [rpLoop] at hc ⊢
    cases hp : rpStep seq rm p with
    | stop => exact Or.inl ⟨rfl, rfl⟩
    | remove =>
      rw [hp] at hc
      simp only at hc ⊢
      rcases ih (j + 1) (j + 1) hc with ⟨_, h2⟩ | h2
      · right; rw [h2]; omega
      · exact Or.inr h2
    | slice p1 => exact absurd hp (rpStep_promoted_no_slice seq rm p p1 hb)
    | crash p1 c => rw [hp] at hc; simp at hc

/-- On a promoted entry (no block update left) the receipt-proof pruning never
removes or cuts a receipt proof: it leaves the entry as it was or it panics. -/
theorem pruneReceipts_promoted (seq : Int) (rm : chain.RelayMessage)
    (hb : rm.BlockUpdates = []) (hc : (pruneReceipts seq rm).2 = none) :
    (pruneReceipts seq rm).1 = rm := by
  unfold pruneReceipts at hc ⊢
  by_cases hpos : rm.ReceiptProofs.length > 0
  · rw [if_pos hpos] at hc ⊢
    simp only at hc ⊢
    cases hl : (rpLoop seq rm rm.ReceiptProofs 0 0).2.2 with
    | some c => rw [hl] at hc; simp at hc
    | none =>
      rw [hl] at hc
      simp only at hc ⊢
      have hb0 : rm.BlockUpdates.length = 0 := by rw [hb]; rfl
      by_cases hr : (rpLoop seq rm rm.ReceiptProofs 0 0).2.1 > 0
      · rw [if_pos hr, if_pos hb0] at hc
        simp at hc
      · rw [if_neg hr]
        rcases rpLoop_promoted seq rm hb rm.ReceiptProofs 0 0 hl with ⟨h1, _⟩ | h2
        · rw [h1]
        · exact absurd h2 hr
  · rw [if_neg hpos]

/-- C19 (code at the failing input): a promoted entry (block proof set, no
block update) whose receipt proof, with events of sequences 5 and 6, is fully
delivered by `seq = 6`.  The receipt proof is counted for removal (`rrp = 1`)
and the `Debugf` argument `rm.BlockUpdates[len(rm.BlockUpdates)-1]` of the
removal indexes the empty slice: the call panics and the entry stays in the
queue with its receipt proof. -/
theorem updateRelayMessage_delivered_promoted_entry_panics :
    (rpLoop 6
        (entryOf 0 []
          (some { Header := [1], BlockWitness := some { Height := 5, Witness := [[1]] } })
          [receiptAt 0 5 [1, 1]])
        [receiptAt 0 5 [1, 1]] 0 0).2 = (1, none) ∧
    updateRelayMessage (stubDeps 10 [])
        (chainOf 5 5 [entryOf 0 []
                        (some { Header := [1], BlockWitness := some { Height := 5, Witness := [[1]] } })
                        [receiptAt 0 5 [1, 1]],
                      entryOf 1 [] none []]) 5 6
      = .crash (chainOf 5 5 [entryOf 0 []
                        (some { Header := [1], BlockWitness := some { Height := 5, Witness := [[1]] } })
                        [receiptAt 0 5 [1, 1]],
                      entryOf 1 [] none []]) .indexOutOfRange := by
  decide

theorem relaySegments_all_nil (d : Deps) (i : Nat) :
    ∀ (segs : List (Option chain.Segment)) (j : Nat) (re : Bool),
      (∀ seg ∈ segs, seg = none) → relaySegments d i segs j re = (segs, re, [], none) := by
  intro segs
  induction segs with
  | nil => intro j re _; rfl
  | cons sg rest ih =>
    intro j re hall
    have h0 : sg = none := hall sg (List.mem_cons_self _ _)
    subst h0
    rw [relaySegments, ih (j + 1) re (fun seg hs => hall seg (List.mem_cons_of_mem _ hs))]

/-- C20 (amended): when the dispatch pass reaches an entry that is neither
empty nor awaiting a result and whose segments list is non-empty with every
segment nil, it makes no `Sender.Relay` call for the entry, leaves the entry
with an empty segments list and goes on with the next entry.  (A segment that
is not nil keeps the list from being truncated, also when it already has a
result handle.) -/
theorem relay_truncates_all_nil_segments (d : Deps) (height : Option Int)
    (rm : chain.RelayMessage) (rest : List chain.RelayMessage) (i : Nat)
    (hvisit : stopsRelay rm = false) (hne : rm.Segments ≠ [])
    (hall : ∀ seg ∈ rm.Segments, seg = none) :
    relayLoop d height (rm :: rest) i =
      ({ rm with Segments := [] } :: (relayLoop d height rest (i + 1)).1,
       (relayLoop d height rest (i + 1)).2.1, (relayLoop d height rest (i + 1)).2.2) := by
  have hlen : ¬ rm.Segments.length = 0 := fun h0 => hne (List.length_eq_zero.1 h0)
  rw [relayLoop, hvisit]
  simp only [Bool.false_eq_true, if_false]
  unfold segmentIfEmpty
  rw [if_neg hlen]
  simp only
  rw [relaySegments_all_nil d i rm.Segments 0 true hall]
  simp

/-- C20 (witness): an entry with block update 1 and the segments list
`[nil]`, followed by an empty entry. -/
theorem relay_truncates_all_nil_segments_witness :
    stopsRelay { entryOf 0 [blockAt 1 1] none [] with Segments := [none] } = false ∧
    relayLoop (stubDeps 10 []) (some 0)
        [{ entryOf 0 [blockAt 1 1] none [] with Segments := [none] }, entryOf 1 [] none []] 0
      = ([entryOf 0 [blockAt 1 1] none [], entryOf 1 [] none []], [], none) := by
  have h := relay_truncates_all_nil_segments (stubDeps 10 []) (some 0)
    { entryOf 0 [blockAt 1 1] none [] with Segments := [none] } [entryOf 1 [] none []] 0
    (by decide) (by decide) (by decide)
  exact ⟨by decide, by rw [h]; decide⟩

/-- C20 (counterexample): the pass reaches an entry whose only segment has a
result handle and a result.  No segment of the entry needs dispatch, no
`Sender.Relay` call is made, and the entry keeps its segments list. -/
theorem relay_keeps_completed_segments :
    stopsRelay (completedEntry 0 1) = false ∧
    (completedEntry 0 1).Segments.all (fun seg =>
      match seg with
      | none => true
      | some sg => sg.GetResultParam.isSome) = true ∧
    _relay (stubDeps 10 []) (chainOf 2 0 [completedEntry 0 1, entryOf 1 [] none []])
      = (chainOf 2 0 [completedEntry 0 1, entryOf 1 [] none []], [], none) ∧
    (completedEntry 0 1).Segments ≠ [] := by
  decide

theorem attachBlockProof_absent (rm : chain.RelayMessage) (bp : Bytes) (st : SegmentState)
    (hb : rm.BlockProof = none) (h0 : st.msg.BlockUpdates = []) :
    attachBlockProof rm bp st = .error (.crash .nilDereference) := by
  unfold attachBlockProof
  rw [if_pos (by rw [h0]; rfl), hb]

/-- An entry without block proof that holds a receipt proof, none of whose
block updates is above the verifier height: `Segment` skips every block update
and panics at the first receipt proof, on the read of
`rm.BlockProof.BlockWitness.Height`. -/
theorem Segment_absent_block_proof (d : Deps) (rm : chain.RelayMessage) (height : Int)
    (rp : chain.ReceiptProof) (rest : List chain.ReceiptProof) (bp : Bytes)
    (hb : rm.BlockProof = none) (hr : rm.ReceiptProofs = rp :: rest)
    (hskip : ∀ bu ∈ rm.BlockUpdates, bu.Height ≤ height)
    (hm : d.marshalBlockProof none = .ok bp) (hbp : (bp.length : Int) ≤ d.TxSizeLimit)
    (hrp : (rp.Proof.length : Int) ≤ d.TxSizeLimit) :
    Segment d rm height = .error (.crash .nilDereference) := by
  have ho : isOverLimit d (bp.length : Int) = false := by simp [isOverLimit]; omega
  have ho2 : isOverLimit d (rp.Proof.length : Int) = false := by simp [isOverLimit]; omega
  unfold Segment
  rw [blockUpdateLoop_skipped d height rm.BlockUpdates hskip]
  simp only
  rw [hb, hm]
  simp only
  rw [ho]
  simp only [Bool.false_eq_true, if_false]
  rw [hr, receiptLoop, ho2]
  simp only [Bool.false_eq_true, if_false]
  rw [attachBlockProof_absent _ _ _ hb rfl]

/-- C23 (code at the failing input): `addRelayMessage` receives block update 3
with one receipt proof while the verifier is at height 5, and leaves an entry
with block update 3, that receipt proof and no block proof.  `Segment` on this
entry returns one segment at verifier height 2, where the block update is
packed.  At verifier heights 3 and 5 the block update is skipped and `Segment`
panics on the read of `rm.BlockProof.BlockWitness.Height`; the dispatch pass
over the queue that `addRelayMessage` left ends with that panic. -/
theorem Segment_panics_on_ingested_entry :
    addRelayMessage (chainOf 5 5 [entryOf 9 [] none []]) (blockAt 3 1) [receiptAt 1 7 [1]]
      = .done { chainOf 5 5 [entryOf 9 [blockAt 3 1] none [receiptAt 1 7 [1]],
                            entryOf 9 [] none []] with
                lastBlockUpdate := some (blockAt 3 1), rmSeq := 10 } ∧
    (Segment (stubDeps 10 []) (entryOf 9 [blockAt 3 1] none [receiptAt 1 7 [1]]) 2).map
        List.length = .ok 1 ∧
    Segment (stubDeps 10 []) (entryOf 9 [blockAt 3 1] none [receiptAt 1 7 [1]]) 3
      = .error (.crash .nilDereference) ∧
    Segment (stubDeps 10 []) (entryOf 9 [blockAt 3 1] none [receiptAt 1 7 [1]]) 5
      = .error (.crash .nilDereference) ∧
    (_relay (stubDeps 10 [])
        { chainOf 5 5 [entryOf 9 [blockAt 3 1] none [receiptAt 1 7 [1]],
                       entryOf 9 [] none []] with
          lastBlockUpdate := some (blockAt 3 1), rmSeq := 10 }).2
      = ([], some .nilDereference) := by
  decide

theorem Packing_close (d : Deps) (base : List chain.Segment) (st : SegmentState)
    (gs : List (List chain.BlockUpdate)) (cur cur1 : List chain.BlockUpdate)
    (b : Bytes) (seg : chain.Segment) (msg1 : RelayMessage) (size1 : Int)
    (hp : Packing d base st gs cur) (hm : d.marshalRelayMessage st.msg = .ok b)
    (hlim : totalLen (cur.map (fun bu => bu.Proof)) ≤ d.TxSizeLimit)
    (h1 : seg.TransactionParam = b) (h2 : seg.NumberOfBlockUpdate = st.msg.numberOfBlockUpdate)
    (h3 : seg.Height = st.msg.height)
    (m1 : msg1.BlockUpdates = cur1.map (fun bu => bu.Proof))
    (m2 : msg1.numberOfBlockUpdate = (cur1.length : Int))
    (m3 : ∀ last, cur1.getLast? = some last → msg1.height = last.Height) :
    Packing d base { segments := st.segments ++ [seg], msg := msg1, size := size1 }
      (gs ++ [cur]) cur1 := by
  obtain ⟨extra, e1, e2, e3, e4, e5⟩ := hp
  refine ⟨extra ++ [seg], by simp [e1], List.rel_append e2 ?_, m1, m2, m3⟩
  refine List.Forall₂.cons ⟨st.msg, by rw [h1]; exact hm, e3, by rw [h2]; exact e4, hlim, ?_⟩
    List.Forall₂.nil
  intro last hl
  rw [h3]
  exact e5 last hl

theorem blockUpdateLoop_groups (d : Deps) (height : Int) (bus : List chain.BlockUpdate) :
    ∀ (st st1 : SegmentState) (gs : List (List chain.BlockUpdate))
      (cur : List chain.BlockUpdate),
      blockUpdateLoop d height bus st = .ok st1 → Packing d [] st gs cur →
      st.size = totalLen (cur.map (fun bu => bu.Proof)) →
      (cur = [] ∨ st.size ≤ d.TxSizeLimit) → (∀ g ∈ gs, g ≠ []) →
      ∃ gs1 cur1, Packing d [] st1 gs1 cur1 ∧
        st1.size = totalLen (cur1.map (fun bu => bu.Proof)) ∧
        (cur1 = [] ∨ st1.size ≤ d.TxSizeLimit) ∧ (∀ g ∈ gs1, g ≠ []) ∧
        gs1.flatten ++ cur1 =
          gs.flatten ++ cur ++ bus.filter (fun bu => decide (height < bu.Height)) := by
  induction bus with
  | nil =>
    intro st st1 gs cur h hp hs hl hne
    simp only [blockUpdateLoop, Except.ok.injEq] at h
    subst h
    exact ⟨gs, cur, hp, hs, hl, hne, by simp⟩
  | cons bu rest ih =>
    intro st st1 gs cur h hp hs hl hne
    rw [blockUpdateLoop] at h
    by_cases hh : bu.Height ≤ height
    · rw [if_pos hh] at h
      have hf : ¬ height < bu.Height := by omega
      obtain ⟨gs1, cur1, r1, r2, r3, r4, r5⟩ := ih st st1 gs cur h hp hs hl hne
      refine ⟨gs1, cur1, r1, r2, r3, r4, ?_⟩
      rw [r5, List.filter_cons]
      simp [hf]
    · rw [if_neg hh] at h
      have hf : height < bu.Height := by omega
      have hfil : (bu :: rest).filter (fun bu => decide (height < bu.Height))
          = bu :: rest.filter (fun bu => decide (height < bu.Height)) := by
        rw [List.filter_cons]; simp [hf]
      cases ho : isOverLimit d (bu.Proof.length : Int) with
      | true => simp [ho] at h
      | false =>
        have hbu := isOverLimit_false d _ ho
        simp only [ho] at h
        cases ho2 : isOverLimit d (st.size + (bu.Proof.length : Int)) with
        | true =>
          have hover := isOverLimit_true d _ ho2
          simp only [ho2, if_true] at h
          cases hm : d.marshalRelayMessage st.msg with
          | error e => simp [hm] at h
          | ok b =>
            simp only [hm] at h
            have hcur : cur ≠ [] := by
              intro hc
              rw [hc] at hs
              simp only [List.map_nil, totalLen_nil] at hs
              omega
            have hlim : totalLen (cur.map (fun bu => bu.Proof)) ≤ d.TxSizeLimit := by
              rcases hl with hl | hl
              · exact absurd hl hcur
              · rw [← hs]; exact hl
            have hp1 := Packing_close d [] st gs cur [bu] b (buSegment st.msg b)
              (packBlockUpdate emptyMsg bu) (bu.Proof.length : Int) hp hm hlim rfl rfl rfl
              (by simp [packBlockUpdate, emptyMsg]) (by simp [packBlockUpdate, emptyMsg])
              (by intro last hl2; simp at hl2; subst hl2; rfl)
            obtain ⟨gs1, cur1, r1, r2, r3, r4, r5⟩ := ih _ st1 (gs ++ [cur]) [bu] h hp1
              (by simp [totalLen]) (Or.inr hbu)
              (by
                intro g hg
                rcases List.mem_append.1 hg with hg | hg
                · exact hne g hg
                · simp only [List.mem_singleton] at hg
                  rw [hg]; exact hcur)
            refine ⟨gs1, cur1, r1, r2, r3, r4, ?_⟩
            rw [r5, hfil]
            simp
        | false =>
          have hle := isOverLimit_false d _ ho2
          simp only [ho2] at h
          obtain ⟨extra, e1, e2, e3, e4, e5⟩ := hp
          have hp1 : Packing d []
              { st with msg := packBlockUpdate st.msg bu,
                        size := st.size + (bu.Proof.length : Int) } gs (cur ++ [bu]) := by
            refine ⟨extra, e1, e2, ?_, ?_, ?_⟩
            · simp [packBlockUpdate, e3]
            · simp [packBlockUpdate, e4]
            · intro last hl2
              simp at hl2
              subst hl2
              rfl
          obtain ⟨gs1, cur1, r1, r2, r3, r4, r5⟩ := ih _ st1 gs (cur ++ [bu]) h hp1
            (by
              simp only [List.map_append, List.map_cons, List.map_nil, totalLen_append,
                totalLen_singleton]
              rw [hs])
            (Or.inr hle) hne
          refine ⟨gs1, cur1, r1, r2, r3, r4, ?_⟩
          rw [r5, hfil]
          simp

theorem packEvent_packing (d : Deps) (base : List chain.Segment) (rp : chain.ReceiptProof)
    (j : Nat) (ep : chain.EventProof) (st st1 : SegmentState) (trp trp1 : ReceiptProof)
    (gs : List (List chain.BlockUpdate)) (cur : List chain.BlockUpdate)
    (h : packEvent rp j ep st trp = .ok (st1, trp1)) (hp : Packing d base st gs cur) :
    Packing d base st1 gs cur := by
  unfold packEvent at h
  split at h
  · simp at h
  · simp only [Except.ok.injEq, Prod.mk.injEq] at h
    obtain ⟨h1, _⟩ := h
    subst h1
    exact hp

theorem attachBlockProof_packing (d : Deps) (base : List chain.Segment)
    (rm : chain.RelayMessage) (bp : Bytes) (st st1 : SegmentState)
    (gs : List (List chain.BlockUpdate)) (cur : List chain.BlockUpdate)
    (h : attachBlockProof rm bp st = .ok st1) (hp : Packing d base st gs cur) :
    Packing d base st1 gs cur := by
  unfold attachBlockProof at h
  by_cases h0 : st.msg.BlockUpdates.length = 0
  · rw [if_pos h0] at h
    cases hb : rm.BlockProof with
    | none => simp [hb] at h
    | some p =>
      simp only [hb] at h
      cases hw : p.BlockWitness with
      | none => simp [hw] at h
      | some w =>
        simp only [hw, Except.ok.injEq] at h
        subst h
        obtain ⟨extra, e1, e2, e3, e4, e5⟩ := hp
        refine ⟨extra, e1, e2, e3, e4, ?_⟩
        intro last hl
        have hc : cur = [] := by
          have := List.length_eq_zero.1 h0
          rw [e3] at this
          exact List.map_eq_nil_iff.1 this
        rw [hc] at hl
        simp at hl
  · rw [if_neg h0] at h
    simp only [Except.ok.injEq] at h
    subst h
    exact hp

theorem eventLoop_groups (d : Deps) (base : List chain.Segment) (bp : Bytes)
    (rp : chain.ReceiptProof) (eps : List chain.EventProof) :
    ∀ (j : Nat) (st st1 : SegmentState) (trp trp1 : ReceiptProof)
      (gs : List (List chain.BlockUpdate)) (cur : List chain.BlockUpdate),
      eventLoop d bp rp eps j st trp = .ok (st1, trp1) → Packing d base st gs cur →
      totalLen (cur.map (fun bu => bu.Proof)) ≤ d.TxSizeLimit →
      ∃ gs1 cur1, Packing d base st1 gs1 cur1 ∧
        totalLen (cur1.map (fun bu => bu.Proof)) ≤ d.TxSizeLimit ∧
        gs1.flatten ++ cur1 = gs.flatten ++ cur := by
  induction eps with
  | nil =>
    intro j st st1 trp trp1 gs cur h hp hl
    simp only [eventLoop, Except.ok.injEq, Prod.mk.injEq] at h
    obtain ⟨h1, _⟩ := h
    subst h1
    exact ⟨gs, cur, hp, hl, rfl⟩
  | cons ep rest ih =>
    intro j st st1 trp trp1 gs cur h hp hl
    rw [eventLoop] at h
    cases ho : isOverLimit d (ep.Proof.length : Int) with
    | true => simp [ho] at h
    | false =>
      have hep := isOverLimit_false d _ ho
      have h0 : (0 : Int) ≤ d.TxSizeLimit := le_trans (Int.ofNat_nonneg _) hep
      rw [ho] at h
      simp only [Bool.false_eq_true, if_false] at h
      cases ho2 : isOverLimit d (st.size + (ep.Proof.length : Int)) with
      | true =>
        rw [ho2] at h
        simp only [if_true] at h
        by_cases hj : j = 0 ∧ st.msg.BlockUpdates.length = 0
        · rw [if_pos hj] at h
          simp at h
        · rw [if_neg hj] at h
          cases hm : d.marshalRelayMessage st.msg with
          | error e => simp [hm] at h
          | ok b =>
            simp only [hm] at h
            cases hpk : packEvent rp j ep
                { segments := st.segments ++ [evSegment st.msg b],
                  msg := { emptyMsg with BlockProof := bp },
                  size := (ep.Proof.length : Int) + (rp.Proof.length : Int) + (bp.length : Int) }
                (newTrp rp) with
            | error f => simp [hpk] at h
            | ok p =>
              obtain ⟨st2, trp2⟩ := p
              simp only [hpk] at h
              have hc := Packing_close d base st gs cur [] b (evSegment st.msg b)
                { emptyMsg with BlockProof := bp }
                ((ep.Proof.length : Int) + (rp.Proof.length : Int) + (bp.length : Int))
                hp hm hl rfl rfl rfl (by simp [emptyMsg]) (by simp [emptyMsg])
                (by intro last hl2; simp at hl2)
              obtain ⟨gs1, cur1, r1, r2, r3⟩ := ih _ st2 st1 trp2 trp1 (gs ++ [cur]) [] h
                (packEvent_packing d base _ _ _ _ _ _ _ _ _ hpk hc)
                (by simpa [totalLen] using h0)
              exact ⟨gs1, cur1, r1, r2, by rw [r3]; simp⟩
      | false =>
        rw [ho2] at h
        simp only [Bool.false_eq_true, if_false] at h
        cases hpk : packEvent rp j ep { st with size := st.size + (ep.Proof.length : Int) } trp with
        | error f => simp [hpk] at h
        | ok p =>
          obtain ⟨st2, trp2⟩ := p
          simp only [hpk] at h
          exact ih _ st2 st1 trp2 trp1 gs cur h
            (packEvent_packing d base _ _ _ _ _ _ _ _ _ hpk hp) hl

theorem receiptLoop_groups (d : Deps) (base : List chain.Segment) (rm : chain.RelayMessage)
    (bp : Bytes) (rps : List chain.ReceiptProof) :
    ∀ (st st1 : SegmentState) (gs : List (List chain.BlockUpdate))
      (cur : List chain.BlockUpdate),
      receiptLoop d rm bp rps st = .ok st1 → Packing d base st gs cur →
      totalLen (cur.map (fun bu => bu.Proof)) ≤ d.TxSizeLimit →
      ∃ gs1 cur1, Packing d base st1 gs1 cur1 ∧
        totalLen (cur1.map (fun bu => bu.Proof)) ≤ d.TxSizeLimit ∧
        gs1.flatten ++ cur1 = gs.flatten ++ cur := by
  induction rps with
  | nil =>
    intro st st1 gs cur h hp hl
    simp only [receiptLoop, Except.ok.injEq] at h
    subst h
    exact ⟨gs, cur, hp, hl, rfl⟩
  | cons rp rest ih =>
    intro st st1 gs cur h hp hl
    rw [receiptLoop] at h
    cases ho : isOverLimit d (rp.Proof.length : Int) with
    | true => simp [ho] at h
    | false =>
      rw [ho] at h
      simp only [Bool.false_eq_true, if_false] at h
      cases ha : attachBlockProof rm bp st with
      | error f => simp [ha] at h
      | ok sta =>
        simp only [ha] at h
        have hpa := attachBlockProof_packing d base rm bp st sta gs cur ha hp
        cases he : eventLoop d bp rp rp.EventProofs 0
            { sta with size := sta.size + (rp.Proof.length : Int) } (newTrp rp) with
        | error f => simp [he] at h
        | ok p =>
          obtain ⟨stb, trp⟩ := p
          simp only [he] at h
          cases hm : d.marshalReceiptProof trp with
          | error e => simp [hm] at h
          | ok b =>
            simp only [hm] at h
            obtain ⟨gs1, cur1, r1, r2, r3⟩ :=
              eventLoop_groups d base bp rp rp.EventProofs 0 _ stb _ trp gs cur he hpa hl
            obtain ⟨gs2, cur2, q1, q2, q3⟩ := ih _ st1 gs1 cur1 h r1 r2
            exact ⟨gs2, cur2, q1, q2, by rw [q3, r3]⟩

/-- C24: block-update packing of `Segment`.  Whenever `Segment` succeeds, the
block updates above the verifier height are cut, in order, into one group per
returned segment such that each segment carries the encoding of a message
whose block-update proofs are those of its group and total at most
`TxSizeLimit()` bytes, its `NumberOfBlockUpdate` is the size of the group and
its `Height` is the height of the last block update of the group; the
segments closed by the block-update loop come first and none of their groups
is empty. -/
theorem Segment_block_update_packing (d : Deps) (rm : chain.RelayMessage) (height : Int)
    (segs : List chain.Segment) (h : Segment d rm height = .ok segs) :
    ∃ (st : SegmentState) (groups : List (List chain.BlockUpdate)),
      blockUpdateLoop d height rm.BlockUpdates
        { segments := [], msg := emptyMsg, size := 0 } = .ok st ∧
      st.segments <+: segs ∧
      List.Forall₂ (PacksGroup d) segs groups ∧
      groups.flatten = rm.BlockUpdates.filter (fun bu => decide (height < bu.Height)) ∧
      ∀ g ∈ groups.take st.segments.length, g ≠ [] := by
  unfold Segment at h
  cases hbl : blockUpdateLoop d height rm.BlockUpdates
      { segments := [], msg := emptyMsg, size := 0 } with
  | error f => simp [hbl] at h
  | ok st =>
    simp only [hbl] at h
    cases hmb : d.marshalBlockProof rm.BlockProof with
    | error e => simp [hmb] at h
    | ok bp =>
      simp only [hmb] at h
      cases ho : isOverLimit d (bp.length : Int) with
      | true => simp [ho] at h
      | false =>
        have hbp := isOverLimit_false d _ ho
        have h0 : (0 : Int) ≤ d.TxSizeLimit := le_trans (Int.ofNat_nonneg _) hbp
        rw [ho] at h
        simp only [Bool.false_eq_true, if_false] at h
        cases hrl : receiptLoop d rm bp rm.ReceiptProofs st with
        | error f => simp [hrl] at h
        | ok st1 =>
          simp only [hrl] at h
          cases hm : d.marshalRelayMessage st1.msg with
          | error e => simp [hm] at h
          | ok b =>
            simp only [hm, Except.ok.injEq] at h
            subst h
            obtain ⟨gs, cur, ⟨extra, e1, e2, e3, e4, e5⟩, b2, b3, b4, b5⟩ :=
              blockUpdateLoop_groups d height rm.BlockUpdates _ st [] [] hbl
                ⟨[], rfl, List.Forall₂.nil, rfl, rfl, by intro last hl; simp at hl⟩
                (by simp [totalLen]) (Or.inl rfl) (by simp)
            simp only [List.nil_append] at e1
            have hlim : totalLen (cur.map (fun bu => bu.Proof)) ≤ d.TxSizeLimit := by
              rcases b3 with b3 | b3
              · rw [b3]; simpa [totalLen] using h0
              · rw [← b2]; exact b3
            obtain ⟨gs1, cur1, ⟨extra1, f1, f2, f3, f4, f5⟩, q2, q3⟩ :=
              receiptLoop_groups d st.segments rm bp rm.ReceiptProofs st st1 [] cur hrl
                ⟨[], by simp, List.Forall₂.nil, e3, e4, e5⟩ hlim
            have hlen : extra.length = gs.length := e2.length_eq
            refine ⟨st, gs ++ (gs1 ++ [cur1]), rfl, ?_, ?_, ?_, ?_⟩
            · rw [f1]
              exact ⟨extra1 ++ [evSegment st1.msg b], by simp⟩
            · rw [f1, e1, List.append_assoc]
              refine List.rel_append e2 (List.rel_append f2 ?_)
              exact List.Forall₂.cons ⟨st1.msg, hm, f3, f4, q2, f5⟩ List.Forall₂.nil
            · simp only [List.flatten_append, List.flatten_cons, List.flatten_nil,
                List.append_nil]
              rw [q3]
              simpa using b5
            · rw [e1, hlen, List.take_left]
              exact b4

/-- C24 (witness): the relay message with block updates 1, 2, 3 of 6, 6 and 4
proof bytes under the limit 10: the block-update loop closes one segment, with
block update 1; the last segment packs block updates 2 and 3. -/
theorem Segment_block_update_packing_witness :
    ∃ (segs : List chain.Segment) (st : SegmentState) (groups : List (List chain.BlockUpdate)),
      Segment (stubDeps 10 [0])
        (entryOf 0 [blockAt 1 6, blockAt 2 6, blockAt 3 4] none []) 0 = .ok segs ∧
      segs.map (fun seg => (seg.NumberOfBlockUpdate, seg.Height)) = [(1, 1), (2, 3)] ∧
      blockUpdateLoop (stubDeps 10 [0]) 0
        (entryOf 0 [blockAt 1 6, blockAt 2 6, blockAt 3 4] none []).BlockUpdates
        { segments := [], msg := emptyMsg, size := 0 } = .ok st ∧
      st.segments <+: segs ∧
      List.Forall₂ (PacksGroup (stubDeps 10 [0])) segs groups ∧
      groups.flatten =
        (entryOf 0 [blockAt 1 6, blockAt 2 6, blockAt 3 4] none []).BlockUpdates.filter
          (fun bu => decide ((0 : Int) < bu.Height)) ∧
      ∀ g ∈ groups.take st.segments.length, g ≠ [] := by
  have h : Segment (stubDeps 10 [0])
        (entryOf 0 [blockAt 1 6, blockAt 2 6, blockAt 3 4] none []) 0
      = .ok [{ TransactionParam := 0 :: fill 6 1, GetResultParam := none,
               TransactionResult := none, Height := 1, NumberOfBlockUpdate := 1,
               EventSequence := none, NumberOfEvent := 0 },
             { TransactionParam := 0 :: fill 10 1, GetResultParam := none,
               TransactionResult := none, Height := 3, NumberOfBlockUpdate := 2,
               EventSequence := some 0, NumberOfEvent := 0 }] := by decide
  obtain ⟨st, groups, a, b, c, e, f⟩ := Segment_block_update_packing _ _ _ _ h
  exact ⟨_, st, groups, h, rfl, a, b, c, e, f⟩

theorem relaySegments_nil_head (d : Deps) (i : Nat) (rest : List (Option chain.Segment))
    (j : Nat) (re : Bool) :
    relaySegments d i (none :: rest) j re =
      (none :: (relaySegments d i rest (j + 1) re).1, (relaySegments d i rest (j + 1) re).2.1,
       (relaySegments d i rest (j + 1) re).2.2.1, (relaySegments d i rest (j + 1) re).2.2.2) := by
  rw [relaySegments]

theorem relaySegments_submitted_head (d : Deps) (i : Nat) (sg : chain.Segment) (p : Nat)
    (rest : List (Option chain.Segment)) (j : Nat) (re : Bool)
    (hg : sg.GetResultParam = some p) :
    relaySegments d i (some sg :: rest) j re =
      (some sg :: (relaySegments d i rest (j + 1) false).1,
       (relaySegments d i rest (j + 1) false).2.1,
       (relaySegments d i rest (j + 1) false).2.2.1,
       (relaySegments d i rest (j + 1) false).2.2.2) := by
  rw [relaySegments]
  simp only [hg]

theorem relaySegments_relay_ok (d : Deps) (i : Nat) (sg : chain.Segment) (p : Option Nat)
    (rest : List (Option chain.Segment)) (j : Nat) (re : Bool)
    (hg : sg.GetResultParam = none)
    (hr : d.Relay { sg with TransactionResult := none } = .ok p) :
    relaySegments d i (some sg :: rest) j re =
      (some { sg with TransactionResult := none, GetResultParam := p } ::
          (relaySegments d i rest (j + 1) false).1,
       (relaySegments d i rest (j + 1) false).2.1,
       { entry := i, index := j, segment := { sg with TransactionResult := none } } ::
          (relaySegments d i rest (j + 1) false).2.2.1,
       (relaySegments d i rest (j + 1) false).2.2.2) := by
  obtain ⟨tp, grp, tr, hh, nb, es, ne⟩ := sg
  simp only at hg
  subst hg
  rw [relaySegments]
  simp only [hr]

theorem relaySegments_relay_error (d : Deps) (i : Nat) (sg : chain.Segment) (e : Err)
    (rest : List (Option chain.Segment)) (j : Nat) (re : Bool)
    (hg : sg.GetResultParam = none)
    (hr : d.Relay { sg with TransactionResult := none } = .error e) :
    relaySegments d i (some sg :: rest) j re =
      (some { sg with TransactionResult := none } :: rest, false,
       [{ entry := i, index := j, segment := { sg with TransactionResult := none } }],
       some .relayFailed) := by
  obtain ⟨tp, grp, tr, hh, nb, es, ne⟩ := sg
  simp only at hg
  subst hg
  rw [relaySegments]
  simp only [hr]

theorem relaySegments_cases (d : Deps) (i : Nat) (seg : Option chain.Segment)
    (rest : List (Option chain.Segment)) (j : Nat) (re : Bool) :
    (seg = none ∧ relaySegments d i (seg :: rest) j re =
      (none :: (relaySegments d i rest (j + 1) re).1, (relaySegments d i rest (j + 1) re).2.1,
       (relaySegments d i rest (j + 1) re).2.2.1, (relaySegments d i rest (j + 1) re).2.2.2)) ∨
    (∃ sg p, seg = some sg ∧ sg.GetResultParam = some p ∧
      relaySegments d i (seg :: rest) j re =
        (some sg :: (relaySegments d i rest (j + 1) false).1,
         (relaySegments d i rest (j + 1) false).2.1,
         (relaySegments d i rest (j + 1) false).2.2.1,
         (relaySegments d i rest (j + 1) false).2.2.2)) ∨
    (∃ sg p, seg = some sg ∧ sg.GetResultParam = none ∧
      d.Relay { sg with TransactionResult := none } = .ok p ∧
      relaySegments d i (seg :: rest) j re =
        (some { sg with TransactionResult := none, GetResultParam := p } ::
            (relaySegments d i rest (j + 1) false).1,
         (relaySegments d i rest (j + 1) false).2.1,
         { entry := i, index := j, segment := { sg with TransactionResult := none } } ::
            (relaySegments d i rest (j + 1) false).2.2.1,
         (relaySegments d i rest (j + 1) false).2.2.2)) ∨
    (∃ sg e, seg = some sg ∧ sg.GetResultParam = none ∧
      d.Relay { sg with TransactionResult := none } = .error e ∧
      relaySegments d i (seg :: rest) j re =
        (some { sg with TransactionResult := none } :: rest, false,
         [{ entry := i, index := j, segment := { sg with TransactionResult := none } }],
         some .relayFailed)) := by
  cases seg with
  | none => exact Or.inl ⟨rfl, relaySegments_nil_head d i rest j re⟩
  | some sg =>
    cases hg : sg.GetResultParam with
    | some p =>
      exact Or.inr (Or.inl ⟨sg, p, rfl, hg, relaySegments_submitted_head d i sg p rest j re hg⟩)
    | none =>
      cases hr : d.Relay { sg with TransactionResult := none } with
      | ok p =>
        exact Or.inr (Or.inr (Or.inl
          ⟨sg, p, rfl, hg, hr, relaySegments_relay_ok d i sg p rest j re hg hr⟩))
      | error e =>
        exact Or.inr (Or.inr (Or.inr
          ⟨sg, e, rfl, hg, hr, relaySegments_relay_error d i sg e rest j re hg hr⟩))

theorem relaySegments_calls (d : Deps) (i : Nat) (segs : List (Option chain.Segment)) :
    ∀ (j : Nat) (re : Bool),
      (∀ c ∈ (relaySegments d i segs j re).2.2.1,
        c.entry = i ∧ j ≤ c.index ∧ c.segment.GetResultParam = none) ∧
      (relaySegments d i segs j re).2.2.1.Pairwise (fun a b => a.index < b.index) := by
  induction segs with
  | nil => intro j re; simp [relaySegments]
  | cons seg rest ih =>
    intro j re
    rcases relaySegments_cases d i seg rest j re with ⟨_, h⟩ | ⟨sg, p, _, _, h⟩ |
      ⟨sg, p, _, hg, _, h⟩ | ⟨sg, e, _, hg, _, h⟩
    · rw [h]
      obtain ⟨a, b⟩ := ih (j + 1) re
      exact ⟨fun c hc => ⟨(a c hc).1, by have := (a c hc).2.1; omega, (a c hc).2.2⟩, b⟩
    · rw [h]
      obtain ⟨a, b⟩ := ih (j + 1) false
      exact ⟨fun c hc => ⟨(a c hc).1, by have := (a c hc).2.1; omega, (a c hc).2.2⟩, b⟩
    · rw [h]
      obtain ⟨a, b⟩ := ih (j + 1) false
      constructor
      · intro c hc
        rcases List.mem_cons.1 hc with hc | hc
        · subst hc
          exact ⟨rfl, le_refl _, hg⟩
        · exact ⟨(a c hc).1, by have := (a c hc).2.1; omega, (a c hc).2.2⟩
      · refine List.Pairwise.cons ?_ b
        intro c hc
        have := (a c hc).2.1
        show j < c.index
        omega
    · rw [h]
      constructor
      · intro c hc
        simp only [List.mem_singleton] at hc
        subst hc
        exact ⟨rfl, le_refl _, hg⟩
      · simp

theorem relaySegments_flag (d : Deps) (i : Nat) (segs : List (Option chain.Segment)) :
    ∀ (j : Nat), (relaySegments d i segs j false).2.1 = false := by
  induction segs with
  | nil => intro j; rfl
  | cons seg rest ih =>
    intro j
    rcases relaySegments_cases d i seg rest j false with ⟨_, h⟩ | ⟨sg, p, _, _, h⟩ |
      ⟨sg, p, _, hg, _, h⟩ | ⟨sg, e, _, hg, _, h⟩
    · rw [h]; exact ih (j + 1)
    · rw [h]; exact ih (j + 1)
    · rw [h]; exact ih (j + 1)
    · rw [h]

theorem relaySegments_accepted (d : Deps) (hRelay : ∀ sg, ∃ p, d.Relay sg = .ok (some p))
    (i : Nat) (segs : List (Option chain.Segment)) :
    ∀ (j : Nat) (re : Bool),
      (relaySegments d i segs j re).2.2.2 = none ∧
      ((relaySegments d i segs j re).2.2.1 ≠ [] →
        (relaySegments d i segs j re).2.1 = false ∧
        (relaySegments d i segs j re).1.any awaitsResult = true) := by
  induction segs with
  | nil => intro j re; simp [relaySegments]
  | cons seg rest ih =>
    intro j re
    rcases relaySegments_cases d i seg rest j re with ⟨_, h⟩ | ⟨sg, p, _, _, h⟩ |
      ⟨sg, p, _, hg, hr, h⟩ | ⟨sg, e, _, hg, hr, h⟩
    · rw [h]
      obtain ⟨a, b⟩ := ih (j + 1) re
      refine ⟨a, fun hne => ?_⟩
      obtain ⟨b1, b2⟩ := b hne
      exact ⟨b1, by rw [List.any_cons, b2]; simp⟩
    · rw [h]
      obtain ⟨a, b⟩ := ih (j + 1) false
      refine ⟨a, fun hne => ?_⟩
      obtain ⟨b1, b2⟩ := b hne
      exact ⟨b1, by rw [List.any_cons, b2]; simp⟩
    · rw [h]
      obtain ⟨a, _⟩ := ih (j + 1) false
      refine ⟨a, fun _ => ⟨relaySegments_flag d i rest (j + 1), ?_⟩⟩
      obtain ⟨q, hq⟩ := hRelay { sg with TransactionResult := none }
      rw [hr] at hq
      simp only [Except.ok.injEq] at hq
      subst hq
      simp [List.any_cons, awaitsResult]
    · obtain ⟨q, hq⟩ := hRelay { sg with TransactionResult := none }
      rw [hr] at hq
      simp at hq

theorem relaySegments_resubmits (d : Deps) (hRelay : ∀ sg, ∃ p, d.Relay sg = .ok (some p))
    (i : Nat) (sg : chain.Segment) (post : List (Option chain.Segment))
    (hg : sg.GetResultParam = none) :
    ∀ (pre : List (Option chain.Segment)) (j : Nat) (re : Bool),
      ({ entry := i, index := j + pre.length,
         segment := { sg with TransactionResult := none } } : RelayCall) ∈
        (relaySegments d i (pre ++ some sg :: post) j re).2.2.1 := by
  intro pre
  induction pre with
  | nil =>
    intro j re
    obtain ⟨q, hq⟩ := hRelay { sg with TransactionResult := none }
    simp only [List.nil_append, List.length_nil, Nat.add_zero]
    rw [relaySegments_relay_ok d i sg (some q) post j re hg hq]
    exact List.mem_cons_self _ _
  | cons x pre ih =>
    intro j re
    have e : j + (x :: pre).length = (j + 1) + pre.length := by simp; omega
    rw [e]
    simp only [List.cons_append]
    rcases relaySegments_cases d i x (pre ++ some sg :: post) j re with ⟨_, h⟩ |
      ⟨y, p, _, _, h⟩ | ⟨y, p, _, _, _, h⟩ | ⟨y, e1, _, _, hr, h⟩
    · rw [h]; exact ih (j + 1) re
    · rw [h]; exact ih (j + 1) false
    · rw [h]; exact List.mem_cons_of_mem _ (ih (j + 1) false)
    · obtain ⟨q, hq⟩ := hRelay { y with TransactionResult := none }
      rw [hr] at hq
      simp at hq

theorem _hasWait_eq (rm : chain.RelayMessage) : _hasWait rm = rm.Segments.any awaitsResult := rfl

theorem segmentIfEmpty_data (d : Deps) (height : Option Int) (rm : chain.RelayMessage) :
    (segmentIfEmpty d height rm).1.BlockUpdates = rm.BlockUpdates ∧
    (segmentIfEmpty d height rm).1.ReceiptProofs = rm.ReceiptProofs := by
  unfold segmentIfEmpty
  by_cases h0 : rm.Segments.length = 0
  · rw [if_pos h0]
    cases height with
    | none => exact ⟨rfl, rfl⟩
    | some h =>
      simp only
      cases hs : Segment d rm h with
      | ok segs => simp
      | error f => cases f <;> simp
  · rw [if_neg h0]
    exact ⟨rfl, rfl⟩

theorem segmentIfEmpty_nonempty (d : Deps) (height : Option Int) (rm : chain.RelayMessage)
    (h : rm.Segments ≠ []) : segmentIfEmpty d height rm = (rm, none) := by
  unfold segmentIfEmpty
  rw [if_neg (fun h0 => h (List.length_eq_zero.1 h0))]

theorem relayLoop_cases (d : Deps) (height : Option Int) (rm : chain.RelayMessage)
    (rest : List chain.RelayMessage) (i : Nat) :
    (stopsRelay rm = true ∧ relayLoop d height (rm :: rest) i = (rm :: rest, [], none)) ∨
    (stopsRelay rm = false ∧ ∃ c, (segmentIfEmpty d height rm).2 = some c ∧
      relayLoop d height (rm :: rest) i = ((segmentIfEmpty d height rm).1 :: rest, [], some c)) ∨
    (stopsRelay rm = false ∧ (segmentIfEmpty d height rm).2 = none ∧
      ∃ c, (relaySegments d i (segmentIfEmpty d height rm).1.Segments 0 true).2.2.2 = some c ∧
        relayLoop d height (rm :: rest) i =
          ({ (segmentIfEmpty d height rm).1 with
              Segments := (relaySegments d i (segmentIfEmpty d height rm).1.Segments 0 true).1 }
            :: rest,
           (relaySegments d i (segmentIfEmpty d height rm).1.Segments 0 true).2.2.1, some c)) ∨
    (stopsRelay rm = false ∧ (segmentIfEmpty d height rm).2 = none ∧
      (relaySegments d i (segmentIfEmpty d height rm).1.Segments 0 true).2.2.2 = none ∧
      relayLoop d height (rm :: rest) i =
        ({ (segmentIfEmpty d height rm).1 with
            Segments :=
              if (relaySegments d i (segmentIfEmpty d height rm).1.Segments 0 true).2.1 then []
              else (relaySegments d i (segmentIfEmpty d height rm).1.Segments 0 true).1 }
          :: (relayLoop d height rest (i + 1)).1,
         (relaySegments d i (segmentIfEmpty d height rm).1.Segments 0 true).2.2.1 ++
           (relayLoop d height rest (i + 1)).2.1,
         (relayLoop d height rest (i + 1)).2.2)) := by
  rw [relayLoop]
  by_cases hs : stopsRelay rm = true
  · rw [if_pos hs]
    exact Or.inl ⟨hs, rfl⟩
  · rw [if_neg hs]
    have hs0 : stopsRelay rm = false := by simpa using hs
    cases hsi : segmentIfEmpty d height rm with
    | mk rm1 oc =>
      cases oc with
      | some c => exact Or.inr (Or.inl ⟨hs0, c, rfl, rfl⟩)
      | none =>
        simp only
        cases hcr : (relaySegments d i rm1.Segments 0 true).2.2.2 with
        | some c => exact Or.inr (Or.inr (Or.inl ⟨hs0, trivial, c, rfl, rfl⟩))
        | none => exact Or.inr (Or.inr (Or.inr ⟨hs0, trivial, rfl, rfl⟩))

theorem relayLoop_calls (d : Deps) (height : Option Int) (rms : List chain.RelayMessage) :
    ∀ (i : Nat),
      (∀ c ∈ (relayLoop d height rms i).2.1, i ≤ c.entry ∧ c.segment.GetResultParam = none) ∧
      (relayLoop d height rms i).2.1.Pairwise
        (fun a b => a.entry < b.entry ∨ (a.entry = b.entry ∧ a.index < b.index)) := by
  induction rms with
  | nil => intro i; simp [relayLoop]
  | cons rm rest ih =>
    intro i
    obtain ⟨s1, s2⟩ := relaySegments_calls d i (segmentIfEmpty d height rm).1.Segments 0 true
    have hin : ∀ c ∈ (relaySegments d i (segmentIfEmpty d height rm).1.Segments 0 true).2.2.1,
        i ≤ c.entry ∧ c.segment.GetResultParam = none :=
      fun c hc => ⟨by rw [(s1 c hc).1], (s1 c hc).2.2⟩
    have hpw : (relaySegments d i (segmentIfEmpty d height rm).1.Segments 0 true).2.2.1.Pairwise
        (fun a b => a.entry < b.entry ∨ (a.entry = b.entry ∧ a.index < b.index)) := by
      refine List.Pairwise.imp_of_mem ?_ s2
      intro a b ha hb hab
      exact Or.inr ⟨by rw [(s1 a ha).1, (s1 b hb).1], hab⟩
    rcases relayLoop_cases d height rm rest i with ⟨_, h⟩ | ⟨_, c, _, h⟩ | ⟨_, _, c, _, h⟩ |
      ⟨_, _, _, h⟩
    · rw [h]; simp
    · rw [h]; simp
    · rw [h]; exact ⟨hin, hpw⟩
    · rw [h]
      obtain ⟨t1, t2⟩ := ih (i + 1)
      constructor
      · intro c hc
        rcases List.mem_append.1 hc with hc | hc
        · exact hin c hc
        · exact ⟨by have := (t1 c hc).1; omega, (t1 c hc).2⟩
      · rw [List.pairwise_append]
        refine ⟨hpw, t2, ?_⟩
        intro a ha b hb
        left
        have h1 := (s1 a ha).1
        have h2 := (t1 b hb).1
        omega

theorem relayLoop_keeps_stop (d : Deps) (height : Option Int) (rms : List chain.RelayMessage) :
    ∀ (i k : Nat) (rm : chain.RelayMessage), rms[k]? = some rm → stopsRelay rm = true →
      (relayLoop d height rms i).1[k]? = some rm := by
  induction rms with
  | nil => intro i k rm h; simp at h
  | cons r rest ih =>
    intro i k rm hk hstop
    cases k with
    | zero =>
      simp only [List.getElem?_cons_zero, Option.some.injEq] at hk
      subst hk
      rw [relayLoop, if_pos hstop]
      simp
    | succ k =>
      simp only [List.getElem?_cons_succ] at hk
      rcases relayLoop_cases d height r rest i with ⟨_, h⟩ | ⟨_, c, _, h⟩ | ⟨_, _, c, _, h⟩ |
        ⟨_, _, _, h⟩
      · rw [h]; simpa using hk
      · rw [h]; simpa using hk
      · rw [h]; simpa using hk
      · rw [h]
        simp only [List.getElem?_cons_succ]
        exact ih (i + 1) k rm hk hstop

theorem relayLoop_submitted_waits (d : Deps) (hRelay : ∀ sg, ∃ p, d.Relay sg = .ok (some p))
    (height : Option Int) (rms : List chain.RelayMessage) :
    ∀ (i : Nat), ∀ c ∈ (relayLoop d height rms i).2.1,
      ∃ rm1, (relayLoop d height rms i).1[c.entry - i]? = some rm1 ∧ stopsRelay rm1 = true := by
  induction rms with
  | nil => intro i c hc; simp [relayLoop] at hc
  | cons rm rest ih =>
    intro i c hc
    obtain ⟨a1, a2⟩ := relaySegments_accepted d hRelay i (segmentIfEmpty d height rm).1.Segments
      0 true
    obtain ⟨s1, _⟩ := relaySegments_calls d i (segmentIfEmpty d height rm).1.Segments 0 true
    rcases relayLoop_cases d height rm rest i with ⟨_, h⟩ | ⟨_, c1, _, h⟩ | ⟨_, _, c1, hc1, h⟩ |
      ⟨_, _, _, h⟩
    · rw [h] at hc; simp at hc
    · rw [h] at hc; simp at hc
    · rw [a1] at hc1; simp at hc1
    · rw [h] at hc ⊢
      simp only [List.mem_append] at hc
      rcases hc with hc | hc
      · have he := (s1 c hc).1
        obtain ⟨b1, b2⟩ := a2 (List.ne_nil_of_mem hc)
        rw [he]
        simp only [Nat.sub_self, List.getElem?_cons_zero]
        refine ⟨_, rfl, ?_⟩
        unfold stopsRelay
        rw [_hasWait_eq]
        simp only
        rw [b1]
        simp [b2]
      · obtain ⟨rm1, r1, r2⟩ := ih (i + 1) c hc
        have hge := ((relayLoop_calls d height rest (i + 1)).1 c hc).1
        refine ⟨rm1, ?_, r2⟩
        have e : c.entry - i = (c.entry - (i + 1)) + 1 := by omega
        rw [e]
        simpa using r1

theorem relayPasses_below_stop (d : Deps) :
    ∀ (n : Nat) (s : SimpleChain) (k : Nat) (rm : chain.RelayMessage),
      s.rms[k]? = some rm → stopsRelay rm = true →
      ∀ calls ∈ relayPasses d n s, ∀ c ∈ calls, c.entry < k := by
  intro n
  induction n with
  | zero => intro s k rm _ _ calls hc; simp [relayPasses] at hc
  | succ n ih =>
    intro s k rm hk hstop calls hc c hcc
    have hfirst : ∀ c ∈ (_relay d s).2.1, c.entry < k := by
      intro c hc1
      have := relayLoop_stops d _ s.rms 0 k rm hk hstop c hc1
      omega
    have hkeep : (_relay d s).1.rms[k]? = some rm :=
      relayLoop_keeps_stop d _ s.rms 0 k rm hk hstop
    rw [relayPasses] at hc
    cases hcr : (_relay d s).2.2 with
    | none =>
      simp only [hcr, List.mem_cons] at hc
      rcases hc with hc | hc
      · subst hc; exact hfirst c hcc
      · exact ih _ k rm hkeep hstop calls hc c hcc
    | some cr =>
      simp only [hcr, List.mem_singleton] at hc
      subst hc
      exact hfirst c hcc

theorem relayPasses_descend (d : Deps) (hRelay : ∀ sg, ∃ p, d.Relay sg = .ok (some p)) :
    ∀ (n : Nat) (s : SimpleChain),
      (relayPasses d n s).Pairwise (fun a b => ∀ c ∈ a, ∀ c1 ∈ b, c1.entry < c.entry) := by
  intro n
  induction n with
  | zero => intro s; simp [relayPasses]
  | succ n ih =>
    intro s
    rw [relayPasses]
    cases hcr : (_relay d s).2.2 with
    | none =>
      simp only
      refine List.Pairwise.cons ?_ (ih _)
      intro b hb c hc c1 hc1
      obtain ⟨rm1, r1, r2⟩ := relayLoop_submitted_waits d hRelay _ s.rms 0 c hc
      exact relayPasses_below_stop d n _ c.entry rm1 (by simpa using r1) r2 b hb c1 hc1
    | some cr => simp

/-- C21 (amended): one submission in flight per segment.  A dispatch pass calls
`Sender.Relay` only with segments whose result handle is unset.  When every
`Sender.Relay` call returns a handle, the calls of any number of consecutive
passes, with no result task between them, are for pairwise different
positions (entry, segment) of the queue: no segment is submitted twice.  When
`result` has cleared the handle of a segment on `BMVNotVerifiable`, a pass that
reaches the entry of the segment, with that entry neither empty nor awaiting a
result, calls `Sender.Relay` for the segment again, at its position, with the
same `TransactionParam`. -/
theorem relay_submits_once (d : Deps) (hRelay : ∀ sg, ∃ p, d.Relay sg = .ok (some p))
    (s : SimpleChain) (n : Nat) :
    (∀ c ∈ (_relay d s).2.1, c.segment.GetResultParam = none) ∧
    ((relayPasses d n s).flatten.map (fun c => (c.entry, c.index))).Nodup ∧
    (∀ (codes : ErrorCodes) (GetResult : Option Nat → Option Nat × Option ResultError)
      (height : Option Int) (rm : chain.RelayMessage) (rest : List chain.RelayMessage)
      (i : Nat) (pre post : List (Option chain.Segment)) (sg : chain.Segment),
      codes.BMVUnknown ≠ codes.BMVNotVerifiable →
      (GetResult sg.GetResultParam).2 = some (.coded codes.BMVNotVerifiable) →
      stopsRelay { rm with Segments := pre ++ some (result codes GetResult sg).1 :: post }
        = false →
      ({ entry := i, index := pre.length,
         segment := { sg with GetResultParam := none, TransactionResult := none } } : RelayCall)
        ∈ (relayLoop d height
            ({ rm with Segments := pre ++ some (result codes GetResult sg).1 :: post } :: rest)
            i).2.1) := by
  refine ⟨fun c hc => ((relayLoop_calls d _ s.rms 0).1 c hc).2, ?_, ?_⟩
  · unfold List.Nodup
    rw [List.pairwise_map, List.pairwise_flatten]
    constructor
    · intro l hl
      have hp : l.Pairwise
          (fun a b => a.entry < b.entry ∨ (a.entry = b.entry ∧ a.index < b.index)) := by
        clear hRelay
        induction n generalizing s with
        | zero => simp [relayPasses] at hl
        | succ n ih =>
          rw [relayPasses] at hl
          cases hcr : (_relay d s).2.2 with
          | none =>
            simp only [hcr, List.mem_cons] at hl
            rcases hl with hl | hl
            · subst hl; exact (relayLoop_calls d _ s.rms 0).2
            · exact ih _ hl
          | some cr =>
            simp only [hcr, List.mem_singleton] at hl
            subst hl
            exact (relayLoop_calls d _ s.rms 0).2
      refine List.Pairwise.imp ?_ hp
      intro a b hab heq
      simp only [Prod.mk.injEq] at heq
      omega
    · refine List.Pairwise.imp ?_ (relayPasses_descend d hRelay n s)
      intro a b hab x hx y hy heq
      simp only [Prod.mk.injEq] at heq
      have := hab x hx y hy
      omega
  · intro codes GetResult height rm rest i pre post sg hu hcode hvisit
    have hg1 : (result codes GetResult sg).1.GetResultParam = none := by
      unfold result
      simp only [hcode]
      rw [if_neg (fun h => hu h.symm)]
      simp
    have heq : ({ (result codes GetResult sg).1 with TransactionResult := none } : chain.Segment)
        = { sg with GetResultParam := none, TransactionResult := none } := by
      unfold result
      simp only [hcode]
      rw [if_neg (fun h => hu h.symm)]
      simp
    have hmem := relaySegments_resubmits d hRelay i (result codes GetResult sg).1 post hg1
      pre 0 true
    rw [heq] at hmem
    simp only [Nat.zero_add] at hmem
    have hseg := segmentIfEmpty_nonempty d height
      { rm with Segments := pre ++ some (result codes GetResult sg).1 :: post } (by simp)
    rcases relayLoop_cases d height
        { rm with Segments := pre ++ some (result codes GetResult sg).1 :: post } rest i with
      ⟨h1, _⟩ | ⟨_, c1, h2, _⟩ | ⟨_, _, c1, _, h⟩ | ⟨_, _, _, h⟩
    · rw [hvisit] at h1; simp at h1
    · rw [hseg] at h2; simp at h2
    · rw [h, hseg]; exact hmem
    · rw [h, hseg]; exact List.mem_append_left _ hmem

/-- C21 (witness): a queue with block update 1 in its first entry.  The first
of three consecutive passes submits the one segment of the entry and the next
two submit nothing; and a segment whose handle `result` has cleared on
`BMVNotVerifiable` is submitted again by a pass that reaches its entry. -/
theorem relay_submits_once_witness :
    (∀ sg, ∃ p, (stubDeps 10 []).Relay sg = .ok (some p)) ∧
    (relayPasses (stubDeps 10 [])
        3 (chainOf 2 0 [entryOf 0 [blockAt 1 1] none [], entryOf 1 [] none []])).map
      (List.map (fun c => (c.entry, c.index))) = [[(0, 0)], [], []] ∧
    ((relayPasses (stubDeps 10 [])
        3 (chainOf 2 0 [entryOf 0 [blockAt 1 1] none [], entryOf 1 [] none []])).flatten.map
      (fun c => (c.entry, c.index))).Nodup ∧
    ({ entry := 0, index := ([] : List (Option chain.Segment)).length,
       segment := { sampleSegment with GetResultParam := none, TransactionResult := none } }
        : RelayCall)
      ∈ (relayLoop (stubDeps 10 []) (some 0)
          ({ entryOf 0 [blockAt 1 1] none [] with Segments := [] ++ some (result sampleCodes notVerifiable sampleSegment).1 :: [] } :: [entryOf 1 [] none []])
          0).2.1 :=
  ⟨fun _ => ⟨1, rfl⟩, by decide,
   (relay_submits_once (stubDeps 10 []) (fun _ => ⟨1, rfl⟩)
      (chainOf 2 0 [entryOf 0 [blockAt 1 1] none [], entryOf 1 [] none []]) 3).2.1,
   (relay_submits_once (stubDeps 10 []) (fun _ => ⟨1, rfl⟩)
      (chainOf 2 0 [entryOf 0 [blockAt 1 1] none [], entryOf 1 [] none []]) 3).2.2
      sampleCodes notVerifiable (some 0) (entryOf 0 [blockAt 1 1] none [])
      [entryOf 1 [] none []] 0 [] [] sampleSegment (by decide) rfl (by decide)⟩

/-- C21 (counterexample): an entry with two submitted segments.  `result`
clears the handle of the second one on `BMVNotVerifiable` while the first one
still awaits its result.  The next pass finds the entry awaiting a result and
ends there: it makes no `Sender.Relay` call, and the second segment is not
submitted again. -/
theorem relay_waits_for_sibling_segment :
    result sampleCodes notVerifiable sampleSegment
      = ({ sampleSegment with GetResultParam := none }, none) ∧
    (twoSegmentEntry none).Segments
      = [some sampleSegment, some (result sampleCodes notVerifiable sampleSegment).1] ∧
    _hasWait (twoSegmentEntry none) = true ∧
    _relay (stubDeps 10 []) (chainOf 2 0 [twoSegmentEntry none, entryOf 1 [] none []])
      = (chainOf 2 0 [twoSegmentEntry none, entryOf 1 [] none []], [], none) := by
  decide

theorem PrunedFrom_refl (rp : chain.ReceiptProof) : PrunedFrom rp rp :=
  ⟨rfl, rfl, List.suffix_refl _, List.suffix_refl _⟩

theorem PrunedFrom_trans {a b c : chain.ReceiptProof} (h1 : PrunedFrom a b)
    (h2 : PrunedFrom b c) : PrunedFrom a c :=
  ⟨h1.1.trans h2.1, h1.2.1.trans h2.2.1, h1.2.2.1.trans h2.2.2.1, h1.2.2.2.trans h2.2.2.2⟩

theorem PrunedOf_refl (rps : List chain.ReceiptProof) : PrunedOf rps rps :=
  fun rp h => ⟨rp, h, PrunedFrom_refl rp⟩

theorem PrunedOf_trans {a b c : List chain.ReceiptProof} (h1 : PrunedOf a b)
    (h2 : PrunedOf b c) : PrunedOf a c := by
  intro rp1 hrp1
  obtain ⟨rp2, m2, p2⟩ := h1 rp1 hrp1
  obtain ⟨rp3, m3, p3⟩ := h2 rp2 m2
  exact ⟨rp3, m3, PrunedFrom_trans p2 p3⟩

theorem PrunedOf_nil {a : List chain.ReceiptProof} (h : PrunedOf a []) : a = [] := by
  cases a with
  | nil => rfl
  | cons x xs =>
    obtain ⟨rp, hm, _⟩ := h x (List.mem_cons_self _ _)
    simp at hm

theorem Shrinks_refl (a : chain.RelayMessage) : Shrinks a a :=
  ⟨⟨0, rfl⟩, PrunedOf_refl _⟩

theorem rpStep_pruned (seq : Int) (rm : chain.RelayMessage) (rp : chain.ReceiptProof) :
    (∀ rp1, rpStep seq rm rp = .slice rp1 → PrunedFrom rp1 rp) ∧
    (∀ rp1 c, rpStep seq rm rp = .crash rp1 c → PrunedFrom rp1 rp) := by
  unfold rpStep
  cases hev : rp.Events with
  | nil =>
    simp only
    refine ⟨fun rp1 h => by simp at h, fun rp1 c h => ?_⟩
    simp only [RpStep.crash.injEq] at h
    rw [← h.1]
    exact PrunedFrom_refl rp
  | cons ev evs =>
    simp only
    by_cases h1 : wrap64 (wrap64 (seq - wrap64 ev.Sequence) + 1) < 1
    · rw [if_pos h1]
      exact ⟨fun rp1 h => by simp at h, fun rp1 c h => by simp at h⟩
    · rw [if_neg h1]
      by_cases h2 : wrap64 (wrap64 (seq - wrap64 ev.Sequence) + 1) ≥ ((ev :: evs).length : Int)
      · rw [if_pos h2]
        exact ⟨fun rp1 h => by simp at h, fun rp1 c h => by simp at h⟩
      · rw [if_neg h2]
        by_cases h3 : rm.BlockUpdates.length = 0
        · rw [if_pos h3]
          refine ⟨fun rp1 h => by simp at h, fun rp1 c h => ?_⟩
          simp only [RpStep.crash.injEq] at h
          rw [← h.1]
          exact PrunedFrom_refl rp
        · rw [if_neg h3]
          by_cases h4 : rp.EventProofs.length > 0
          · rw [if_pos h4]
            by_cases h5 : wrap64 (wrap64 (seq - wrap64 ev.Sequence) + 1)
                > (rp.EventProofs.length : Int)
            · rw [if_pos h5]
              refine ⟨fun rp1 h => by simp at h, fun rp1 c h => ?_⟩
              simp only [RpStep.crash.injEq] at h
              rw [← h.1]
              exact ⟨rfl, rfl, by rw [hev]; exact List.drop_suffix _ _, List.suffix_refl _⟩
            · rw [if_neg h5]
              refine ⟨fun rp1 h => ?_, fun rp1 c h => by simp at h⟩
              simp only [RpStep.slice.injEq] at h
              rw [← h]
              exact ⟨rfl, rfl, by rw [hev]; exact List.drop_suffix _ _, List.drop_suffix _ _⟩
          · rw [if_neg h4]
            refine ⟨fun rp1 h => ?_, fun rp1 c h => by simp at h⟩
            simp only [RpStep.slice.injEq] at h
            rw [← h]
            exact ⟨rfl, rfl, by rw [hev]; exact List.drop_suffix _ _, List.suffix_refl _⟩

theorem rpLoop_pruned (seq : Int) (rm : chain.RelayMessage) (rps : List chain.ReceiptProof) :
    ∀ (j rrp : Nat), PrunedOf (rpLoop seq rm rps j rrp).1 rps := by
  induction rps with
  | nil => intro j rrp rp1 h; simp [rpLoop] at h
  | cons rp rest ih =>
    intro j rrp
    obtain ⟨s1, s2⟩ := rpStep_pruned seq rm rp
    have lift : ∀ (l : List chain.ReceiptProof) (x : chain.ReceiptProof),
        PrunedFrom x rp → PrunedOf l rest → PrunedOf (x :: l) (rp :: rest) := by
      intro l x hx hl rp1 h1
      rcases List.mem_cons.1 h1 with h1 | h1
      · subst h1; exact ⟨rp, List.mem_cons_self _ _, hx⟩
      · obtain ⟨r, hr, hp⟩ := hl rp1 h1
        exact ⟨r, List.mem_cons_of_mem _ hr, hp⟩
    rw [rpLoop]
    cases hp : rpStep seq rm rp with
    | stop => exact PrunedOf_refl _
    | remove => exact lift _ _ (PrunedFrom_refl rp) (ih _ _)
    | slice rp1 => exact lift _ _ (s1 rp1 hp) (ih _ _)
    | crash rp1 c => exact lift _ _ (s2 rp1 c hp) (PrunedOf_refl _)

theorem pruneReceipts_shrinks (seq : Int) (rm : chain.RelayMessage) :
    (pruneReceipts seq rm).1.BlockUpdates = rm.BlockUpdates ∧
    (pruneReceipts seq rm).1.BlockProof = rm.BlockProof ∧
    PrunedOf (pruneReceipts seq rm).1.ReceiptProofs rm.ReceiptProofs := by
  have hl := rpLoop_pruned seq rm rm.ReceiptProofs 0 0
  unfold pruneReceipts
  by_cases hpos : rm.ReceiptProofs.length > 0
  · rw [if_pos hpos]
    simp only
    cases hc : (rpLoop seq rm rm.ReceiptProofs 0 0).2.2 with
    | some c => exact ⟨rfl, rfl, hl⟩
    | none =>
      simp only
      by_cases hr : (rpLoop seq rm rm.ReceiptProofs 0 0).2.1 > 0
      · rw [if_pos hr]
        by_cases hb : rm.BlockUpdates.length = 0
        · rw [if_pos hb]; exact ⟨rfl, rfl, hl⟩
        · rw [if_neg hb]
          refine ⟨rfl, rfl, ?_⟩
          intro rp1 h1
          exact hl rp1 (List.mem_of_mem_drop h1)
      · rw [if_neg hr]; exact ⟨rfl, rfl, hl⟩
  · rw [if_neg hpos]
    exact ⟨rfl, rfl, PrunedOf_refl _⟩

theorem Contiguous_getElem (bu0 : chain.BlockUpdate) :
    ∀ (tl : List chain.BlockUpdate), Contiguous (bu0 :: tl) →
      ∀ (k : Nat) (b : chain.BlockUpdate), (bu0 :: tl)[k]? = some b →
        b.Height = bu0.Height + (k : Int) := by
  intro tl
  induction tl generalizing bu0 with
  | nil =>
    intro _ k b hk
    cases k with
    | zero => simp at hk; subst hk; simp
    | succ k => simp at hk
  | cons b1 tl ih =>
    intro hc k b hk
    cases k with
    | zero => simp at hk; subst hk; simp
    | succ k =>
      unfold Contiguous at hc
      rw [List.chain'_cons] at hc
      simp only [List.getElem?_cons_succ] at hk
      have := ih b1 hc.2 k b hk
      rw [this, hc.1]
      push_cast
      omega

theorem Contiguous_drop_above (bu0 : chain.BlockUpdate) (tl : List chain.BlockUpdate)
    (hc : Contiguous (bu0 :: tl)) (k : Nat) :
    ∀ b ∈ (bu0 :: tl).drop k, bu0.Height + (k : Int) ≤ b.Height := by
  intro b hb
  obtain ⟨n, hn⟩ := List.mem_iff_getElem?.1 hb
  rw [List.getElem?_drop] at hn
  have := Contiguous_getElem bu0 tl hc (k + n) b hn
  rw [this]
  push_cast
  omega

theorem refreshBlockProof_blockUpdates (d : Deps) (s : SimpleChain) (rm : chain.RelayMessage) :
    (refreshBlockProof d s rm).rm.BlockUpdates = rm.BlockUpdates ∧
    (refreshBlockProof d s rm).ctl ≠ .stop := by
  unfold refreshBlockProof
  cases hb : rm.BlockProof with
  | none => simp
  | some bp =>
    simp only
    by_cases hr : rm.ReceiptProofs.length > 0
    · rw [if_pos hr]
      cases hw : bp.BlockWitness with
      | none => simp
      | some w =>
        simp only
        cases hn : newBlockProof d s w.Height bp.Header with
        | ok bp1 => simp
        | error f => cases f <;> simp
    · rw [if_neg hr]
      simp

theorem pruneBlockUpdates_spec (d : Deps) (s : SimpleChain) (h : Int)
    (rm : chain.RelayMessage) (m : Bool) (hc : Contiguous rm.BlockUpdates)
    (hpos : ∀ bu ∈ rm.BlockUpdates, 0 ≤ bu.Height ∧ bu.Height < 2 ^ 63 - 1)
    (hh : 0 ≤ h ∧ h < 2 ^ 63 - 1) :
    (∃ k, (pruneBlockUpdates d s h rm m).rm.BlockUpdates = rm.BlockUpdates.drop k) ∧
    ((pruneBlockUpdates d s h rm m).ctl = .next →
      (pruneBlockUpdates d s h rm m).marked = false →
      ∀ bu ∈ (pruneBlockUpdates d s h rm m).rm.BlockUpdates, h < bu.Height) ∧
    ((pruneBlockUpdates d s h rm m).ctl = .stop →
      rm.BlockUpdates ≠ [] ∧ (∀ bu ∈ rm.BlockUpdates, h < bu.Height) ∧
      (pruneBlockUpdates d s h rm m).rm.BlockUpdates = rm.BlockUpdates) := by
  unfold pruneBlockUpdates
  cases hb : rm.BlockUpdates with
  | nil =>
    simp only
    exact ⟨⟨0, by simp [hb]⟩, fun _ _ bu hbu => by rw [hb] at hbu; simp at hbu,
      fun hs => by simp at hs⟩
  | cons bu0 tl =>
    rw [hb] at hc hpos
    have h0 := hpos bu0 (List.mem_cons_self _ _)
    have hw : wrap64 (wrap64 (h - bu0.Height) + 1) = h - bu0.Height + 1 := by
      unfold wrap64
      omega
    simp only
    rw [hw]
    by_cases h1 : h - bu0.Height + 1 < 1
    · rw [if_pos h1]
      simp only
      refine ⟨⟨0, by simp [hb]⟩, fun hn => by simp at hn, fun _ => ⟨by simp, ?_, hb⟩⟩
      intro bu hbu
      have := Contiguous_drop_above bu0 tl hc 0 bu (by simpa using hbu)
      simp only [Nat.cast_zero, add_zero] at this
      omega
    · rw [if_neg h1]
      by_cases h2 : h - bu0.Height + 1 ≥ ((bu0 :: tl).length : Int)
      · rw [if_pos h2]
        by_cases hr : rm.ReceiptProofs.length > 0
        · rw [if_pos hr]
          cases hn : newBlockProof d s ((bu0 :: tl).getLastD bu0).Height
              ((bu0 :: tl).getLastD bu0).Header with
          | ok bp =>
            simp only
            exact ⟨⟨(bu0 :: tl).length, by simp⟩, fun _ _ bu hbu => by simp at hbu,
              fun hs => by simp at hs⟩
          | error f =>
            cases f with
            | error e =>
              exact ⟨⟨0, by simp [hb]⟩, fun hn => by simp at hn, fun hs => by simp at hs⟩
            | crash c =>
              exact ⟨⟨0, by simp [hb]⟩, fun hn => by simp at hn, fun hs => by simp at hs⟩
        · rw [if_neg hr]
          exact ⟨⟨0, by simp [hb]⟩, fun _ hm => by simp at hm, fun hs => by simp at hs⟩
      · rw [if_neg h2]
        simp only
        refine ⟨⟨(h - bu0.Height + 1).toNat, rfl⟩, fun _ _ bu hbu => ?_,
          fun hs => by simp at hs⟩
        have := Contiguous_drop_above bu0 tl hc _ bu hbu
        have e : (((h - bu0.Height + 1).toNat : Nat) : Int) = h - bu0.Height + 1 :=
          Int.toNat_of_nonneg (by omega)
        rw [e] at this
        omega

theorem updateEntry_spec (d : Deps) (s : SimpleChain) (h seq : Int)
    (rm : chain.RelayMessage) (hc : Contiguous rm.BlockUpdates)
    (hpos : ∀ bu ∈ rm.BlockUpdates, 0 ≤ bu.Height ∧ bu.Height < 2 ^ 63 - 1)
    (hh : 0 ≤ h ∧ h < 2 ^ 63 - 1) :
    Shrinks rm (updateEntry d s h seq rm).rm ∧
    ((updateEntry d s h seq rm).ctl = .next → (updateEntry d s h seq rm).marked = false →
      ∀ bu ∈ (updateEntry d s h seq rm).rm.BlockUpdates, h < bu.Height) ∧
    ((updateEntry d s h seq rm).ctl = .stop →
      rm.BlockUpdates ≠ [] ∧ (∀ bu ∈ rm.BlockUpdates, h < bu.Height) ∧
      (updateEntry d s h seq rm).rm.BlockUpdates = rm.BlockUpdates) := by
  obtain ⟨q1, _, q3⟩ := pruneReceipts_shrinks seq rm
  unfold updateEntry
  cases hp : pruneReceipts seq rm with
  | mk rm1 oc =>
    rw [hp] at q1 q3
    simp only at q1 q3
    cases oc with
    | some c =>
      simp only
      exact ⟨⟨⟨0, by simp [q1]⟩, q3⟩, fun hn => by simp at hn, fun hs => by simp at hs⟩
    | none =>
      simp only
      obtain ⟨f1, f2⟩ := refreshBlockProof_blockUpdates d s rm1
      obtain ⟨g1, _⟩ := refreshBlockProof_receipts d s rm1
      cases hctl : (refreshBlockProof d s rm1).ctl with
      | next =>
        simp only
        have hc1 : Contiguous (refreshBlockProof d s rm1).rm.BlockUpdates := by
          rw [f1, q1]; exact hc
        have hpos1 : ∀ bu ∈ (refreshBlockProof d s rm1).rm.BlockUpdates,
            0 ≤ bu.Height ∧ bu.Height < 2 ^ 63 - 1 := by
          rw [f1, q1]; exact hpos
        obtain ⟨⟨k, p1⟩, p2, p3⟩ := pruneBlockUpdates_spec d s h (refreshBlockProof d s rm1).rm
          (refreshBlockProof d s rm1).marked hc1 hpos1 hh
        obtain ⟨p4, _⟩ := pruneBlockUpdates_receipts d s h (refreshBlockProof d s rm1).rm
          (refreshBlockProof d s rm1).marked
        refine ⟨⟨⟨k, by rw [p1, f1, q1]⟩, by rw [p4, g1]; exact q3⟩, p2, ?_⟩
        intro hs
        obtain ⟨a, b, c⟩ := p3 hs
        rw [f1, q1] at a b c
        exact ⟨a, b, c⟩
      | stop => exact absurd hctl f2
      | fail e =>
        simp only
        exact ⟨⟨⟨0, by simp [f1, q1]⟩, by rw [g1]; exact q3⟩,
          fun hn => by rw [hctl] at hn; simp at hn, fun hs => by rw [hctl] at hs; simp at hs⟩
      | crash c =>
        simp only
        exact ⟨⟨⟨0, by simp [f1, q1]⟩, by rw [g1]; exact q3⟩,
          fun hn => by rw [hctl] at hn; simp at hn, fun hs => by rw [hctl] at hs; simp at hs⟩

theorem Forall₂_Shrinks_refl : ∀ (l : List chain.RelayMessage), List.Forall₂ Shrinks l l
  | [] => List.Forall₂.nil
  | a :: l => List.Forall₂.cons (Shrinks_refl a) (Forall₂_Shrinks_refl l)

theorem getLast?_cons_of_ne_nil {α : Type} (a : α) (l : List α) (h : l ≠ []) :
    (a :: l).getLast? = l.getLast? := by
  cases l with
  | nil => exact absurd rfl h
  | cons b t => rw [List.getLast?_cons_cons]

theorem rmLoop_spec (d : Deps) (s : SimpleChain) (h seq : Int)
    (hh : 0 ≤ h ∧ h < 2 ^ 63 - 1) (rms : List chain.RelayMessage) :
    ∀ (i rrm : Nat), (∀ rm ∈ rms, Contiguous rm.BlockUpdates) →
      (∀ rm ∈ rms, ∀ bu ∈ rm.BlockUpdates, 0 ≤ bu.Height ∧ bu.Height < 2 ^ 63 - 1) →
      rms.Pairwise
        (fun e1 e2 => ∀ a ∈ e1.BlockUpdates, ∀ b ∈ e2.BlockUpdates, a.Height < b.Height) →
      List.Forall₂ Shrinks rms (rmLoop d s h seq rms i rrm).1 ∧
      ((rmLoop d s h seq rms i rrm).2.2 = .next ∨ (rmLoop d s h seq rms i rrm).2.2 = .stop →
        ∀ t, (rmLoop d s h seq rms i rrm).1.getLast? = some t →
          (rmLoop d s h seq rms i rrm).2.1 = i + rms.length ∨
          ∀ bu ∈ t.BlockUpdates, h < bu.Height) := by
  induction rms with
  | nil =>
    intro i rrm _ _ _
    simp [rmLoop]
  | cons rm rest ih =>
    intro i rrm hc hpos hord
    obtain ⟨e1, e2, e3⟩ := updateEntry_spec d s h seq rm (hc rm (List.mem_cons_self _ _))
      (hpos rm (List.mem_cons_self _ _)) hh
    rw [List.pairwise_cons] at hord
    have ihr := ih (i + 1) (if (updateEntry d s h seq rm).marked then i + 1 else rrm)
      (fun r hr => hc r (List.mem_cons_of_mem _ hr))
      (fun r hr => hpos r (List.mem_cons_of_mem _ hr)) hord.2
    have hlen := rmLoop_length d s h seq rest (i + 1)
      (if (updateEntry d s h seq rm).marked then i + 1 else rrm)
    rw [rmLoop]
    cases hctl : (updateEntry d s h seq rm).ctl with
    | next =>
      simp only
      refine ⟨List.Forall₂.cons e1 ihr.1, ?_⟩
      intro hdone t ht
      cases rest with
      | nil =>
        simp only [rmLoop, List.getLast?_singleton, Option.some.injEq] at ht ⊢
        subst ht
        cases hm : (updateEntry d s h seq rm).marked with
        | true => left; simp
        | false => right; exact e2 hctl hm
      | cons r2 rest2 =>
        have hne : (rmLoop d s h seq (r2 :: rest2) (i + 1)
            (if (updateEntry d s h seq rm).marked then i + 1 else rrm)).1 ≠ [] :=
          rms_ne_nil_of_length hlen (by simp)
        rw [getLast?_cons_of_ne_nil _ _ hne] at ht
        rcases ihr.2 hdone t ht with h1 | h1
        · left
          rw [h1]
          simp only [List.length_cons]
          omega
        · exact Or.inr h1
    | stop =>
      simp only
      refine ⟨List.Forall₂.cons e1 (Forall₂_Shrinks_refl rest), ?_⟩
      intro _ t ht
      obtain ⟨a1, a2, a3⟩ := e3 hctl
      right
      cases rest with
      | nil =>
        simp only [List.getLast?_singleton, Option.some.injEq] at ht
        subst ht
        rw [a3]
        exact a2
      | cons r2 rest2 =>
        rw [getLast?_cons_of_ne_nil _ _ (by simp)] at ht
        have hmem := List.mem_of_getLast?_eq_some ht
        obtain ⟨b0, hb0⟩ := List.exists_mem_of_ne_nil _ a1
        intro bu hbu
        have := hord.1 t hmem b0 hb0 bu hbu
        have := a2 b0 hb0
        omega
    | fail e =>
      simp only
      exact ⟨List.Forall₂.cons e1 (Forall₂_Shrinks_refl rest), fun hd => by simp at hd⟩
    | crash c =>
      simp only
      exact ⟨List.Forall₂.cons e1 (Forall₂_Shrinks_refl rest), fun hd => by simp at hd⟩

theorem Forall₂_mem_right {α β : Type} {R : α → β → Prop} {l : List α} {l1 : List β}
    (h : List.Forall₂ R l l1) : ∀ b ∈ l1, ∃ a ∈ l, R a b := by
  induction h with
  | nil => intro b hb; simp at hb
  | cons hab _ ih =>
    intro b hb
    rcases List.mem_cons.1 hb with hb | hb
    · subst hb; exact ⟨_, List.mem_cons_self _ _, hab⟩
    · obtain ⟨a1, m1, r1⟩ := ih b hb
      exact ⟨a1, List.mem_cons_of_mem _ m1, r1⟩

theorem Forall₂_getLast? {α β : Type} {R : α → β → Prop} {l : List α} {l1 : List β}
    (h : List.Forall₂ R l l1) :
    ∀ t1, l1.getLast? = some t1 → ∃ t, l.getLast? = some t ∧ R t t1 := by
  induction h with
  | nil => intro t1 ht; simp at ht
  | cons hab htl ih =>
    intro t1 ht
    cases htl with
    | nil =>
      simp only [List.getLast?_singleton, Option.some.injEq] at ht
      subst ht
      exact ⟨_, rfl, hab⟩
    | cons h2 t2 =>
      rw [List.getLast?_cons_cons] at ht
      obtain ⟨t0, h0, r0⟩ := ih t1 ht
      exact ⟨t0, by rw [List.getLast?_cons_cons]; exact h0, r0⟩

theorem Forall₂_pairwise {α : Type} {R P : α → α → Prop}
    (hP : ∀ a a1 b b1, R a a1 → R b b1 → P a b → P a1 b1) {l l1 : List α}
    (h : List.Forall₂ R l l1) : l.Pairwise P → l1.Pairwise P := by
  induction h with
  | nil => intro _; exact List.Pairwise.nil
  | cons hab htl ih =>
    intro hp
    rw [List.pairwise_cons] at hp ⊢
    refine ⟨?_, ih hp.2⟩
    intro b1 hb1
    obtain ⟨a1, m1, r1⟩ := Forall₂_mem_right htl b1 hb1
    exact hP _ _ a1 b1 hab r1 (hp.1 a1 m1)

theorem getLast?_of_drop {α : Type} (l : List α) (k : Nat) (b : α)
    (h : (l.drop k).getLast? = some b) : l.getLast? = some b := by
  rw [List.getLast?_drop] at h
  by_cases hk : l.length ≤ k
  · rw [if_pos hk] at h; simp at h
  · rw [if_neg hk] at h; exact h

theorem QueueCore_mono (hist more : List Step) (s : SimpleChain) (h : QueueCore hist s) :
    QueueCore (hist ++ more) s :=
  { ne := h.ne, contig := h.contig, ordered := h.ordered, bounded := h.bounded,
    lastOk := h.lastOk, tailRps := h.tailRps, tailLast := h.tailLast,
    ghost := fun rm hrm hr => by
      obtain ⟨bu, rps, g1, g2, g3, g4⟩ := h.ghost rm hrm hr
      exact ⟨bu, rps, List.mem_append_left _ g1, g2, g3, g4⟩ }

theorem QueueCore_shrink (hist : List Step) (s s1 : SimpleChain) (h : QueueCore hist s)
    (hrel : List.Forall₂ Shrinks s.rms s1.rms)
    (hl : s1.lastBlockUpdate = s.lastBlockUpdate) : QueueCore hist s1 := by
  have hmem := fun b hb => Forall₂_mem_right hrel b hb
  refine { ne := ?_, contig := ?_, ordered := ?_, bounded := ?_, lastOk := ?_, tailRps := ?_,
           tailLast := ?_, ghost := ?_ }
  · intro h0
    have := hrel.length_eq
    rw [h0] at this
    exact h.ne (List.length_eq_zero.1 (by simpa using this))
  · intro rm1 hrm1
    obtain ⟨rm, m, ⟨⟨k, hk⟩, _⟩⟩ := hmem rm1 hrm1
    rw [hk]
    exact List.Chain'.drop (h.contig rm m) k
  · refine Forall₂_pairwise ?_ hrel h.ordered
    intro a a1 b b1 ra rb hp x hx y hy
    obtain ⟨⟨ka, hka⟩, _⟩ := ra
    obtain ⟨⟨kb, hkb⟩, _⟩ := rb
    rw [hka] at hx
    rw [hkb] at hy
    exact hp x (List.mem_of_mem_drop hx) y (List.mem_of_mem_drop hy)
  · intro rm1 hrm1 bu hbu
    obtain ⟨rm, m, ⟨⟨k, hk⟩, _⟩⟩ := hmem rm1 hrm1
    rw [hk] at hbu
    rw [hl]
    exact h.bounded rm m bu (List.mem_of_mem_drop hbu)
  · intro L hL
    rw [hl] at hL
    exact h.lastOk L hL
  · intro t1 ht1
    obtain ⟨t, ht, ⟨_, hp⟩⟩ := Forall₂_getLast? hrel t1 ht1
    rw [h.tailRps t ht] at hp
    exact PrunedOf_nil hp
  · intro t1 b ht1 hb
    obtain ⟨t, ht, ⟨⟨k, hk⟩, _⟩⟩ := Forall₂_getLast? hrel t1 ht1
    rw [hk] at hb
    rw [hl]
    exact h.tailLast t b ht (getLast?_of_drop _ _ _ hb)
  · intro rm1 hrm1 hr
    obtain ⟨rm, m, ⟨⟨k, hk⟩, hp⟩⟩ := hmem rm1 hrm1
    have hr0 : rm.ReceiptProofs ≠ [] := by
      intro h0
      rw [h0] at hp
      exact hr (PrunedOf_nil hp)
    obtain ⟨bu, rps, g1, g2, g3, g4⟩ := h.ghost rm m hr0
    refine ⟨bu, rps, g1, g2, ?_, PrunedOf_trans hp g4⟩
    intro b hb
    rw [hk] at hb
    exact g3 b (getLast?_of_drop _ _ _ hb)

theorem QueueCore_drop (hist : List Step) (s s1 : SimpleChain) (h : QueueCore hist s)
    (k : Nat) (hrms : s1.rms = s.rms.drop k) (hne : s1.rms ≠ [])
    (hl : s1.lastBlockUpdate = s.lastBlockUpdate) : QueueCore hist s1 := by
  have hlast : s1.rms.getLast? = s.rms.getLast? := by
    rw [hrms, List.getLast?_drop]
    by_cases hk : s.rms.length ≤ k
    · exfalso
      apply hne
      rw [hrms]
      exact List.drop_eq_nil_of_le hk
    · rw [if_neg hk]
  have hmem : ∀ rm ∈ s1.rms, rm ∈ s.rms := by
    intro rm hrm
    rw [hrms] at hrm
    exact List.mem_of_mem_drop hrm
  exact
    { ne := hne
      contig := fun rm hrm => h.contig rm (hmem rm hrm)
      ordered := by rw [hrms]; exact h.ordered.sublist (List.drop_sublist _ _)
      bounded := fun rm hrm bu hbu => by rw [hl]; exact h.bounded rm (hmem rm hrm) bu hbu
      lastOk := fun L hL => h.lastOk L (by rw [← hl]; exact hL)
      tailRps := fun t ht => h.tailRps t (by rw [← hlast]; exact ht)
      tailLast := fun t b ht hb => by
        rw [hl]; exact h.tailLast t b (by rw [← hlast]; exact ht) hb
      ghost := fun rm hrm hr => h.ghost rm (hmem rm hrm) hr }

theorem QueueCore_fresh (hist : List Step) (s1 : SimpleChain) (e : chain.RelayMessage)
    (hrms : s1.rms = [e]) (hb : e.BlockUpdates = []) (hr : e.ReceiptProofs = [])
    (hlast : ∀ L, s1.lastBlockUpdate = some L → 0 ≤ L.Height ∧ L.Height < 2 ^ 63 - 1) :
    QueueCore hist s1 := by
  have hmem : ∀ rm ∈ s1.rms, rm = e := by
    intro rm hrm
    rw [hrms] at hrm
    simpa using hrm
  refine { ne := by rw [hrms]; simp, contig := ?_, ordered := by rw [hrms]; simp,
           bounded := ?_, lastOk := hlast, tailRps := ?_, tailLast := ?_, ghost := ?_ }
  · intro rm hrm
    rw [hmem rm hrm, hb]
    exact List.chain'_nil
  · intro rm hrm bu hbu
    rw [hmem rm hrm, hb] at hbu
    simp at hbu
  · intro t ht
    rw [hrms] at ht
    simp only [List.getLast?_singleton, Option.some.injEq] at ht
    rw [← ht]; exact hr
  · intro t b ht hbb
    rw [hrms] at ht
    simp only [List.getLast?_singleton, Option.some.injEq] at ht
    rw [← ht, hb] at hbb
    simp at hbb
  · intro rm hrm hne
    rw [hmem rm hrm] at hne
    exact absurd hr hne

theorem dropRemoved_spec (s : SimpleChain) (rrm : Nat) :
    (dropRemoved s rrm).lastBlockUpdate = s.lastBlockUpdate ∧
    (dropRemoved s rrm).bs = s.bs ∧
    ((∃ e, (dropRemoved s rrm).rms = [e] ∧ e.BlockUpdates = [] ∧ e.ReceiptProofs = []) ∨
      ((dropRemoved s rrm).rms = s.rms.drop rrm ∧ (rrm = 0 ∨ rrm < s.rms.length))) := by
  unfold dropRemoved
  by_cases hpos : rrm > 0
  · rw [if_pos hpos]
    by_cases hz : (s.rms.drop rrm).length = 0
    · rw [if_pos hz]
      refine ⟨rfl, rfl, Or.inl ⟨freshEntry { s with rms := s.rms.drop rrm }, ?_, rfl, rfl⟩⟩
      simp only [_rm]
      rw [List.length_eq_zero.1 hz]
      rfl
    · rw [if_neg hz]
      refine ⟨rfl, rfl, Or.inr ⟨rfl, Or.inr ?_⟩⟩
      simp only [List.length_drop] at hz
      omega
  · rw [if_neg hpos]
    have h0 : rrm = 0 := by omega
    exact ⟨rfl, rfl, Or.inr ⟨by rw [h0]; rfl, Or.inl h0⟩⟩

theorem QueueInv_updateRelayMessage (d : Deps) (hist : List Step) (s s1 : SimpleChain)
    (h seq : Int) (hcore : QueueCore hist s) (hh : 0 ≤ h ∧ h < 2 ^ 63 - 1)
    (hbs : ∀ st, s.bs = some st → st.Verifier.Height = h)
    (hdone : updateRelayMessage d s h seq = .done s1) : QueueInv hist s1 := by
  have hb : ∀ rm ∈ s.rms, ∀ bu ∈ rm.BlockUpdates, 0 ≤ bu.Height ∧ bu.Height < 2 ^ 63 - 1 := by
    intro rm hrm bu hbu
    obtain ⟨b1, L, hL, b2⟩ := hcore.bounded rm hrm bu hbu
    have := (hcore.lastOk L hL).2
    exact ⟨b1, by omega⟩
  obtain ⟨r1, r2⟩ := rmLoop_spec d s h seq hh s.rms 0 0 hcore.contig hb hcore.ordered
  have hlen := rmLoop_length d s h seq s.rms 0 0
  have hmid : QueueCore hist { s with rms := (rmLoop d s h seq s.rms 0 0).1 } :=
    QueueCore_shrink hist s _ hcore r1 rfl
  have key : (rmLoop d s h seq s.rms 0 0).2.2 = .next ∨ (rmLoop d s h seq s.rms 0 0).2.2 = .stop →
      s1 = dropRemoved { s with rms := (rmLoop d s h seq s.rms 0 0).1 }
        (rmLoop d s h seq s.rms 0 0).2.1 → QueueInv hist s1 := by
    intro hctl hs1
    have r3 := r2 hctl
    obtain ⟨q1, q2, q3⟩ := dropRemoved_spec { s with rms := (rmLoop d s h seq s.rms 0 0).1 }
      (rmLoop d s h seq s.rms 0 0).2.1
    rw [← hs1] at q1 q2 q3
    simp only at q1 q2 q3
    rcases q3 with ⟨e, e1, e2, e3⟩ | ⟨e1, e2⟩
    · refine ⟨QueueCore_fresh hist s1 e e1 e2 e3 ?_, ?_⟩
      · intro L hL
        rw [q1] at hL
        exact hcore.lastOk L hL
      · intro t st ht _ bu hbu
        rw [e1] at ht
        simp only [List.getLast?_singleton, Option.some.injEq] at ht
        rw [← ht, e2] at hbu
        simp at hbu
    · have hne : s1.rms ≠ [] := by
        rw [e1]
        intro h0
        have hl0 := congrArg List.length h0
        simp only [List.length_drop, List.length_nil] at hl0
        have : s.rms.length ≠ 0 := fun h0 => hcore.ne (List.length_eq_zero.1 h0)
        omega
      refine ⟨QueueCore_drop hist _ s1 hmid (rmLoop d s h seq s.rms 0 0).2.1 e1 hne q1, ?_⟩
      intro t st ht hst bu hbu
      have ht0 : (rmLoop d s h seq s.rms 0 0).1.getLast? = some t := by
        rw [e1] at ht
        exact getLast?_of_drop _ _ _ ht
      rw [q2] at hst
      rw [hbs st hst]
      rcases r3 t ht0 with h1 | h1
      · exfalso
        have : s.rms.length ≠ 0 := fun h0 => hcore.ne (List.length_eq_zero.1 h0)
        omega
      · exact h1 bu hbu
  unfold updateRelayMessage at hdone
  cases hc : (rmLoop d s h seq s.rms 0 0).2.2 with
  | crash c => simp [hc] at hdone
  | fail e => simp [hc] at hdone
  | next =>
    simp only [hc, Outcome.done.injEq] at hdone
    exact key (Or.inl hc) hdone.symm
  | stop =>
    simp only [hc, Outcome.done.injEq] at hdone
    exact key (Or.inr hc) hdone.symm

theorem QueueInv_OnBlockOfDst (d : Deps) (hist : List Step) (s s1 : SimpleChain)
    (height : Int) (status : chain.BMCLinkStatus) (sameSeq : Bool)
    (hinv : QueueInv hist s)
    (hr : 0 ≤ status.Verifier.Height ∧ status.Verifier.Height < 2 ^ 63 - 1)
    (hdone : OnBlockOfDst d s height (.ok status) sameSeq = .done s1) : QueueInv hist s1 := by
  unfold OnBlockOfDst at hdone
  cases hb : s.bs with
  | none => simp [hb] at hdone
  | some old =>
    simp only [hb] at hdone
    by_cases hcond : old.Verifier.Height ≠ status.Verifier.Height ∨ sameSeq = false
    · rw [if_pos hcond] at hdone
      refine QueueInv_updateRelayMessage d hist _ s1 _ _ ?_ hr ?_ hdone
      · exact QueueCore_shrink hist s _ hinv.1 (Forall₂_Shrinks_refl _) rfl
      intro st hst
      simp only [Option.some.injEq] at hst
      rw [← hst]
    · rw [if_neg hcond] at hdone
      simp only [Outcome.done.injEq] at hdone
      rw [← hdone]
      refine ⟨QueueCore_shrink hist s _ hinv.1 (Forall₂_Shrinks_refl _) rfl, ?_⟩
      intro t st ht hst bu hbu
      simp only [Option.some.injEq] at hst
      have hv : old.Verifier.Height = status.Verifier.Height := by
        by_contra hne
        exact hcond (Or.inl hne)
      rw [← hst, ← hv]
      exact hinv.2 t old ht hb bu hbu

theorem relayLoop_same (d : Deps) (height : Option Int) (rms : List chain.RelayMessage) :
    ∀ (i : Nat), List.Forall₂
      (fun a b => b.BlockUpdates = a.BlockUpdates ∧ b.ReceiptProofs = a.ReceiptProofs)
      rms (relayLoop d height rms i).1 := by
  have hrefl : ∀ (l : List chain.RelayMessage), List.Forall₂
      (fun a b => b.BlockUpdates = a.BlockUpdates ∧ b.ReceiptProofs = a.ReceiptProofs) l l := by
    intro l
    induction l with
    | nil => exact List.Forall₂.nil
    | cons a l ih => exact List.Forall₂.cons ⟨rfl, rfl⟩ ih
  induction rms with
  | nil => intro i; simp [relayLoop]
  | cons rm rest ih =>
    intro i
    obtain ⟨d1, d2⟩ := segmentIfEmpty_data d height rm
    rcases relayLoop_cases d height rm rest i with ⟨_, h⟩ | ⟨_, c, _, h⟩ | ⟨_, _, c, _, h⟩ |
      ⟨_, _, _, h⟩
    · rw [h]; exact hrefl _
    · rw [h]; exact List.Forall₂.cons ⟨d1, d2⟩ (hrefl _)
    · rw [h]; exact List.Forall₂.cons ⟨d1, d2⟩ (hrefl _)
    · rw [h]; exact List.Forall₂.cons ⟨d1, d2⟩ (ih (i + 1))

theorem QueueInv_relay (d : Deps) (hist : List Step) (s : SimpleChain)
    (hinv : QueueInv hist s) : QueueInv hist (_relay d s).1 := by
  have hsame := relayLoop_same d (s.bs.map (fun bs => bs.Verifier.Height)) s.rms 0
  have hrel : List.Forall₂ Shrinks s.rms (_relay d s).1.rms := by
    refine List.Forall₂.imp ?_ hsame
    intro a b hab
    exact ⟨⟨0, by rw [hab.1]; rfl⟩, by rw [hab.2]; exact PrunedOf_refl _⟩
  refine ⟨QueueCore_shrink hist s _ hinv.1 hrel rfl, ?_⟩
  intro t st ht hst bu hbu
  obtain ⟨t0, h0, r0⟩ := Forall₂_getLast? hsame t ht
  rw [r0.1] at hbu
  exact hinv.2 t0 st h0 hst bu hbu

theorem QueueInv_ingest (hist : List Step) (s0 s1 : SimpleChain) (bu : chain.BlockUpdate)
    (rps : List chain.ReceiptProof) (init : List chain.RelayMessage)
    (t t1 : chain.RelayMessage) (extra : List chain.RelayMessage)
    (add : List chain.BlockUpdate)
    (hinv : QueueInv hist s0) (hq : s0.rms = init ++ [t])
    (hgap : ∀ L, s0.lastBlockUpdate = some L → L.Height + 1 = bu.Height)
    (hbu : 0 ≤ bu.Height ∧ bu.Height < 2 ^ 63 - 1)
    (hrms : s1.rms = init ++ t1 :: extra) (hlast : s1.lastBlockUpdate = some bu)
    (hextra : ∀ e ∈ extra, e.BlockUpdates = [] ∧ e.ReceiptProofs = [])
    (hb : t1.BlockUpdates = t.BlockUpdates ++ add) (hadd : add = [bu] ∨ add = [])
    (hr : t1.ReceiptProofs = [] ∨
      (t1.ReceiptProofs = rps ∧ rps ≠ [] ∧ add = [bu] ∧ extra ≠ []))
    (habove : extra = [] → ∀ st, s1.bs = some st →
      ∀ b ∈ t1.BlockUpdates, st.Verifier.Height < b.Height)
    (hend : extra = [] → ∀ b, t1.BlockUpdates.getLast? = some b → b.Height = bu.Height) :
    QueueInv (hist ++ [Step.src bu rps]) s1 := by
  obtain ⟨hc, _⟩ := hinv
  have htail : s0.rms.getLast? = some t := by rw [hq]; simp
  have hinit : ∀ rm ∈ init, rm ∈ s0.rms := fun rm h => by rw [hq]; simp [h]
  have ht0 : t ∈ s0.rms := by rw [hq]; simp
  have hord0 := hc.ordered
  rw [hq, List.pairwise_append] at hord0
  have hold : ∀ rm ∈ s0.rms, ∀ b ∈ rm.BlockUpdates, 0 ≤ b.Height ∧ b.Height < bu.Height := by
    intro rm hrm b hbm
    obtain ⟨b1, L, hL, b2⟩ := hc.bounded rm hrm b hbm
    have := hgap L hL
    exact ⟨b1, by omega⟩
  have hmem : ∀ rm ∈ s1.rms, rm ∈ init ∨ rm = t1 ∨ rm ∈ extra := by
    intro rm hrm
    rw [hrms] at hrm
    simpa using hrm
  have hadd_mem : ∀ b ∈ add, b = bu := by
    intro b hbm
    rcases hadd with h1 | h1
    · rw [h1] at hbm; simpa using hbm
    · rw [h1] at hbm; simp at hbm
  have hlastq : s1.rms.getLast? = (t1 :: extra).getLast? := by
    rw [hrms, List.getLast?_append_of_ne_nil _ (by simp)]
  have htailcases : ∀ x, s1.rms.getLast? = some x → (extra = [] ∧ x = t1) ∨ x ∈ extra := by
    intro x hx
    rw [hlastq] at hx
    cases extra with
    | nil =>
      simp only [List.getLast?_singleton, Option.some.injEq] at hx
      exact Or.inl ⟨rfl, hx.symm⟩
    | cons e es =>
      rw [List.getLast?_cons_cons] at hx
      exact Or.inr (List.mem_of_getLast?_eq_some hx)
  refine ⟨{ ne := by rw [hrms]; simp, contig := ?_, ordered := ?_, bounded := ?_,
            lastOk := ?_, tailRps := ?_, tailLast := ?_, ghost := ?_ }, ?_⟩
  · intro rm hrm
    rcases hmem rm hrm with h1 | h1 | h1
    · exact hc.contig rm (hinit rm h1)
    · rw [h1, hb]
      rcases hadd with h2 | h2
      · rw [h2]
        refine List.Chain'.append (hc.contig t ht0) (List.chain'_singleton bu) ?_
        intro x hx y hy
        simp only [List.head?_cons, Option.mem_def, Option.some.injEq] at hy
        rw [← hy]
        obtain ⟨L, hL, e⟩ := hc.tailLast t x htail hx
        rw [e]
        exact (hgap L hL).symm
      · rw [h2, List.append_nil]
        exact hc.contig t ht0
    · rw [(hextra rm h1).1]
      exact List.chain'_nil
  · rw [hrms, List.pairwise_append]
    refine ⟨hord0.1, ?_, ?_⟩
    · rw [List.pairwise_cons]
      constructor
      · intro e he a _ b hbm
        rw [(hextra e he).1] at hbm
        simp at hbm
      · refine List.pairwise_of_forall_mem_list ?_
        intro e1 _ e2 he2 a _ b hbm
        rw [(hextra e2 he2).1] at hbm
        simp at hbm
    · intro e1 he1 e2 he2 a ha b hbm
      rcases List.mem_cons.1 he2 with h1 | h1
      · rw [h1, hb] at hbm
        rcases List.mem_append.1 hbm with h2 | h2
        · exact hord0.2.2 e1 he1 t (by simp) a ha b h2
        · rw [hadd_mem b h2]
          exact (hold e1 (hinit e1 he1) a ha).2
      · rw [(hextra e2 h1).1] at hbm
        simp at hbm
  · intro rm hrm b hbm
    rw [hlast]
    have hfin : 0 ≤ b.Height ∧ b.Height ≤ bu.Height := by
      rcases hmem rm hrm with h1 | h1 | h1
      · have := hold rm (hinit rm h1) b hbm
        omega
      · rw [h1, hb] at hbm
        rcases List.mem_append.1 hbm with h2 | h2
        · have := hold t ht0 b h2
          omega
        · rw [hadd_mem b h2]
          omega
      · rw [(hextra rm h1).1] at hbm
        simp at hbm
    exact ⟨hfin.1, bu, rfl, hfin.2⟩
  · intro L hL
    rw [hlast] at hL
    simp only [Option.some.injEq] at hL
    rw [← hL]
    exact hbu
  · intro x hx
    rcases htailcases x hx with ⟨h1, h2⟩ | h1
    · rw [h2]
      rcases hr with h3 | h3
      · exact h3
      · exact absurd h1 h3.2.2.2
    · exact (hextra x h1).2
  · intro x b hx hbx
    rcases htailcases x hx with ⟨h1, h2⟩ | h1
    · rw [h2] at hbx
      exact ⟨bu, hlast, hend h1 b hbx⟩
    · rw [(hextra x h1).1] at hbx
      simp at hbx
  · intro rm hrm hne
    rcases hmem rm hrm with h1 | h1 | h1
    · obtain ⟨b0, r0, g1, g2, g3, g4⟩ := hc.ghost rm (hinit rm h1) hne
      exact ⟨b0, r0, List.mem_append_left _ g1, g2, g3, g4⟩
    · rw [h1] at hne ⊢
      rcases hr with h3 | h3
      · exact absurd h3 hne
      · refine ⟨bu, rps, by simp, h3.2.1, ?_, by rw [h3.1]; exact PrunedOf_refl _⟩
        intro b hbx
        rw [hb, h3.2.2.1, List.getLast?_concat] at hbx
        simp only [Option.some.injEq] at hbx
        exact hbx.symm
    · exact absurd (hextra rm h1).2 hne
  · intro x st hx hst b hbx
    rcases htailcases x hx with ⟨h1, h2⟩ | h1
    · rw [h2] at hbx
      exact habove h1 st hst b hbx
    · rw [(hextra x h1).1] at hbx
      simp at hbx

theorem QueueInv_rm (hist : List Step) (s : SimpleChain) (hinv : QueueInv hist s) :
    QueueInv hist (_rm s) := by
  obtain ⟨hc, _⟩ := hinv
  have hmem : ∀ rm ∈ (_rm s).rms, rm ∈ s.rms ∨ rm = freshEntry s := by
    intro rm hrm
    simpa [_rm] using hrm
  have hlast : (_rm s).rms.getLast? = some (freshEntry s) := by simp [_rm]
  refine ⟨{ ne := _rm_rms_ne_nil s, contig := ?_, ordered := ?_, bounded := ?_,
            lastOk := hc.lastOk, tailRps := ?_, tailLast := ?_, ghost := ?_ }, ?_⟩
  · intro rm hrm
    rcases hmem rm hrm with h1 | h1
    · exact hc.contig rm h1
    · rw [h1]; exact List.chain'_nil
  · show (s.rms ++ [freshEntry s]).Pairwise _
    rw [List.pairwise_append]
    refine ⟨hc.ordered, by simp, ?_⟩
    intro e1 _ e2 he2 a _ b hbm
    simp only [List.mem_singleton] at he2
    rw [he2] at hbm
    simp [freshEntry] at hbm
  · intro rm hrm b hbm
    rcases hmem rm hrm with h1 | h1
    · exact hc.bounded rm h1 b hbm
    · rw [h1] at hbm; simp [freshEntry] at hbm
  · intro x hx
    rw [hlast] at hx
    simp only [Option.some.injEq] at hx
    rw [← hx]; rfl
  · intro x b hx hbx
    rw [hlast] at hx
    simp only [Option.some.injEq] at hx
    rw [← hx] at hbx
    simp [freshEntry] at hbx
  · intro rm hrm hne
    rcases hmem rm hrm with h1 | h1
    · exact hc.ghost rm h1 hne
    · rw [h1] at hne; exact absurd rfl hne
  · intro x st hx _ b hbx
    rw [hlast] at hx
    simp only [Option.some.injEq] at hx
    rw [← hx] at hbx
    simp [freshEntry] at hbx

theorem QueueInv_mono (hist more : List Step) (s : SimpleChain) (h : QueueInv hist s) :
    QueueInv (hist ++ more) s :=
  ⟨QueueCore_mono hist more s h.1, h.2⟩

theorem QueueInv_ingestTail (hist : List Step) (s0 s1 : SimpleChain) (bu : chain.BlockUpdate)
    (rps : List chain.ReceiptProof) (hinv : QueueInv hist s0)
    (hgap : ∀ L, s0.lastBlockUpdate = some L → L.Height + 1 = bu.Height)
    (hbu : 0 ≤ bu.Height ∧ bu.Height < 2 ^ 63 - 1)
    (hdone : ingestTail { s0 with lastBlockUpdate := some bu } bu rps = .done s1) :
    QueueInv (hist ++ [Step.src bu rps]) s1 := by
  obtain ⟨init, t, hq⟩ : ∃ init t, s0.rms = init ++ [t] := by
    rcases List.eq_nil_or_concat s0.rms with h0 | ⟨L, b, h0⟩
    · exact absurd h0 hinv.1.ne
    · exact ⟨L, b, by rw [h0, List.concat_eq_append]⟩
  have htail : s0.rms.getLast? = some t := by rw [hq]; simp
  have hrt := hinv.1.tailRps t htail
  unfold ingestTail at hdone
  by_cases hpos : rps.length > 0
  · rw [if_pos hpos] at hdone
    simp only [Outcome.done.injEq] at hdone
    have hrps : rps ≠ [] := List.length_pos.1 hpos
    refine QueueInv_ingest hist s0 s1 bu rps init t
      { t with BlockUpdates := t.BlockUpdates ++ [bu], ReceiptProofs := rps,
               HeightOfDst := s0.heightOfDst }
      [freshEntry { s0 with lastBlockUpdate := some bu, rms := init ++
        [{ t with BlockUpdates := t.BlockUpdates ++ [bu], ReceiptProofs := rps,
                  HeightOfDst := s0.heightOfDst }] }]
      [bu] hinv hq hgap hbu ?_ ?_ ?_ rfl (Or.inl rfl) (Or.inr ⟨rfl, hrps, rfl, by simp⟩)
      (fun h0 => by simp at h0) (fun h0 => by simp at h0)
    · rw [← hdone]
      simp only [_rm, hq, modifyLast_append]
      simp
    · rw [← hdone]; rfl
    · intro e he
      simp only [List.mem_singleton] at he
      rw [he]
      exact ⟨rfl, rfl⟩
  · rw [if_neg hpos] at hdone
    cases hbs : s0.bs with
    | none => simp [hbs] at hdone
    | some bs =>
      simp only [hbs] at hdone
      by_cases hle : bu.Height ≤ bs.Verifier.Height
      · rw [if_pos hle] at hdone
        simp only [Outcome.done.injEq] at hdone
        have hempty : t.BlockUpdates.getLast? = none := by
          cases hl : t.BlockUpdates.getLast? with
          | none => rfl
          | some b =>
            exfalso
            obtain ⟨L, hL, e⟩ := hinv.1.tailLast t b htail hl
            have h1 := hgap L hL
            have h2 := hinv.2 t bs htail hbs b (List.mem_of_getLast?_eq_some hl)
            omega
        refine QueueInv_ingest hist s0 s1 bu rps init t t [] [] hinv hq hgap hbu ?_ ?_ ?_
          (by simp) (Or.inr rfl) (Or.inl hrt) ?_ ?_
        · rw [← hdone]; exact hq
        · rw [← hdone]
        · intro e he; simp at he
        · intro _ st hst b hb
          rw [← hdone] at hst
          exact hinv.2 t st htail (hbs.trans hst) b hb
        · intro _ b hb
          rw [hempty] at hb
          simp at hb
      · rw [if_neg hle] at hdone
        simp only [Outcome.done.injEq] at hdone
        refine QueueInv_ingest hist s0 s1 bu rps init t
          { t with BlockUpdates := t.BlockUpdates ++ [bu] } [] [bu] hinv hq hgap hbu ?_ ?_ ?_
          rfl (Or.inl rfl) (Or.inl hrt) ?_ ?_
        · rw [← hdone]
          simp only [hq, modifyLast_append]
        · rw [← hdone]
        · intro e he; simp at he
        · intro _ st hst b hb
          rw [← hdone] at hst
          simp only at hst
          rcases List.mem_append.1 hb with h1 | h1
          · exact hinv.2 t st htail (hbs.trans hst) b h1
          · simp only [List.mem_singleton] at h1
            simp only [Option.some.injEq] at hst
            rw [h1, ← hst]
            omega
        · intro _ b hb
          simp only [List.getLast?_concat, Option.some.injEq] at hb
          rw [← hb]

theorem addRelayMessage_eq (s : SimpleChain) (bu : chain.BlockUpdate)
    (rps : List chain.ReceiptProof) :
    addRelayMessage s bu rps =
      if invalidBu s bu then .crash s .invalidBu
      else
        match s.rms.getLast? with
        | none => .crash { s with lastBlockUpdate := some bu } .indexOutOfRange
        | some rm =>
          ingestTail { (if rm.Segments.length > 0 then _rm s else s) with
                        lastBlockUpdate := some bu } bu rps := by
  unfold addRelayMessage ingestTail
  by_cases hg : invalidBu s bu = true
  · rw [if_pos hg, if_pos hg]
  · rw [if_neg hg, if_neg hg]
    cases hl : s.rms.getLast? with
    | none => simp only [hl]
    | some rm =>
      simp only [hl]
      by_cases hs : rm.Segments.length > 0
      · simp only [if_pos hs]
        rfl
      · simp only [if_neg hs]

theorem QueueInv_addRelayMessage (hist : List Step) (s s1 : SimpleChain)
    (bu : chain.BlockUpdate) (rps : List chain.ReceiptProof) (hinv : QueueInv hist s)
    (hbu : 0 ≤ bu.Height ∧ bu.Height < 2 ^ 63 - 1)
    (hdone : addRelayMessage s bu rps = .done s1) :
    QueueInv (hist ++ [Step.src bu rps]) s1 := by
  rw [addRelayMessage_eq] at hdone
  by_cases hg : invalidBu s bu = true
  · rw [if_pos hg] at hdone
    simp at hdone
  · rw [if_neg hg] at hdone
    have hgap : ∀ L, s.lastBlockUpdate = some L → L.Height + 1 = bu.Height := by
      intro L hL
      have hr := hinv.1.lastOk L hL
      unfold invalidBu at hg
      rw [hL] at hg
      simp only [decide_eq_true_eq, ne_eq, not_not] at hg
      rw [← hg]
      unfold wrap64
      omega
    cases hl : s.rms.getLast? with
    | none => simp [hl] at hdone
    | some rm =>
      simp only [hl] at hdone
      by_cases hs : rm.Segments.length > 0
      · rw [if_pos hs] at hdone
        exact QueueInv_ingestTail hist (_rm s) s1 bu rps (QueueInv_rm hist s hinv) hgap hbu hdone
      · rw [if_neg hs] at hdone
        exact QueueInv_ingestTail hist s s1 bu rps hinv hgap hbu hdone

theorem updateMTA_queue (d : Deps) (s s1 : SimpleChain) (bu : chain.BlockUpdate)
    (h : updateMTA d s bu = .done s1) :
    s1.rms = s.rms ∧ s1.lastBlockUpdate = s.lastBlockUpdate ∧ s1.bs = s.bs := by
  unfold updateMTA at h
  cases ha : s.acc with
  | none => simp [ha] at h
  | some acc =>
    simp only [ha] at h
    by_cases h1 : wrap64 (acc.Height + 1) < bu.Height
    · rw [if_pos h1] at h; simp at h
    · rw [if_neg h1] at h
      by_cases h2 : wrap64 (acc.Height + 1) = bu.Height
      · rw [if_pos h2] at h
        cases hf : d.Flush (acc.AddHash bu.BlockHash) with
        | some e => simp [hf] at h
        | none =>
          simp only [hf, Outcome.done.injEq] at h
          rw [← h]
          exact ⟨rfl, rfl, rfl⟩
      · rw [if_neg h2] at h
        simp only [Outcome.done.injEq] at h
        rw [← h]
        exact ⟨rfl, rfl, rfl⟩

theorem QueueInv_congr (hist : List Step) (s s1 : SimpleChain) (hinv : QueueInv hist s)
    (h1 : s1.rms = s.rms) (h2 : s1.lastBlockUpdate = s.lastBlockUpdate) (h3 : s1.bs = s.bs) :
    QueueInv hist s1 := by
  refine ⟨QueueCore_shrink hist s s1 hinv.1 (by rw [h1]; exact Forall₂_Shrinks_refl _) h2, ?_⟩
  intro t st ht hst
  rw [h1] at ht
  rw [h3] at hst
  exact hinv.2 t st ht hst

theorem QueueInv_runStep (d : Deps) (hist : List Step) (s s1 : SimpleChain) (st : Step)
    (hinv : QueueInv hist s) (hr : st.inRange = true) (hrun : runStep d s st = some s1) :
    QueueInv (hist ++ [st]) s1 := by
  cases st with
  | src bu rps =>
    simp only [Step.inRange, decide_eq_true_eq] at hr
    simp only [runStep] at hrun
    cases ho : OnBlockOfSrc d s bu rps with
    | done s2 =>
      rw [ho] at hrun
      simp only [Option.some.injEq] at hrun
      subst hrun
      unfold OnBlockOfSrc at ho
      cases hu : updateMTA d s bu with
      | done s3 =>
        rw [hu] at ho
        simp only at ho
        obtain ⟨u1, u2, u3⟩ := updateMTA_queue d s s3 bu hu
        exact QueueInv_addRelayMessage hist s3 s2 bu rps
          (QueueInv_congr hist s s3 hinv u1 u2 u3) hr ho
      | failed s3 e => rw [hu] at ho; simp at ho
      | crash s3 c => rw [hu] at ho; simp at ho
    | failed s2 e => rw [ho] at hrun; simp at hrun
    | crash s2 c => rw [ho] at hrun; simp at hrun
  | dst height status sameSeq =>
    simp only [Step.inRange, decide_eq_true_eq] at hr
    simp only [runStep] at hrun
    cases ho : OnBlockOfDst d s height (.ok status) sameSeq with
    | done s2 =>
      rw [ho] at hrun
      simp only [Option.some.injEq] at hrun
      subst hrun
      exact QueueInv_mono hist _ _ (QueueInv_OnBlockOfDst d hist s s2 height status sameSeq
        hinv hr ho)
    | failed s2 e => rw [ho] at hrun; simp at hrun
    | crash s2 c => rw [ho] at hrun; simp at hrun
  | relay =>
    simp only [runStep] at hrun
    cases hc : (_relay d s).2.2 with
    | none =>
      rw [hc] at hrun
      simp only [Option.some.injEq] at hrun
      subst hrun
      exact QueueInv_mono hist _ _ (QueueInv_relay d hist s hinv)
    | some c => rw [hc] at hrun; simp at hrun

theorem QueueInv_runSteps (d : Deps) (steps : List Step) :
    ∀ (hist : List Step) (s s1 : SimpleChain), QueueInv hist s →
      (∀ st ∈ steps, st.inRange = true) → runSteps d s steps = some s1 →
      QueueInv (hist ++ steps) s1 := by
  induction steps with
  | nil =>
    intro hist s s1 hinv _ hrun
    simp only [runSteps, Option.some.injEq] at hrun
    subst hrun
    simpa using hinv
  | cons st rest ih =>
    intro hist s s1 hinv hr hrun
    rw [runSteps] at hrun
    cases hs : runStep d s st with
    | none => rw [hs] at hrun; simp at hrun
    | some s2 =>
      rw [hs] at hrun
      simp only at hrun
      have h2 := QueueInv_runStep d hist s s2 st hinv (hr st (List.mem_cons_self _ _)) hs
      have h3 := ih (hist ++ [st]) s2 s1 h2 (fun x hx => hr x (List.mem_cons_of_mem _ hx)) hrun
      simpa using h3

theorem QueueInv_start (src dst : String) (acc : Option mta.ExtAccumulator)
    (bs : Option chain.BMCLinkStatus) : QueueInv [] (startChain src dst acc bs) := by
  refine ⟨QueueCore_fresh [] _ _ rfl rfl rfl ?_, ?_⟩
  · intro L hL
    simp [startChain, NewChain, _rm] at hL
  · intro t st ht _ b hb
    simp only [startChain, NewChain, _rm, List.nil_append, List.getLast?_singleton,
      Option.some.injEq] at ht
    rw [← ht] at hb
    simp [freshEntry] at hb

/-- C22: contiguity invariant.  Start from the chain `NewChain` builds, with
any accumulator and destination status, and run any sequence of steps, each
of which completes: `OnBlockOfSrc` calls, `OnBlockOfDst` calls that return nil
and dispatch passes that do not panic, with block heights and verifier heights
in `[0, 2^63 - 1)`.  In the state reached, the block updates of every entry
ascend in height by exactly one from each to the next; and an entry that holds
receipt proofs and block updates ends with the block update that one
`OnBlockOfSrc` step brought together with receipt proofs, and its receipt
proofs are those of that step, pruned. -/
theorem contiguity_invariant (d : Deps) (src dst : String)
    (acc : Option mta.ExtAccumulator) (bs : Option chain.BMCLinkStatus)
    (steps : List Step) (s : SimpleChain) (hr : ∀ st ∈ steps, st.inRange = true)
    (hrun : runSteps d (startChain src dst acc bs) steps = some s) :
    ∀ rm ∈ s.rms, Contiguous rm.BlockUpdates ∧
      (rm.ReceiptProofs ≠ [] → rm.BlockUpdates ≠ [] →
        ∃ bu rps, Step.src bu rps ∈ steps ∧ rps ≠ [] ∧
          rm.BlockUpdates.getLast? = some bu ∧ PrunedOf rm.ReceiptProofs rps) := by
  have hinv := QueueInv_runSteps d steps [] _ s (QueueInv_start src dst acc bs) hr hrun
  simp only [List.nil_append] at hinv
  intro rm hrm
  refine ⟨hinv.1.contig rm hrm, ?_⟩
  intro hne hbne
  obtain ⟨bu, rps, g1, g2, g3, g4⟩ := hinv.1.ghost rm hrm hne
  refine ⟨bu, rps, g1, g2, ?_, g4⟩
  cases hl : rm.BlockUpdates.getLast? with
  | none => exact absurd (List.getLast?_eq_none_iff.1 hl) hbne
  | some b => rw [g3 b hl]

/-- C22 (witness): the run `sampleRun` from an accumulator at height 0 and
verifier height 0 completes and leaves two entries, with block updates 2, 3
(and the receipt proof ingested with block update 3) and block update 4. -/
theorem contiguity_invariant_witness :
    (∀ st ∈ sampleRun, st.inRange = true) ∧
    ∃ s, runSteps (stubDeps 10 [])
        (startChain "src" "dst" (some { offset := 0, hashes := [] }) (some (statusAt 0)))
        sampleRun = some s ∧
      s.rms.map (fun rm => (rm.BlockUpdates.map (fun bu => bu.Height), rm.ReceiptProofs.length))
        = [([2, 3], 1), ([4], 0)] ∧
      ∀ rm ∈ s.rms, Contiguous rm.BlockUpdates ∧
        (rm.ReceiptProofs ≠ [] → rm.BlockUpdates ≠ [] →
          ∃ bu rps, Step.src bu rps ∈ sampleRun ∧ rps ≠ [] ∧
            rm.BlockUpdates.getLast? = some bu ∧ PrunedOf rm.ReceiptProofs rps) := by
  have hr : ∀ st ∈ sampleRun, st.inRange = true := by decide
  have hN : (runSteps (stubDeps 10 [])
      (startChain "src" "dst" (some { offset := 0, hashes := [] }) (some (statusAt 0)))
      sampleRun).map
        (fun s => s.rms.map
          (fun rm => (rm.BlockUpdates.map (fun bu => bu.Height), rm.ReceiptProofs.length)))
      = some [([2, 3], 1), ([4], 0)] := by decide
  refine ⟨hr, ?_⟩
  cases hS : runSteps (stubDeps 10 [])
      (startChain "src" "dst" (some { offset := 0, hashes := [] }) (some (statusAt 0)))
      sampleRun with
  | none => rw [hS] at hN; simp at hN
  | some s =>
    rw [hS] at hN
    simp only [Option.map_some', Option.some.injEq] at hN
    exact ⟨s, rfl, hN, contiguity_invariant (stubDeps 10 []) "src" "dst" _ _ sampleRun s hr hS⟩

end bsc

namespace icon

set_option maxRecDepth 100000

theorem getLast?_cons_some {α : Type} (a : α) (l : List α) (x : α)
    (h : l.getLast? = some x) : (a :: l).getLast? = some x := by
  cases l with
  | nil => simp at h
  | cons b t => rw [List.getLast?_cons_cons]; exact h

theorem fragmentLoop_spec (limit : Nat) (h : SendCall → Nat) :
    ∀ (idx : Nat) (msg : Bytes), idx * limit ≤ msg.length → msg.length < (idx + 1) * limit →
      (fragmentLoop limit (fun c => .ok (h c)) idx msg).1.map (fun c => c.index)
          = (List.range (idx + 1)).reverse.map (fun (k : Nat) => some (Int.ofNat k)) ∧
      (∀ c ∈ (fragmentLoop limit (fun c => .ok (h c)) idx msg).1,
          c.method = .BMCFragmentMethod ∧ c.messages.length ≤ limit) ∧
      ((fragmentLoop limit (fun c => .ok (h c)) idx msg).1.map (fun c => c.messages)).flatten
          = msg ∧
      ∃ last, (fragmentLoop limit (fun c => .ok (h c)) idx msg).1.getLast? = some last ∧
        (fragmentLoop limit (fun c => .ok (h c)) idx msg).2 = .ok (h last) := by
  intro idx
  induction idx with
  | zero =>
    intro msg _ hhi
    simp only [fragmentLoop]
    refine ⟨by simp [sendFragment, List.range_succ], ?_, by simp [sendFragment],
      ⟨sendFragment msg 0, by simp, rfl⟩⟩
    intro c hc
    simp only [List.mem_singleton] at hc
    subst hc
    refine ⟨rfl, ?_⟩
    show msg.length ≤ limit
    omega
  | succ n ih =>
    intro msg hlo hhi
    have e1 : (n + 1) * limit = n * limit + limit := Nat.succ_mul n limit
    have e2 : (n + 1 + 1) * limit = (n + 1) * limit + limit := Nat.succ_mul (n + 1) limit
    have hge : ¬ msg.length < limit := by omega
    obtain ⟨i1, i2, i3, last, i4, i5⟩ := ih (msg.drop limit)
      (by rw [List.length_drop]; omega) (by rw [List.length_drop]; omega)
    rw [fragmentLoop]
    rw [if_neg hge]
    simp only
    refine ⟨?_, ?_, ?_, ⟨last, getLast?_cons_some _ _ _ i4, i5⟩⟩
    · rw [List.map_cons, i1]
      rw [List.range_succ (n + 1)]
      simp [sendFragment]
    · intro c hc
      rcases List.mem_cons.1 hc with hc | hc
      · subst hc
        refine ⟨rfl, ?_⟩
        show (msg.take limit).length ≤ limit
        rw [List.length_take]; omega
      · exact i2 c hc
    · rw [List.map_cons, List.flatten_cons, i3]
      simp [sendFragment]

/-- C15: fragmentation in `Relay`, for a positive `txSizeLimit`, a transport
that accepts every transaction, a payload `msg` and `N = len(msg) / txSizeLimit`.
If `N = 0`, one `BMCRelayMethod` call carries `msg` and its handle is returned.
Otherwise `N + 1` calls are made, all `BMCFragmentMethod`, with the indices
`-N, N-1, ..., 1, 0` in this order; no slice is out of bounds, every fragment
has at most `txSizeLimit` bytes, the fragments concatenated in order are `msg`,
and the handle returned is that of the last fragment. -/
theorem Relay_fragments (limit : Nat) (hpos : 0 < limit) (h : SendCall → Nat) (msg : Bytes) :
    (msg.length / limit = 0 →
      Relay limit (fun c => .ok (h c)) msg =
        ([{ method := .BMCRelayMethod, messages := msg, index := none }],
         .ok (h { method := .BMCRelayMethod, messages := msg, index := none }))) ∧
    (0 < msg.length / limit →
      (Relay limit (fun c => .ok (h c)) msg).1.length = msg.length / limit + 1 ∧
      (Relay limit (fun c => .ok (h c)) msg).1.map (fun c => c.index)
        = fragmentIndices (msg.length / limit) ∧
      (∀ c ∈ (Relay limit (fun c => .ok (h c)) msg).1,
        c.method = .BMCFragmentMethod ∧ c.messages.length ≤ limit) ∧
      ((Relay limit (fun c => .ok (h c)) msg).1.map (fun c => c.messages)).flatten = msg ∧
      ∃ last, (Relay limit (fun c => .ok (h c)) msg).1.getLast? = some last ∧
        (Relay limit (fun c => .ok (h c)) msg).2 = .ok (h last)) := by
  have hl0 : ((limit : Nat) : Int) ≠ 0 := by omega
  have hdiv : Int.tdiv (msg.length : Int) (limit : Int) = ((msg.length / limit : Nat) : Int) :=
    (Int.ofNat_tdiv _ _).symm
  constructor
  · intro h0
    unfold Relay
    rw [if_neg hl0]
    simp only [hdiv, h0]
    simp
  · intro hN
    have hmul : msg.length / limit * limit ≤ msg.length := Nat.div_mul_le_self _ _
    have hmod := Nat.div_add_mod msg.length limit
    have hml := Nat.mod_lt msg.length hpos
    have hcomm : limit * (msg.length / limit) = msg.length / limit * limit := Nat.mul_comm _ _
    obtain ⟨q, hq⟩ : ∃ q, msg.length / limit = q + 1 := ⟨msg.length / limit - 1, by omega⟩
    have e1 : (q + 1) * limit = q * limit + limit := Nat.succ_mul q limit
    have hmod2 : (q + 1) * limit + msg.length % limit = msg.length := by
      rw [← hq, Nat.mul_comm]; exact hmod
    have hge : limit ≤ msg.length := by rw [hq] at hmul; omega
    have hidx : ((((q + 1 : Nat) : Int) - 1).toNat) = q := by omega
    obtain ⟨i1, i2, i3, last, i4, i5⟩ := fragmentLoop_spec limit h q (msg.drop limit)
      (by rw [List.length_drop]; rw [hq] at hmul; omega)
      (by rw [List.length_drop]; omega)
    have hne : ¬ (((q + 1 : Nat) : Int) = 0) := by omega
    have hb : ¬ ((limit : Int) < 0 ∨ (msg.length : Int) < (limit : Int)) := by omega
    unfold Relay
    rw [if_neg hl0]
    simp only [hdiv, hq]
    rw [if_neg hne, if_neg hb]
    simp only [Int.toNat_ofNat, hidx]
    refine ⟨?_, ?_, ?_, ?_, ⟨last, getLast?_cons_some _ _ _ i4, i5⟩⟩
    · have hlen := congrArg List.length i1
      simp only [List.length_map, List.length_reverse, List.length_range] at hlen
      simp only [List.length_cons, hlen]
    · rw [List.map_cons, i1]
      unfold fragmentIndices
      rw [List.range_succ q]
      simp [sendFragment]
    · intro c hc
      rcases List.mem_cons.1 hc with hc | hc
      · subst hc
        refine ⟨rfl, ?_⟩
        show (msg.take limit).length ≤ limit
        rw [List.length_take]; omega
      · exact i2 c hc
    · rw [List.map_cons, List.flatten_cons, i3]
      simp [sendFragment]

/-- C15 (witness): a payload of 9 bytes under the limit 4 is sent as three
fragments with the indices -2, 1, 0; a payload of 3 bytes is sent whole. -/
theorem Relay_fragments_witness :
    0 < 4 ∧
    Relay 4 acceptAll [1, 2, 3, 4, 5, 6, 7, 8, 9]
      = ([sendFragment [1, 2, 3, 4] (-2), sendFragment [5, 6, 7, 8] 1, sendFragment [9] 0],
         .ok 1) ∧
    (Relay 4 acceptAll [1, 2, 3, 4, 5, 6, 7, 8, 9]).1.map (fun c => c.index)
      = fragmentIndices 2 ∧
    Relay 4 acceptAll [1, 2, 3]
      = ([{ method := .BMCRelayMethod, messages := [1, 2, 3], index := none }], .ok 3) :=
  ⟨by decide, by decide,
   ((Relay_fragments 4 (by decide) (fun c => c.messages.length)
      [1, 2, 3, 4, 5, 6, 7, 8, 9]).2 (by decide)).2.1,
   (Relay_fragments 4 (by decide) (fun c => c.messages.length) [1, 2, 3]).1 (by decide)⟩

end icon
